import Mathlib

/-! Polymarket trader dashboard: PnL-history reconstruction and trader classification.

A shallow embedding of the algorithmic core of the dashboard:

* `src/api/pnl-history.js` (duplicated verbatim in `src/server.js`): `fetchPnLHistory`,
  `fetchPnLHistoryFallback` and its inner helper `generateTimeline`;
* `src/traders.js`: `classifyTraderStrategy`.

Numbers are modelled in exact arithmetic: epoch timestamps are integers (`Int`),
dollar amounts are rationals (`ℚ`).  `Math.random()` is an explicit stream
`rnd : Nat → ℚ` together with a counter of the draws made so far.
-/

namespace PnlHistory

/-! ## Data model -/

/-- One point of a PnL series, `{ timestamp, pnl }` with `timestamp` in epoch milliseconds. -/
structure Point where
  timestamp : Int
  pnl : ℚ
deriving DecidableEq, Repr

/-- A trade as read by the reconstructor: only `timestamp` (epoch seconds) is used;
`none` stands for a missing (falsy) field. -/
structure Trade where
  timestamp : Option Int
deriving DecidableEq, Repr

/-- The period deltas `{ all, month, week, day }` returned by `fetchAllPeriodPnLs`. -/
structure PeriodPnLs where
  all : ℚ
  month : ℚ
  week : ℚ
  day : ℚ
deriving DecidableEq, Repr

/-- The result object. It is created as the literal `{ '1D': [], '1W': [], '1M': [], 'ALL': [] }`,
whose four own properties are the fields `s1D`, `s1W`, `s1M` and `sALL`. `extra` lists the own
properties that assignments `result[key] = array` have created under other keys, oldest first.
`proto` is `none` while the prototype of the object is `Object.prototype`, and `some a` once
the assignment `result['__proto__'] = a` has made the array `a` its prototype. -/
structure PnLHistory where
  s1D : List Point
  s1W : List Point
  s1M : List Point
  sALL : List Point
  extra : List (String × List Point) := []
  proto : Option (List Point) := none
deriving DecidableEq, Repr

/-- The literal `{ '1D': [], '1W': [], '1M': [], 'ALL': [] }`. -/
def PnLHistory.empty : PnLHistory := { s1D := [], s1W := [], s1M := [], sALL := [] }

/-- The list of the four series of a history, in key order. -/
def PnLHistory.series (h : PnLHistory) : List (List Point) := [h.s1D, h.s1W, h.s1M, h.sALL]

/-! ## `generateTimeline` -/

/-- `Math.round` on an exact value: the nearest integer, halves rounded towards `+∞`. -/
def jsRound (x : ℚ) : Int := ⌊x + 1 / 2⌋

/-- The expression `(t.timestamp || 0) * 1000`: trade time in milliseconds. -/
def tradeMs (t : Trade) : Int := t.timestamp.getD 0 * 1000

/-- The filter `ts >= startTime && ts <= endTime` selecting `periodTrades`. -/
def periodTrades (startTime endTime : Int) (trades : List Trade) : List Trade :=
  trades.filter (fun t => decide (tradeMs t ≥ startTime) && decide (tradeMs t ≤ endTime))

/-- The body of the even-spacing loop at index `i`. -/
def evenPoint (startTime endTime : Int) (startPnl endPnl : ℚ) (points : Nat) (i : Nat) : Point :=
  let duration : Int := endTime - startTime
  let step : ℚ := (duration : ℚ) / ((points : ℚ) - 1)
  let t : ℚ := (startTime : ℚ) + step * (i : ℚ)
  let progress : ℚ := (i : ℚ) / ((points : ℚ) - 1)
  let pnl : ℚ := startPnl + (endPnl - startPnl) * progress
  { timestamp := jsRound t, pnl := pnl }

/-- Loop state of the trade branch: the timeline built so far, `lastTs`, and the number of
`Math.random()` draws made so far. -/
structure LoopState where
  timeline : List Point
  lastTs : Int
  draws : Nat
deriving Repr

/-- One iteration of `for (const trade of periodTrades)`. -/
def tradeStep (rnd : Nat → ℚ) (startTime endTime : Int) (startPnl endPnl : ℚ)
    (s : LoopState) (trade : Trade) : LoopState :=
  let duration : Int := endTime - startTime
  let ts : Int := tradeMs trade
  let progress : ℚ := ((ts - startTime : Int) : ℚ) / (duration : ℚ)
  let pnl : ℚ := startPnl + (endPnl - startPnl) * progress
  let variation : ℚ := (rnd s.draws - 1 / 2) * (4 / 100) * |endPnl - startPnl|
  let variedPnl : ℚ := pnl + variation
  { timeline := s.timeline ++ [{ timestamp := ts, pnl := variedPnl }]
    lastTs := ts
    draws := s.draws + 1 }

/-- The assignment `timeline[timeline.length - 1].pnl = v`. -/
def pinLast (timeline : List Point) (v : ℚ) : List Point :=
  match timeline.getLast? with
  | none => timeline
  | some p => timeline.dropLast ++ [{ p with pnl := v }]

/-- The helper `generateTimeline(startTime, endTime, startPnl, endPnl, points, trades)`.
`rnd` is the stream of `Math.random()` values and `n` the number of draws made before the
call; the result is the timeline together with the number of draws made after it. -/
def generateTimeline (rnd : Nat → ℚ) (n : Nat) (startTime endTime : Int) (startPnl endPnl : ℚ)
    (points : Nat) (trades : List Trade) : List Point × Nat :=
  let pt := periodTrades startTime endTime trades
  if pt.length = 0 ∨ points ≤ 2 then
    ((List.range points).map (evenPoint startTime endTime startPnl endPnl points), n)
  else
    let init : LoopState :=
      { timeline := [{ timestamp := startTime, pnl := startPnl }], lastTs := startTime, draws := n }
    let s := pt.foldl (tradeStep rnd startTime endTime startPnl endPnl) init
    if s.lastTs < endTime - 60000 then
      (s.timeline ++ [{ timestamp := endTime, pnl := endPnl }], s.draws)
    else
      (pinLast s.timeline endPnl, s.draws)

/-! ## `fetchPnLHistoryFallback` -/

/-- The sort key `(a.timestamp || 0)` of the comparator. -/
def sortKey (t : Trade) : Int := t.timestamp.getD 0

/-- The call `trades.sort((a, b) => (a.timestamp || 0) - (b.timestamp || 0))`: a stable sort,
ascending in the key. -/
def sortTrades (trades : List Trade) : List Trade :=
  trades.insertionSort (fun a b => sortKey a ≤ sortKey b)

/-- Milliseconds in one day, `24 * 60 * 60 * 1000`. -/
def dayMs : Int := 24 * 60 * 60 * 1000

/-- The start of the `ALL` window: 180 days back, or the first trade if it is known and
earlier. -/
def allStartTime (now : Int) (sortedTrades : List Trade) : Int :=
  let dflt : Int := now - 180 * dayMs
  match sortedTrades.head? with
  | none => dflt
  | some t =>
    let firstTradeTs := tradeMs t
    if 0 < firstTradeTs ∧ firstTradeTs < dflt then firstTradeTs else dflt

/-- The body of `fetchPnLHistoryFallback` after the two upstream fetches have resolved with
`periodPnLs` and `trades`, `now` being the value of `Date.now()`. -/
def fetchPnLHistoryFallback (rnd : Nat → ℚ) (periodPnLs : PeriodPnLs) (trades : List Trade)
    (now : Int) : PnLHistory :=
  let dayAgo := now - dayMs
  let weekAgo := now - 7 * dayMs
  let monthAgo := now - 30 * dayMs
  let totalPnL := periodPnLs.all
  let monthChange := periodPnLs.month
  let weekChange := periodPnLs.week
  let dayChange := periodPnLs.day
  let pnlAtMonthStart := totalPnL - monthChange
  let pnlAtWeekStart := totalPnL - weekChange
  let pnlAtDayStart := totalPnL - dayChange
  let sortedTrades := sortTrades trades
  let r1 := generateTimeline rnd 0 dayAgo now pnlAtDayStart totalPnL 48 sortedTrades
  let r2 := generateTimeline rnd r1.2 weekAgo now pnlAtWeekStart totalPnL 84 sortedTrades
  let r3 := generateTimeline rnd r2.2 monthAgo now pnlAtMonthStart totalPnL 60 sortedTrades
  let r4 := generateTimeline rnd r3.2 (allStartTime now sortedTrades) now 0 totalPnL 100 sortedTrades
  { s1D := r1.1, s1W := r2.1, s1M := r3.1, sALL := r4.1 }

/-! ## `fetchPnLHistory` -/

/-- One entry `{ t, p }` of a scraped `portfolio-pnl` payload: `t` in epoch seconds, `p` in
dollars. -/
structure RawPoint where
  t : Int
  p : ℚ
deriving DecidableEq, Repr

/-- A dehydrated query of the profile page. `queryKey` is `none` when it is not an array; a
component of the key is given by the string it converts to when it is used as a property name
(a string is itself), a first component that is not a string by a string other than
`'portfolio-pnl'`, which it never `===`. `data` is `query.state?.data`, `none` when it is not
an array. -/
structure Query where
  queryKey : Option (List String)
  data : Option (List RawPoint)
deriving DecidableEq, Repr

/-- The four keys of the literal that creates the result object. -/
def timeframeKeys : List String := ["1D", "1W", "1M", "ALL"]

/-- The string-keyed properties of `Object.prototype` in Node.js. Every one of them is a method
or, for `__proto__`, an accessor whose getter returns the prototype of the object: none reads
as `undefined`. -/
def objectPrototypeKeys : List String :=
  ["constructor", "__defineGetter__", "__defineSetter__", "hasOwnProperty", "__lookupGetter__",
   "__lookupSetter__", "isPrototypeOf", "propertyIsEnumerable", "toString", "valueOf",
   "__proto__", "toLocaleString"]

/-- The key is the decimal numeral of an index below `n`: the name of an element of an array of
length `n`. -/
def isIndexBelow (key : String) (n : Nat) : Bool :=
  (List.range n).any (fun i => toString i == key)

/-- The series stored under one of the four timeframe keys of a history; `none` for every other
key. -/
def PnLHistory.get? (r : PnLHistory) (timeframe : String) : Option (List Point) :=
  if timeframe = "1D" then some r.s1D
  else if timeframe = "1W" then some r.s1W
  else if timeframe = "1M" then some r.s1M
  else if timeframe = "ALL" then some r.sALL
  else none

/-- The object has an own property under the key. -/
def PnLHistory.hasOwn (r : PnLHistory) (key : String) : Bool :=
  decide (key ∈ timeframeKeys) || r.extra.any (fun e => e.1 == key)

/-- The test `result[timeframe] !== undefined`: the property lookup walks the own properties and
then the prototype chain. With the prototype `Object.prototype` the chain holds
`objectPrototypeKeys`; once an array `a` has become the prototype the chain is `a` (its
elements and `length`), then `Array.prototype`, whose string keys in the running engine are
`arrayPrototypeKeys`, then `Object.prototype`. Every value found is an array, a point object, a
number, a function, or the prototype itself, never `undefined`. -/
def PnLHistory.isDefined (arrayPrototypeKeys : List String) (r : PnLHistory)
    (timeframe : String) : Bool :=
  r.hasOwn timeframe ||
  (match r.proto with
    | none => false
    | some a =>
      isIndexBelow timeframe a.length || timeframe == "length" ||
        decide (timeframe ∈ arrayPrototypeKeys)) ||
  decide (timeframe ∈ objectPrototypeKeys)

/-- The assignment `result[timeframe] = v`, executed only where `result[timeframe]` is defined.
An own property is overwritten. Otherwise the property is inherited: for `__proto__` the
inherited setter makes the array `v` the prototype of the object and creates no property; every
other inherited property is a writable data property, so the assignment creates an own
property under the key. -/
def PnLHistory.set (r : PnLHistory) (timeframe : String) (v : List Point) : PnLHistory :=
  if timeframe = "1D" then { r with s1D := v }
  else if timeframe = "1W" then { r with s1W := v }
  else if timeframe = "1M" then { r with s1M := v }
  else if timeframe = "ALL" then { r with sALL := v }
  else if r.extra.any (fun e => e.1 == timeframe) then
    { r with extra := r.extra.map (fun e => if e.1 = timeframe then (timeframe, v) else e) }
  else if timeframe = "__proto__" then { r with proto := some v }
  else { r with extra := r.extra ++ [(timeframe, v)] }

/-- The expression `queryKey.length > 3 ? queryKey[3] : queryKey[1]`. -/
def timeframeOf (queryKey : List String) : Option String :=
  if queryKey.length > 3 then queryKey[3]? else queryKey[1]?

/-- The conversion `{t, p} -> { timestamp: t * 1000, pnl: p }`. -/
def convertPoint (point : RawPoint) : Point := { timestamp := point.t * 1000, pnl := point.p }

/-- The value `new Set(data.map(p => p.p)).size`. -/
def uniqueCount (data : List RawPoint) : Nat := ((data.map RawPoint.p).dedup).length

/-- State of the scan over `queries`: the `result` object and the flag `hasVariation`. -/
structure ScanState where
  result : PnLHistory
  hasVariation : Bool
deriving DecidableEq, Repr

/-- One iteration of `for (const query of queries)`. -/
def scanStep (arrayPrototypeKeys : List String) (s : ScanState) (query : Query) : ScanState :=
  match query.queryKey with
  | none => s
  | some queryKey =>
    if queryKey[0]? = some "portfolio-pnl" then
      match timeframeOf queryKey, query.data with
      | some timeframe, some data =>
        if data.length > 0 ∧ s.result.isDefined arrayPrototypeKeys timeframe = true then
          { result := s.result.set timeframe (data.map convertPoint)
            hasVariation := if uniqueCount data > 1 then true else s.hasVariation }
        else s
      | _, _ => s
    else s

/-- The whole scan, started from the empty result and `hasVariation = false`. -/
def scanQueries (arrayPrototypeKeys : List String) (queries : List Query) : ScanState :=
  queries.foldl (scanStep arrayPrototypeKeys) { result := PnLHistory.empty, hasVariation := false }

/-- A cache record `{ data, timestamp }`. -/
structure CacheEntry where
  data : PnLHistory
  timestamp : Int
deriving DecidableEq, Repr

/-- The module-level `cache` map, from cache key to record. -/
abbrev Cache := String → Option CacheEntry

/-- The constant `CACHE_TTL`: 60 seconds. -/
def CACHE_TTL : Int := 60000

/-- The template string for the cache key of a wallet. -/
def cacheKey (walletAddress : String) : String := "pnl-history-" ++ walletAddress

/-- The call `cache.set(key, entry)`. -/
def Cache.set (cache : Cache) (key : String) (entry : CacheEntry) : Cache :=
  fun k => if k = key then some entry else cache k

/-- Everything one call of `fetchPnLHistory` reads from outside: the string keys of
`Array.prototype` in the running engine, the clock at the cache check, the parsed `queries` of
the profile page (`none` when the request fails, the page has no `__NEXT_DATA__` block, or
parsing or scanning throws), the clock when the result is cached, and the inputs of the
fallback (period deltas, trades, its own clock, and the random stream). -/
structure Upstream where
  arrayPrototypeKeys : List String
  clockCheck : Int
  queries : Option (List Query)
  clockStore : Int
  periodPnLs : PeriodPnLs
  trades : List Trade
  now : Int
  rnd : Nat → ℚ

/-- The `try` block of `fetchPnLHistory`, entered on a cache miss. -/
def fetchPnLHistoryMiss (cache : Cache) (walletAddress : String) (up : Upstream) :
    PnLHistory × Cache :=
  match up.queries with
  | none => (fetchPnLHistoryFallback up.rnd up.periodPnLs up.trades up.now, cache)
  | some queries =>
    let s := scanQueries up.arrayPrototypeKeys queries
    if !s.hasVariation then
      (fetchPnLHistoryFallback up.rnd up.periodPnLs up.trades up.now, cache)
    else
      (s.result, cache.set (cacheKey walletAddress) { data := s.result, timestamp := up.clockStore })

/-- The test `cached && Date.now() - cached.timestamp < CACHE_TTL`. -/
def cacheHit (cache : Cache) (walletAddress : String) (clock : Int) : Option PnLHistory :=
  match cache (cacheKey walletAddress) with
  | none => none
  | some cached => if clock - cached.timestamp < CACHE_TTL then some cached.data else none

/-- The function `fetchPnLHistory(walletAddress)`: the returned history and the cache after
the call. -/
def fetchPnLHistory (cache : Cache) (walletAddress : String) (up : Upstream) :
    PnLHistory × Cache :=
  match cacheHit cache walletAddress up.clockCheck with
  | some data => (data, cache)
  | none => fetchPnLHistoryMiss cache walletAddress up

/-! ## Specification vocabulary for the reconstructor -/

/-- The point pushed for a trade when `k` random draws have been made before it: the trade's
own time, and the time-fraction interpolation plus the jitter. -/
def tradePoint (rnd : Nat → ℚ) (startTime endTime : Int) (startPnl endPnl : ℚ)
    (k : Nat) (trade : Trade) : Point :=
  { timestamp := tradeMs trade
    pnl := startPnl + (endPnl - startPnl) *
        (((tradeMs trade - startTime : Int) : ℚ) / ((endTime - startTime : Int) : ℚ))
      + (rnd k - 1 / 2) * (4 / 100) * |endPnl - startPnl| }

/-- The points pushed for a list of trades, in input order, the first one using draw `k`. -/
def tradePoints (rnd : Nat → ℚ) (startTime endTime : Int) (startPnl endPnl : ℚ) :
    Nat → List Trade → List Point
  | _, [] => []
  | k, t :: ts => tradePoint rnd startTime endTime startPnl endPnl k t ::
      tradePoints rnd startTime endTime startPnl endPnl (k + 1) ts

/-- A series has non-decreasing timestamps. -/
def NonDecreasing (series : List Point) : Prop :=
  (series.map Point.timestamp).Sorted (· ≤ ·)

instance (series : List Point) : Decidable (NonDecreasing series) := by
  unfold NonDecreasing; infer_instance

/-- A trade list is sorted ascending by timestamp (by the key of the sort comparator). -/
def SortedByTimestamp (trades : List Trade) : Prop :=
  (trades.map sortKey).Sorted (· ≤ ·)

instance (trades : List Trade) : Decidable (SortedByTimestamp trades) := by
  unfold SortedByTimestamp; infer_instance

/-- The timeframe component and the payload of a `portfolio-pnl` entry: the key is an array
starting with `'portfolio-pnl'` that has a timeframe component, whatever it is, and the data is
a non-empty array. -/
def pnlEntry (q : Query) : Option (String × List RawPoint) :=
  match q.queryKey with
  | none => none
  | some queryKey =>
    if queryKey[0]? = some "portfolio-pnl" then
      match timeframeOf queryKey, q.data with
      | some timeframe, some data => if data.length > 0 then some (timeframe, data) else none
      | _, _ => none
    else none

/-- No `portfolio-pnl` entry with data is keyed by the name of a property that objects inherit
from `Object.prototype` (`constructor`, `toString`, `__proto__`, ...). -/
def noInheritedKey (queries : List Query) : Bool :=
  queries.all (fun q =>
    match pnlEntry q with
    | some (timeframe, _) => !decide (timeframe ∈ objectPrototypeKeys)
    | none => true)

/-- The payload of a timeframe entry: the key is an array starting with `'portfolio-pnl'`, its
timeframe component is one of the four timeframes `1D`, `1W`, `1M`, `ALL`, and the data is a
non-empty array. -/
def acceptedData (q : Query) : Option (List RawPoint) :=
  match q.queryKey with
  | none => none
  | some queryKey =>
    if queryKey[0]? = some "portfolio-pnl" then
      match timeframeOf queryKey, q.data with
      | some timeframe, some data =>
        if data.length > 0 ∧ timeframe ∈ timeframeKeys then some data else none
      | _, _ => none
    else none

/-- A timeframe entry carries at least two distinct `p` values within itself. -/
def entryVaries (q : Query) : Bool :=
  match acceptedData q with
  | some data => decide (uniqueCount data > 1)
  | none => false

/-- The `p` values of all timeframe entries taken together (their union, with repetitions). -/
def unionValues (queries : List Query) : List ℚ :=
  ((queries.filterMap acceptedData).flatten).map RawPoint.p

/-- Every payload of a timeframe entry lists its points in non-decreasing time order. -/
def InTimeOrder (queries : List Query) : Prop :=
  ∀ q ∈ queries, ∀ data, acceptedData q = some data → (data.map RawPoint.t).Sorted (· ≤ ·)

/-- Every history held in the cache has non-decreasing series. -/
def CacheNonDecreasing (cache : Cache) : Prop :=
  ∀ key entry, cache key = some entry → ∀ series ∈ entry.data.series, NonDecreasing series

/-- A trade falls inside the window `[startTime, endTime]` (both in milliseconds). -/
def InWindow (startTime endTime : Int) (t : Trade) : Prop :=
  startTime ≤ tradeMs t ∧ tradeMs t ≤ endTime

instance (startTime endTime : Int) (t : Trade) : Decidable (InWindow startTime endTime t) := by
  unfold InWindow; infer_instance

/-- The evenly spaced series in closed form: `points` points, the `i`-th at time
`round(startTime + i * (endTime - startTime) / (points - 1))` with
`pnl = startPnl + (endPnl - startPnl) * i / (points - 1)`. -/
def linearSeries (startTime endTime : Int) (startPnl endPnl : ℚ) (points : Nat) : List Point :=
  (List.range points).map (fun (i : Nat) =>
    { timestamp := jsRound ((startTime : ℚ) + (i : ℚ) * ((endTime : ℚ) - (startTime : ℚ)) /
        ((points : ℚ) - 1))
      pnl := startPnl + (endPnl - startPnl) * (i : ℚ) / ((points : ℚ) - 1) })

/-- The timeframe key and payload of a timeframe entry (see `acceptedData`). -/
def acceptedEntry (q : Query) : Option (String × List RawPoint) :=
  match q.queryKey with
  | none => none
  | some queryKey =>
    if queryKey[0]? = some "portfolio-pnl" then
      match timeframeOf queryKey, q.data with
      | some timeframe, some data =>
        if data.length > 0 ∧ timeframe ∈ timeframeKeys then some (timeframe, data)
        else none
      | _, _ => none
    else none

/-- The payload of the last entry for a timeframe key, if there is one. -/
def lastAccepted (queries : List Query) (timeframe : String) : Option (List RawPoint) :=
  (((queries.filterMap acceptedEntry).filter (fun e => decide (e.1 = timeframe))).getLast?).map
    Prod.snd

/-- The series expected for a timeframe key: the converted payload of its last entry, or the
empty series when it has none. -/
def scrapedSeries (queries : List Query) (timeframe : String) : List Point :=
  match lastAccepted queries timeframe with
  | some data => data.map convertPoint
  | none => []

/-- The string keys of `Array.prototype` in a current Node.js. -/
def nodeArrayPrototypeKeys : List String :=
  ["length", "constructor", "at", "concat", "copyWithin", "fill", "find", "findIndex",
   "findLast", "findLastIndex", "lastIndexOf", "pop", "push", "reverse", "shift", "unshift",
   "slice", "sort", "splice", "includes", "indexOf", "join", "keys", "entries", "values",
   "forEach", "filter", "flat", "flatMap", "map", "every", "some", "reduce", "reduceRight",
   "toReversed", "toSorted", "toSpliced", "with", "toLocaleString", "toString"]

/-- A profile page with two varying payloads, for `1D` and for `ALL`, and an entry under the
unknown key `1Y`. -/
def variedQueries : List Query :=
  [{ queryKey := some ["portfolio-pnl", "user", "0xabc", "1D"], data := some [⟨1, 10⟩, ⟨2, 30⟩] },
   { queryKey := some ["portfolio-pnl", "user", "0xabc", "1Y"], data := some [⟨1, 1⟩, ⟨2, 2⟩] },
   { queryKey := some ["portfolio-pnl", "user", "0xabc", "ALL"], data := some [⟨1, 0⟩, ⟨5, 30⟩] }]

/-- The upstream world serving `variedQueries`. -/
def variedUpstream : Upstream :=
  { arrayPrototypeKeys := nodeArrayPrototypeKeys
    clockCheck := 0
    queries := some variedQueries
    clockStore := 0
    periodPnLs := ⟨1000, 400, 100, 20⟩
    trades := []
    now := 0
    rnd := fun _ => 0 }

/-! ## `fetchAllTrades` -/

/-- What one request for a page of trades yields. -/
inductive PageResult where
  | failed
  | notArray
  | page (trades : List Trade)
deriving DecidableEq, Repr

/-- State of the loop of `fetchAllTrades`: `allTrades`, `offset`, and the offsets requested so
far. -/
structure FetchState where
  allTrades : List Trade
  offset : Nat
  requested : List Nat
deriving DecidableEq, Repr

/-- The loop `while (allTrades.length < maxTrades)` of `fetchAllTrades`, with `limit = 100`;
`upstream offset` is what the request at that offset yields. The first argument bounds the
number of evaluations of the loop condition; `none` means the bound was reached. -/
def fetchAllTradesLoop (upstream : Nat → PageResult) (maxTrades : Nat) :
    Nat → FetchState → Option FetchState
  | 0, _ => none
  | fuel + 1, s =>
    if s.allTrades.length < maxTrades then
      match upstream s.offset with
      | .failed => some { s with requested := s.requested ++ [s.offset] }
      | .notArray => some { s with requested := s.requested ++ [s.offset] }
      | .page trades =>
        if trades.length = 0 then some { s with requested := s.requested ++ [s.offset] }
        else if trades.length < 100 then
          some { allTrades := s.allTrades ++ trades, offset := s.offset,
                 requested := s.requested ++ [s.offset] }
        else
          fetchAllTradesLoop upstream maxTrades fuel
            { allTrades := s.allTrades ++ trades, offset := s.offset + 100,
              requested := s.requested ++ [s.offset] }
    else some s

/-- The function `fetchAllTrades(walletAddress, maxTrades)` against a given upstream. -/
def fetchAllTrades (upstream : Nat → PageResult) (maxTrades : Nat) (fuel : Nat) :
    Option FetchState :=
  fetchAllTradesLoop upstream maxTrades fuel { allTrades := [], offset := 0, requested := [] }

/-- The trades carried by a page result; none for a failed or malformed one. -/
def PageResult.trades : PageResult → List Trade
  | .page trades => trades
  | _ => []

/-- A page result ends the pagination: it failed, is not an array, is empty, or is short
(fewer than 100 trades). -/
def PageResult.isLast : PageResult → Bool
  | .page trades => decide (trades.length < 100)
  | _ => true

/-- The concatenation of the pages at offsets 0 and 100 up to and including the first one that
ends the pagination. -/
def pagesUpToLast (upstream : Nat → PageResult) : List Trade :=
  if (upstream 0).isLast then (upstream 0).trades
  else (upstream 0).trades ++ (upstream 100).trades

/-- An upstream with a full first page of 100 trades and a second page of 3. -/
def twoPageUpstream : Nat → PageResult := fun offset =>
  if offset = 0 then .page (List.replicate 100 ⟨some 5⟩)
  else .page [⟨some 3⟩, ⟨none⟩, ⟨some 1⟩]

/-! ## Failure handling of `fetchPnLHistory` -/

/-- What fetching the profile page and reading its embedded blob yields before the decision on
variation: the request rejects, the page has no `__NEXT_DATA__` block, `JSON.parse` throws, the
scan over the queries throws on a malformed entry, or the queries are scanned. -/
inductive PageOutcome where
  | transportError
  | noNextData
  | parseError
  | scanError
  | parsed (queries : List Query)
deriving DecidableEq, Repr

/-- The trade array as a list of trade objects, when none of its entries is `null`. -/
def tradeObjects : List (Option Trade) → Option (List Trade)
  | [] => some []
  | none :: _ => none
  | some t :: rest => (tradeObjects rest).map (fun ts => t :: ts)

/-- The statements inside the `try` of `fetchPnLHistoryFallback`. The two fetches never reject;
a `null` entry in the trade array (`none`) makes reading its `timestamp` throw. -/
def fallbackBody (rnd : Nat → ℚ) (periodPnLs : PeriodPnLs) (rawTrades : List (Option Trade))
    (now : Int) : Except String PnLHistory :=
  match tradeObjects rawTrades with
  | none => Except.error "TypeError"
  | some trades => Except.ok (fetchPnLHistoryFallback rnd periodPnLs trades now)

/-- The function `fetchPnLHistoryFallback` with its `try`/`catch`: the `catch` returns the
literal with four empty series. -/
def fetchPnLHistoryFallbackCaught (rnd : Nat → ℚ) (periodPnLs : PeriodPnLs)
    (rawTrades : List (Option Trade)) (now : Int) : PnLHistory :=
  match fallbackBody rnd periodPnLs rawTrades now with
  | Except.ok result => result
  | Except.error _ => PnLHistory.empty

/-- The statements inside the `try` of `fetchPnLHistory`, up to the decision: an exception, or
`none` when the block returns the fallback (no `__NEXT_DATA__`, or flat data), or the scraped
result to cache and return. -/
def scrapeBody (arrayPrototypeKeys : List String) (page : PageOutcome) :
    Except String (Option PnLHistory) :=
  match page with
  | .transportError => Except.error "request failed"
  | .noNextData => Except.ok none
  | .parseError => Except.error "SyntaxError"
  | .scanError => Except.error "TypeError"
  | .parsed queries =>
    let s := scanQueries arrayPrototypeKeys queries
    if !s.hasVariation then Except.ok none else Except.ok (some s.result)

/-- The function `fetchPnLHistory` with its `try`/`catch` and every failure of the upstream
made explicit; `Except.error` would be an exception reaching the caller. -/
def fetchPnLHistoryCaught (arrayPrototypeKeys : List String) (cache : Cache)
    (walletAddress : String) (clockCheck : Int)
    (page : PageOutcome) (clockStore : Int) (rnd : Nat → ℚ) (periodPnLs : PeriodPnLs)
    (rawTrades : List (Option Trade)) (now : Int) : Except String (PnLHistory × Cache) :=
  match cacheHit cache walletAddress clockCheck with
  | some data => Except.ok (data, cache)
  | none =>
    match scrapeBody arrayPrototypeKeys page with
    | Except.ok (some result) =>
      Except.ok (result, cache.set (cacheKey walletAddress)
        { data := result, timestamp := clockStore })
    | Except.ok none =>
      Except.ok (fetchPnLHistoryFallbackCaught rnd periodPnLs rawTrades now, cache)
    | Except.error _ =>
      Except.ok (fetchPnLHistoryFallbackCaught rnd periodPnLs rawTrades now, cache)

/-- The queries seen by the scan for a page outcome: `none` for every failure. -/
def PageOutcome.queries : PageOutcome → Option (List Query)
  | .parsed queries => some queries
  | _ => none

/-- The empty cache of a freshly loaded module. -/
def Cache.empty : Cache := fun _ => none

/-- A profile page whose single `1D` payload lists its two points newest first. -/
def unorderedUpstream : Upstream :=
  { arrayPrototypeKeys := nodeArrayPrototypeKeys
    clockCheck := 0
    queries := some [{ queryKey := some ["portfolio-pnl", "user", "0xabc", "1D"],
                       data := some [⟨2, 10⟩, ⟨1, 20⟩] }]
    clockStore := 0
    periodPnLs := ⟨0, 0, 0, 0⟩
    trades := []
    now := 0
    rnd := fun _ => 0 }

/-- A profile page whose `1D` payload is constant at `500` and whose `1W` payload is constant
at `600`: each timeframe is flat, the timeframes differ. -/
def steppedQueries : List Query :=
  [{ queryKey := some ["portfolio-pnl", "user", "0xabc", "1D"], data := some [⟨1, 500⟩, ⟨2, 500⟩] },
   { queryKey := some ["portfolio-pnl", "user", "0xabc", "1W"], data := some [⟨1, 600⟩, ⟨2, 600⟩] }]

/-- The upstream world serving `steppedQueries`, with period deltas `{1000, 400, 100, 20}` and
no trades. -/
def steppedUpstream : Upstream :=
  { arrayPrototypeKeys := nodeArrayPrototypeKeys
    clockCheck := 0
    queries := some steppedQueries
    clockStore := 0
    periodPnLs := ⟨1000, 400, 100, 20⟩
    trades := []
    now := 0
    rnd := fun _ => 0 }

/-- A profile page whose single `portfolio-pnl` entry is keyed `constructor` and carries the two
values 1 and 2. -/
def constructorQueries : List Query :=
  [{ queryKey := some ["portfolio-pnl", "user", "0xabc", "constructor"],
     data := some [⟨1, 1⟩, ⟨2, 2⟩] }]

/-- The object `{ '1D': [], '1W': [], '1M': [], 'ALL': [], constructor: [{ timestamp: 1000,
pnl: 1 }, { timestamp: 2000, pnl: 2 }] }`. -/
def constructorResult : PnLHistory :=
  { s1D := [], s1W := [], s1M := [], sALL := []
    extra := [("constructor", [⟨1000, 1⟩, ⟨2000, 2⟩])] }

/-- The upstream world serving `constructorQueries`. -/
def constructorUpstream : Upstream :=
  { arrayPrototypeKeys := nodeArrayPrototypeKeys
    clockCheck := 0
    queries := some constructorQueries
    clockStore := 0
    periodPnLs := ⟨1000, 400, 100, 20⟩
    trades := []
    now := 0
    rnd := fun _ => 0 }

/-- A profile page with all four timeframes at `p = 500` in every point. -/
def flatQueries : List Query :=
  [{ queryKey := some ["portfolio-pnl", "user", "0xabc", "1D"], data := some [⟨1, 500⟩, ⟨2, 500⟩] },
   { queryKey := some ["portfolio-pnl", "user", "0xabc", "1W"], data := some [⟨1, 500⟩, ⟨2, 500⟩] },
   { queryKey := some ["portfolio-pnl", "user", "0xabc", "1M"], data := some [⟨1, 500⟩, ⟨2, 500⟩] },
   { queryKey := some ["portfolio-pnl", "user", "0xabc", "ALL"], data := some [⟨1, 500⟩, ⟨2, 500⟩] }]

/-- A profile page with all four timeframes at `p = 500` in every point, followed by an entry
keyed `constructor` that carries the two values 1 and 2. -/
def flatKeyedQueries : List Query := flatQueries ++ constructorQueries

/-- The upstream world serving `flatKeyedQueries`. -/
def flatKeyedUpstream : Upstream :=
  { arrayPrototypeKeys := nodeArrayPrototypeKeys
    clockCheck := 0
    queries := some flatKeyedQueries
    clockStore := 0
    periodPnLs := ⟨1000, 400, 100, 20⟩
    trades := []
    now := 0
    rnd := fun _ => 0 }

/-- The object scanned from `flatKeyedQueries`: the four flat series and the own property
`constructor`. -/
def flatKeyedResult : PnLHistory :=
  { s1D := [⟨1000, 500⟩, ⟨2000, 500⟩], s1W := [⟨1000, 500⟩, ⟨2000, 500⟩],
    s1M := [⟨1000, 500⟩, ⟨2000, 500⟩], sALL := [⟨1000, 500⟩, ⟨2000, 500⟩]
    extra := [("constructor", [⟨1000, 1⟩, ⟨2000, 2⟩])] }

/-- The upstream world serving `flatQueries`. -/
def flatUpstream : Upstream :=
  { arrayPrototypeKeys := nodeArrayPrototypeKeys
    clockCheck := 0
    queries := some flatQueries
    clockStore := 0
    periodPnLs := ⟨1000, 400, 100, 20⟩
    trades := []
    now := 0
    rnd := fun _ => 0 }

end PnlHistory

namespace Traders

/-! ## `classifyTraderStrategy` -/

/-- The keys of `TRADING_STRATEGIES`. -/
inductive Strategy where
  | arbitrage | liquidity | quant | meta | eventDriven | conviction | momentum | conservative
deriving DecidableEq, Repr

/-- The order of `Object.keys(TRADING_STRATEGIES)`, which is the iteration order of
`Object.entries(scores)`. -/
def Strategy.keys : List Strategy :=
  [.arbitrage, .liquidity, .quant, .meta, .eventDriven, .conviction, .momentum, .conservative]

/-- The `scores` object. -/
structure Scores where
  arbitrage : Nat
  liquidity : Nat
  quant : Nat
  meta : Nat
  eventDriven : Nat
  conviction : Nat
  momentum : Nat
  conservative : Nat
deriving DecidableEq, Repr

/-- The lookup `scores[strategy]`. -/
def Scores.get (s : Scores) : Strategy → Nat
  | .arbitrage => s.arbitrage
  | .liquidity => s.liquidity
  | .quant => s.quant
  | .meta => s.meta
  | .eventDriven => s.eventDriven
  | .conviction => s.conviction
  | .momentum => s.momentum
  | .conservative => s.conservative

/-- The list `Object.entries(scores)`. -/
def Scores.entries (s : Scores) : List (Strategy × Nat) :=
  Strategy.keys.map (fun k => (k, s.get k))

/-- A value `{ count, value }` of `marketCategories`. -/
structure CategoryStat where
  count : ℚ
  value : ℚ
deriving DecidableEq, Repr

/-- The fields of a trader summary read by the classifier. -/
structure Trader where
  name : String
  positionCount : Nat
  totalVolume : ℚ
  totalPnl : ℚ
  currentValue : ℚ
  marketCategories : List (String × CategoryStat)
  pnlHistory : Option PnlHistory.PnLHistory

/-- The result `{ primary, secondary, scores, confidence }`. -/
structure Classification where
  primary : Strategy
  secondary : Option Strategy
  scores : Scores
  confidence : Nat
deriving DecidableEq, Repr

/-- The lower case of one character, as a list of characters. Exact on every character whose
lower case contains an ASCII character: the letters `A`-`Z`, the Kelvin sign (to `k`) and the
dotted capital I (to `i` followed by a combining dot). Every other character is left as it
is, which changes no match against an ASCII needle. -/
def lowerChar (c : Char) : List Char :=
  if c.toNat = 0x212A then ['k']
  else if c.toNat = 0x130 then ['i', Char.ofNat 0x307]
  else [c.toLower]

/-- The method `s.toLowerCase()`. -/
def toLowerCase (s : String) : String := String.mk (s.toList.flatMap lowerChar)

/-- The method `haystack.includes(needle)` on strings. -/
def includes (haystack needle : String) : Bool :=
  haystack.toList.tails.any (fun t => needle.toList.isPrefixOf t)

/-- The value `Math.max(...xs)`; `⊥` is `-Infinity`, the value on no arguments. -/
def mathMax (xs : List ℚ) : WithBot ℚ :=
  xs.foldr (fun x acc => max (x : WithBot ℚ) acc) ⊥

/-- The change `h[h.length - 1].pnl - h[0].pnl` of a series with more than one point, else the
initial `0`. -/
def seriesChange (h : List PnlHistory.Point) : ℚ :=
  if h.length > 1 then
    ((h.getLast?.map PnlHistory.Point.pnl).getD 0) - ((h.head?.map PnlHistory.Point.pnl).getD 0)
  else 0

/-- The lookup `categories[cat]`. -/
def category (categories : List (String × CategoryStat)) (cat : String) : Option CategoryStat :=
  categories.lookup cat

/-- The derived metrics computed before scoring. -/
structure Metrics where
  positionCount : Nat
  totalVolume : ℚ
  totalPnl : ℚ
  absPnl : ℚ
  currentValue : ℚ
  categoryCount : Nat
  volumeToPnlRatio : ℚ
  pnlPerPosition : ℚ
  volumePerPosition : ℚ
  dailyVolatility : ℚ
  weekChange : ℚ
  eventConcentration : ℚ
  maxCategoryPct : WithBot ℚ
  politicsConc : ℚ
  sportsConc : ℚ
  nameLower : String

/-- The metric extraction at the head of `classifyTraderStrategy`. -/
def metrics (trader : Trader) : Metrics :=
  let positionCount := trader.positionCount
  let totalVolume := trader.totalVolume
  let totalPnl := trader.totalPnl
  let absPnl := |totalPnl|
  let currentValue := trader.currentValue
  let categories := trader.marketCategories
  let categoryCount := (categories.filter (fun kv => decide (kv.2.count > 0))).length
  let volumeToPnlRatio := if absPnl > 0 then totalVolume / absPnl else 0
  let pnlPerPosition := if positionCount > 0 then absPnl / (positionCount : ℚ) else 0
  let volumePerPosition := if positionCount > 0 then totalVolume / (positionCount : ℚ) else 0
  let dayChange := match trader.pnlHistory with
    | none => 0
    | some h => seriesChange h.s1D
  let weekChange := match trader.pnlHistory with
    | none => 0
    | some h => seriesChange h.s1W
  let dailyVolatility := if absPnl > 0 then |dayChange| / absPnl else 0
  let totalCategoryValue := (categories.map (fun kv => kv.2.value)).foldl (fun sum v => sum + v) 0
  let eventCategoryValue := ["politics", "sports", "entertainment"].foldl
    (fun acc cat => match category categories cat with
      | some c => acc + c.value
      | none => acc) (0 : ℚ)
  let eventConcentration :=
    if totalCategoryValue > 0 then eventCategoryValue / totalCategoryValue else 0
  let maxCategoryPct : WithBot ℚ :=
    if totalCategoryValue > 0 then
      mathMax (categories.map (fun kv => kv.2.value / totalCategoryValue))
    else ((1 : ℚ) : WithBot ℚ)
  let politicsConc := match category categories "politics" with
    | some c => if totalCategoryValue > 0 then c.value / totalCategoryValue else 0
    | none => 0
  let sportsConc := match category categories "sports" with
    | some c => if totalCategoryValue > 0 then c.value / totalCategoryValue else 0
    | none => 0
  { positionCount := positionCount, totalVolume := totalVolume, totalPnl := totalPnl
    absPnl := absPnl, currentValue := currentValue, categoryCount := categoryCount
    volumeToPnlRatio := volumeToPnlRatio, pnlPerPosition := pnlPerPosition
    volumePerPosition := volumePerPosition, dailyVolatility := dailyVolatility
    weekChange := weekChange, eventConcentration := eventConcentration
    maxCategoryPct := maxCategoryPct, politicsConc := politicsConc, sportsConc := sportsConc
    nameLower := toLowerCase trader.name }

/-- A threshold rule: `if (cond) score += bonus`. -/
def bonus (cond : Bool) (b : Nat) : Nat := if cond then b else 0

/-- The strategy scoring block: every rule adds its bonus to one score, all scores starting
at `0`. -/
def computeScores (m : Metrics) : Scores :=
  let positionCount := m.positionCount
  let totalVolume := m.totalVolume
  let totalPnl := m.totalPnl
  let absPnl := m.absPnl
  let volumeToPnlRatio := m.volumeToPnlRatio
  let categoryCount := m.categoryCount
  let eventConcentration := m.eventConcentration
  let dailyVolatility := m.dailyVolatility
  { quant :=
      bonus (includes m.nameLower "bot" || includes m.nameLower "automated" ||
        includes m.nameLower "algo" || includes m.nameLower "ai trading") 60
      + bonus (decide (totalVolume > 5000000) && decide (positionCount > 30)) 25
      + bonus (decide (totalVolume > 10000000) && decide (positionCount > 50)) 20
      + bonus (decide (positionCount > 20) && decide (m.volumePerPosition > 50000) &&
          decide (m.volumePerPosition < 500000)) 15
    liquidity :=
      bonus (decide (totalVolume > 10000000) && decide (volumeToPnlRatio > 50)) 40
      + bonus (decide (totalVolume > 50000000) && decide (volumeToPnlRatio > 30)) 30
      + bonus (decide (positionCount > 50) && decide (totalVolume > 5000000)) 20
      + bonus (decide (volumeToPnlRatio > 100)) 25
    arbitrage :=
      bonus (decide (volumeToPnlRatio > 30) && decide (volumeToPnlRatio < 100) &&
          decide (positionCount > 40)) 35
      + bonus (decide (positionCount > 40) && decide (positionCount < 150)) 25
      + bonus (decide (volumeToPnlRatio > 20) && decide (volumeToPnlRatio < 60) &&
          decide (positionCount > 25)) 20
    meta :=
      bonus (decide (categoryCount ≥ 5)) 35
      + bonus (decide (categoryCount ≥ 7)) 20
      + bonus (decide (m.maxCategoryPct < (((4 : ℚ) / 10 : ℚ) : WithBot ℚ)) &&
          decide (categoryCount ≥ 4)) 20
      + bonus (decide (positionCount ≥ 15) && decide (positionCount ≤ 60) &&
          decide (categoryCount ≥ 4)) 15
    eventDriven :=
      bonus (decide (eventConcentration > 7 / 10)) 40
      + bonus (decide (eventConcentration > 5 / 10) && decide (eventConcentration ≤ 7 / 10)) 25
      + bonus (decide (eventConcentration > 6 / 10) && decide (positionCount ≥ 5) &&
          decide (positionCount ≤ 40)) 20
      + bonus (decide (m.politicsConc > 5 / 10) || decide (m.sportsConc > 5 / 10)) 15
    conviction :=
      bonus (decide (positionCount < 15) && decide (absPnl > 50000)) 35
      + bonus (decide (positionCount < 10) && decide (absPnl > 100000)) 25
      + bonus (decide (m.pnlPerPosition > 10000) && decide (positionCount < 20)) 20
      + bonus (decide (positionCount < 12) && decide (m.currentValue > 10000)) 15
    momentum :=
      bonus (decide (positionCount ≥ 10) && decide (positionCount ≤ 40) &&
          decide (totalPnl > 0)) 25
      + bonus (decide (volumeToPnlRatio > 5) && decide (volumeToPnlRatio < 25) &&
          decide (totalPnl > 0)) 20
      + bonus (decide (totalPnl > 50000) && decide (positionCount ≥ 10) &&
          decide (positionCount ≤ 50)) 20
      + bonus (decide (eventConcentration < 5 / 10) && decide (positionCount ≥ 10)) 10
    conservative :=
      bonus (decide (dailyVolatility < 1 / 100) && decide (absPnl > 10000)) 30
      + bonus (decide (dailyVolatility < 5 / 1000) && decide (absPnl > 5000)) 25
      + bonus (decide (totalPnl > 0) && decide (dailyVolatility < 2 / 100) &&
          decide (m.weekChange > 0)) 20
      + bonus (decide (volumeToPnlRatio < 15) && decide (totalPnl > 0)) 15 }

/-- State of the first selection loop: `maxScore` and `primaryStrategy`. -/
structure PrimaryState where
  maxScore : Nat
  primaryStrategy : Strategy
deriving DecidableEq, Repr

/-- One iteration of the loop that finds the highest scoring strategy. -/
def primaryStep (st : PrimaryState) (e : Strategy × Nat) : PrimaryState :=
  if e.2 > st.maxScore then { maxScore := e.2, primaryStrategy := e.1 } else st

/-- The first selection loop, started from `maxScore = 0`, `primaryStrategy = 'momentum'`. -/
def primaryLoop (scores : Scores) : PrimaryState :=
  scores.entries.foldl primaryStep { maxScore := 0, primaryStrategy := .momentum }

/-- State of the second selection loop: `secondaryStrategy` and `secondMaxScore`. -/
structure SecondaryState where
  secondaryStrategy : Option Strategy
  secondMaxScore : Nat
deriving DecidableEq, Repr

/-- One iteration of the loop that finds the secondary strategy. -/
def secondaryStep (primaryStrategy : Strategy) (st : SecondaryState) (e : Strategy × Nat) :
    SecondaryState :=
  if e.1 ≠ primaryStrategy ∧ e.2 > st.secondMaxScore ∧ e.2 ≥ 20 then
    { secondaryStrategy := some e.1, secondMaxScore := e.2 }
  else st

/-- The second selection loop, started from `secondaryStrategy = null`, `secondMaxScore = 0`. -/
def secondaryLoop (scores : Scores) (primaryStrategy : Strategy) : SecondaryState :=
  scores.entries.foldl (secondaryStep primaryStrategy)
    { secondaryStrategy := none, secondMaxScore := 0 }

/-- The selection part of `classifyTraderStrategy`, from the scores and the two basic metrics
used by the low-score default. -/
def selectStrategies (scores : Scores) (positionCount categoryCount : Nat) : Classification :=
  let p := primaryLoop scores
  let s := secondaryLoop scores p.primaryStrategy
  let primaryStrategy :=
    if p.maxScore < 20 then
      if positionCount < 10 then Strategy.conviction
      else if categoryCount ≥ 4 then Strategy.meta
      else Strategy.momentum
    else p.primaryStrategy
  { primary := primaryStrategy
    secondary := s.secondaryStrategy
    scores := scores
    confidence := p.maxScore }

/-- The function `classifyTraderStrategy(trader)`. -/
def classifyTraderStrategy (trader : Trader) : Classification :=
  let m := metrics trader
  selectStrategies (computeScores m) m.positionCount m.categoryCount

/-- The largest of the eight scores. -/
def Scores.max (s : Scores) : Nat :=
  (Strategy.keys.map s.get).foldr Nat.max 0

/-- Position of a strategy in the enumeration order. -/
def Strategy.index (k : Strategy) : Nat := Strategy.keys.indexOf k

/-- A summary with three positions and nothing else. -/
def idleTrader : Trader :=
  { name := "x", positionCount := 3, totalVolume := 0, totalPnl := 0, currentValue := 0,
    marketCategories := [], pnlHistory := none }

/-- The summary of the scenario: the bot-named trader with 80 positions, volume 12,000,000 and
PnL 50,000, without categories or PnL history. -/
def botTrader : Trader :=
  { name := "automatedAItradingbot", positionCount := 80, totalVolume := 12000000,
    totalPnl := 50000, currentValue := 0, marketCategories := [], pnlHistory := none }

/-- The lower-cased name contains one of the bot-like tokens. -/
def HasBotName (trader : Trader) : Prop :=
  includes (toLowerCase trader.name) "bot" = true ∨
  includes (toLowerCase trader.name) "automated" = true ∨
  includes (toLowerCase trader.name) "algo" = true ∨
  includes (toLowerCase trader.name) "ai trading" = true

/-- The 1D delta of a summary: last minus first `pnl` of its `1D` series, `0` when the history
or the series is unavailable. -/
def dayDelta (trader : Trader) : ℚ :=
  match trader.pnlHistory with
  | none => 0
  | some h => seriesChange h.s1D

/-- The total of the category values, `Σ value`. -/
def totalCategoryValue (trader : Trader) : ℚ :=
  (trader.marketCategories.map (fun kv => kv.2.value)).sum

/-- The bonuses of the specification table whose conditions hold, per archetype; the `meta`
row is left at `0`. `ratio` is the volume-to-PnL ratio. -/
def tableScores (m : Metrics) : Scores :=
  let ratio := m.volumeToPnlRatio
  { quant :=
      bonus (includes m.nameLower "bot" || includes m.nameLower "automated" ||
        includes m.nameLower "algo" || includes m.nameLower "ai trading") 60
      + bonus (decide (m.totalVolume > 5000000) && decide (m.positionCount > 30)) 25
      + bonus (decide (m.totalVolume > 10000000) && decide (m.positionCount > 50)) 20
    liquidity :=
      bonus (decide (m.totalVolume > 10000000) && decide (ratio > 50)) 40
      + bonus (decide (m.totalVolume > 50000000) && decide (ratio > 30)) 30
      + bonus (decide (ratio > 100)) 25
    arbitrage :=
      bonus (decide (30 < ratio) && decide (ratio < 100) && decide (m.positionCount > 40)) 35
      + bonus (decide (40 < m.positionCount) && decide (m.positionCount < 150)) 25
    meta := 0
    eventDriven :=
      bonus (decide (m.eventConcentration > 7 / 10)) 40
      + bonus (decide (5 / 10 < m.eventConcentration) && decide (m.eventConcentration ≤ 7 / 10)) 25
      + bonus (decide (m.politicsConc > 5 / 10) || decide (m.sportsConc > 5 / 10)) 15
    conviction :=
      bonus (decide (m.positionCount < 15) && decide (m.absPnl > 50000)) 35
      + bonus (decide (m.positionCount < 10) && decide (m.absPnl > 100000)) 25
    momentum :=
      bonus (decide (10 ≤ m.positionCount) && decide (m.positionCount ≤ 40) &&
          decide (m.totalPnl > 0)) 25
      + bonus (decide (5 < ratio) && decide (ratio < 25) && decide (m.totalPnl > 0)) 20
    conservative :=
      bonus (decide (m.dailyVolatility < 1 / 100) && decide (m.absPnl > 10000)) 30
      + bonus (decide (m.dailyVolatility < 5 / 1000) && decide (m.absPnl > 5000)) 25 }

/-- A summary with four categories of values 40, 20, 20, 20: the largest share is exactly
40%. -/
def fortyPercentTrader : Trader :=
  { name := "x", positionCount := 4, totalVolume := 0, totalPnl := 0, currentValue := 0,
    marketCategories := [("politics", ⟨1, 40⟩), ("crypto", ⟨1, 20⟩), ("sports", ⟨1, 20⟩),
      ("science", ⟨1, 20⟩)],
    pnlHistory := none }

/-- A summary with four categories of values 30, 30, 20, 20: every share is below 40%. -/
def balancedTrader : Trader :=
  { name := "x", positionCount := 4, totalVolume := 0, totalPnl := 0, currentValue := 0,
    marketCategories := [("politics", ⟨1, 30⟩), ("crypto", ⟨1, 30⟩), ("sports", ⟨1, 20⟩),
      ("science", ⟨1, 20⟩)],
    pnlHistory := none }

/-- A summary without PnL history and with a total PnL of 20,000. -/
def noHistoryTrader : Trader :=
  { name := "x", positionCount := 3, totalVolume := 0, totalPnl := 20000, currentValue := 0,
    marketCategories := [], pnlHistory := none }

/-! ## `categorizeMarket` -/

/-- The table `MARKET_CATEGORIES`: each key with its keyword list, in key order. -/
def MARKET_CATEGORIES : List (String × List String) :=
  [("politics", ["trump", "biden", "election", "president", "congress", "senate", "governor",
      "vote", "democrat", "republican", "political", "cabinet", "administration",
      "executive order", "impeach", "poll"]),
   ("crypto", ["bitcoin", "btc", "ethereum", "eth", "crypto", "token", "solana", "sol", "doge",
      "memecoin", "blockchain", "defi", "nft", "altcoin", "binance"]),
   ("sports", ["nfl", "nba", "mlb", "nhl", "ufc", "soccer", "football", "basketball", "baseball",
      "hockey", "tennis", "golf", "championship", "super bowl", "world series", "playoffs",
      "mvp", "f1", "formula"]),
   ("science", ["ai", "artificial intelligence", "spacex", "nasa", "climate", "covid", "vaccine",
      "fda", "study", "research", "tech", "apple", "google", "microsoft", "openai", "chatgpt",
      "agi"]),
   ("entertainment", ["movie", "film", "oscar", "grammy", "emmy", "celebrity", "album", "music",
      "taylor swift", "kanye", "netflix", "disney", "streaming", "box office", "award"]),
   ("business", ["stock", "market", "s&p", "nasdaq", "fed", "interest rate", "inflation", "gdp",
      "unemployment", "earnings", "ipo", "merger", "acquisition", "recession", "economy"]),
   ("world", ["war", "ukraine", "russia", "china", "israel", "gaza", "iran", "north korea",
      "nato", "un", "treaty", "sanctions", "military", "conflict"]),
   ("weather", ["weather", "temperature", "hurricane", "storm", "tropical", "rainfall", "snow",
      "celsius", "fahrenheit", "forecast", "tornado", "flood", "drought", "heatwave", "cold",
      "winter", "monsoon", "cyclone", "climate change", "el nino", "la nina"])]

/-- The inner loop over `category.keywords`, which stops at the first keyword included in the
title: whether some keyword is included. -/
def matchesCategory (lowerTitle : String) (keywords : List String) : Bool :=
  keywords.any (fun keyword => includes lowerTitle keyword)

/-- One iteration of the outer loop over `Object.entries(MARKET_CATEGORIES)`. -/
def categorizeStep (lowerTitle : String) (categories : List String)
    (entry : String × List String) : List String :=
  if matchesCategory lowerTitle entry.2 then categories ++ [entry.1] else categories

/-- The function `categorizeMarket(title)`. -/
def categorizeMarket (title : String) : List String :=
  let lowerTitle := toLowerCase title
  let categories := MARKET_CATEGORIES.foldl (categorizeStep lowerTitle) []
  if categories.length > 0 then categories else ["other"]

/-- The category keys, in the order of the table. -/
def categoryKeys : List String := MARKET_CATEGORIES.map Prod.fst

/-- The keyword list of a category key (empty for a key that is not in the table). -/
def keywordsOf (key : String) : List String := (MARKET_CATEGORIES.lookup key).getD []

/-- The needle occurs in the haystack as a contiguous substring. -/
def IsSubstring (needle haystack : String) : Prop := needle.toList <:+: haystack.toList

/-- A category matches a title: one of its keywords is a substring of the lower-cased title. -/
def CategoryMatches (title key : String) : Prop :=
  ∃ keyword ∈ keywordsOf key, IsSubstring keyword (toLowerCase title)

end Traders

namespace Api

/-! ## `calculatePnL` and the category buckets of `getTraderSummary` (`src/api.js`) -/

/-- A JavaScript number up to finiteness: `some q` is the finite value `q`, `none` stands for
`NaN` and the infinities, which no addition or subtraction turns back into a finite value. -/
abbrev JsNum := Option ℚ

/-- Addition of JavaScript numbers. -/
def jsAdd (a b : JsNum) : JsNum :=
  match a, b with
  | some x, some y => some (x + y)
  | _, _ => none

/-- Subtraction of JavaScript numbers. -/
def jsSub (a b : JsNum) : JsNum :=
  match a, b with
  | some x, some y => some (x - y)
  | _, _ => none

/-- The value of a position field as delivered by the upstream JSON: absent (or `null`), a
finite number, or a string. -/
inductive Field where
  | missing
  | num (q : ℚ)
  | str (s : String)
deriving DecidableEq, Repr

/-- The expression `field || 0`: the falsy values (absent, `0`, the empty string) become `0`. -/
def orZero (f : Field) : Field :=
  match f with
  | .missing => .num 0
  | .num q => if q = 0 then .num 0 else .num q
  | .str s => if s = "" then .num 0 else .str s

/-- White space skipped at the start of the argument of `parseFloat`. -/
def isStrWhiteSpace (c : Char) : Bool :=
  c.toNat = 9 || c.toNat = 10 || c.toNat = 11 || c.toNat = 12 || c.toNat = 13 ||
  c.toNat = 32 || c.toNat = 160 || c.toNat = 0x1680 ||
  (decide (0x2000 ≤ c.toNat) && decide (c.toNat ≤ 0x200A)) ||
  c.toNat = 0x2028 || c.toNat = 0x2029 || c.toNat = 0x202F || c.toNat = 0x205F ||
  c.toNat = 0x3000 || c.toNat = 0xFEFF

/-- The number written by a list of decimal digits. -/
def digitsValue (ds : List Char) : Nat :=
  ds.foldl (fun acc c => 10 * acc + (c.toNat - 48)) 0

/-- The exponent part `e`, `e+` or `e-` followed by digits at the head of the rest of the
input, `0` when there is none. -/
def parseExponent (cs : List Char) : Int :=
  match cs with
  | [] => 0
  | c :: rest =>
    if c = 'e' ∨ c = 'E' then
      match rest with
      | '-' :: r => -((digitsValue (r.takeWhile Char.isDigit) : Nat) : Int)
      | '+' :: r => ((digitsValue (r.takeWhile Char.isDigit) : Nat) : Int)
      | r => ((digitsValue (r.takeWhile Char.isDigit) : Nat) : Int)
    else 0

/-- The builtin `parseFloat` on a string: the longest decimal literal after leading white
space, `NaN` when there is none (the literal `Infinity` is not finite either). -/
def parseFloatString (s : String) : JsNum :=
  let cs := s.toList.dropWhile isStrWhiteSpace
  let negative := match cs with
    | '-' :: _ => true
    | _ => false
  let cs1 := match cs with
    | '-' :: r => r
    | '+' :: r => r
    | _ => cs
  let intPart := cs1.takeWhile Char.isDigit
  let r1 := cs1.dropWhile Char.isDigit
  let fracPart := match r1 with
    | '.' :: r => r.takeWhile Char.isDigit
    | _ => []
  let r2 := match r1 with
    | '.' :: r => r.dropWhile Char.isDigit
    | _ => r1
  if intPart = [] ∧ fracPart = [] then none
  else
    let mantissa : ℚ := (digitsValue (intPart ++ fracPart) : ℚ) / (10 : ℚ) ^ fracPart.length
    let value : ℚ := mantissa * (10 : ℚ) ^ (parseExponent r2)
    some (if negative then -value else value)

/-- The builtin `parseFloat` on a field value. -/
def parseFloat (f : Field) : JsNum :=
  match f with
  | .missing => none
  | .num q => some q
  | .str s => parseFloatString s

/-- The fields of a position read by the aggregator. `title` is `none` when absent. -/
structure Position where
  title : Option String
  cashPnl : Field
  currentValue : Field
  initialValue : Field
  realizedPnl : Field
deriving DecidableEq, Repr

/-- The four accumulators of `calculatePnL`. -/
structure Totals where
  totalCashPnl : JsNum
  totalCurrentValue : JsNum
  totalInitialValue : JsNum
  realizedPnl : JsNum
deriving DecidableEq, Repr

/-- One iteration of `for (const position of positions)` in `calculatePnL`. -/
def calculateStep (acc : Totals) (position : Position) : Totals :=
  { totalCashPnl := jsAdd acc.totalCashPnl (parseFloat (orZero position.cashPnl))
    totalCurrentValue := jsAdd acc.totalCurrentValue (parseFloat (orZero position.currentValue))
    totalInitialValue := jsAdd acc.totalInitialValue (parseFloat (orZero position.initialValue))
    realizedPnl := jsAdd acc.realizedPnl (parseFloat (orZero position.realizedPnl)) }

/-- The object returned by `calculatePnL`. -/
structure PnLData where
  cashPnl : JsNum
  currentValue : JsNum
  initialValue : JsNum
  realizedPnl : JsNum
  unrealizedPnl : JsNum
  totalPnl : JsNum
deriving DecidableEq, Repr

/-- The function `calculatePnL(positions)`. -/
def calculatePnL (positions : List Position) : PnLData :=
  let acc := positions.foldl calculateStep
    { totalCashPnl := some 0, totalCurrentValue := some 0, totalInitialValue := some 0,
      realizedPnl := some 0 }
  { cashPnl := acc.totalCashPnl
    currentValue := acc.totalCurrentValue
    initialValue := acc.totalInitialValue
    realizedPnl := acc.realizedPnl
    unrealizedPnl := jsSub acc.totalCashPnl acc.realizedPnl
    totalPnl := jsAdd acc.totalCashPnl acc.realizedPnl }

/-- A value `{ count, value }` of the `marketCategories` map while it is built. -/
structure CatData where
  count : Nat
  value : JsNum
deriving DecidableEq, Repr

/-- The body of `for (const cat of categories)`: create `{ count: 0, value: 0 }` under `cat`
when the map has no such key, then increment its `count` and add `v` to its `value`. The map
is the list of its entries in insertion order. -/
def bump : List (String × CatData) → String → JsNum → List (String × CatData)
  | [], cat, v => [(cat, { count := 0 + 1, value := jsAdd (some 0) v })]
  | (key, catData) :: rest, cat, v =>
    if key = cat then (key, { count := catData.count + 1, value := jsAdd catData.value v }) :: rest
    else (key, catData) :: bump rest cat v

/-- The expression `window.categorizeMarket ? window.categorizeMarket(position.title || '') :
['other']`; `categorizer` is `none` when `window.categorizeMarket` is not set. -/
def categoriesOf (categorizer : Option (String → List String)) (position : Position) :
    List String :=
  match categorizer with
  | some f => f (position.title.getD "")
  | none => ["other"]

/-- One iteration of the outer loop over the positions in `getTraderSummary`. -/
def bucketStep (categorizer : Option (String → List String))
    (marketCategories : List (String × CatData)) (position : Position) :
    List (String × CatData) :=
  (categoriesOf categorizer position).foldl
    (fun m cat => bump m cat (parseFloat (orZero position.currentValue))) marketCategories

/-- The `marketCategories` map built by `getTraderSummary` (both the quick and the full
branch run the same loop). -/
def marketCategories (categorizer : Option (String → List String))
    (positions : List Position) : List (String × CatData) :=
  positions.foldl (bucketStep categorizer) []

/-- The sum of a list of JavaScript numbers, starting from `0`. -/
def jsSum (xs : List JsNum) : JsNum := xs.foldl jsAdd (some 0)

/-- The positions whose categories, with `traders.js` loaded, contain the category `c`. -/
def positionsIn (positions : List Position) (c : String) : List Position :=
  positions.filter (fun p => decide (c ∈ Traders.categorizeMarket (p.title.getD "")))

/-- The numeric reading of a field that is a number or absent, absent counting as `0`. -/
def Field.value (f : Field) : ℚ :=
  match f with
  | .num q => q
  | _ => 0

/-- A field is a number or absent. -/
def Field.IsNumeric (f : Field) : Prop :=
  match f with
  | .str _ => False
  | _ => True

instance (f : Field) : Decidable f.IsNumeric := by
  cases f <;> unfold Field.IsNumeric <;> infer_instance

/-- The `count` stored under a key of the map, `0` when the key is absent. -/
def countOf (m : List (String × CatData)) (c : String) : Nat :=
  ((m.lookup c).map CatData.count).getD 0

/-- The `value` stored under a key of the map, `0` when the key is absent. -/
def valueOf (m : List (String × CatData)) (c : String) : JsNum :=
  ((m.lookup c).map CatData.value).getD (some 0)

/-- The sum of all `count` fields of the map. -/
def totalCount (m : List (String × CatData)) : Nat := (m.map (fun kv => kv.2.count)).sum

/-- All four aggregated fields of a position are numbers or absent. -/
def Position.IsNumeric (p : Position) : Prop :=
  p.cashPnl.IsNumeric ∧ p.currentValue.IsNumeric ∧ p.initialValue.IsNumeric ∧
    p.realizedPnl.IsNumeric

instance (p : Position) : Decidable p.IsNumeric := by
  unfold Position.IsNumeric; infer_instance

/-- The positions of the scenario `[{cashPnl: 100, realizedPnl: 40}, {cashPnl: -20,
realizedPnl: -40}]`. -/
def scenarioPositions : List Position :=
  [{ title := none, cashPnl := .num 100, currentValue := .missing, initialValue := .missing,
     realizedPnl := .num 40 },
   { title := none, cashPnl := .num (-20), currentValue := .missing, initialValue := .missing,
     realizedPnl := .num (-40) }]

/-- A single position whose `cashPnl` is the string `"abc"`. -/
def garbledPositions : List Position :=
  [{ title := none, cashPnl := .str "abc", currentValue := .missing, initialValue := .missing,
     realizedPnl := .missing }]

/-! ## `fetchAllTradersData` -/

/-- A watchlist entry, as far as the orchestrator reads it. -/
structure WatchTrader where
  id : String
  name : String
  wallet : Option String
deriving DecidableEq, Repr

/-- The fields of a trader summary that the orchestrator may preserve from an earlier refresh;
`rest` stands for all other fields. -/
structure Summary (σ : Type) where
  firstTradeDate : Option Int
  periodPnLs : Option PnlHistory.PeriodPnLs
  pnlHistory : Option PnlHistory.PnLHistory
  rest : σ

/-- What `getTraderSummary` yields for one trader: a summary, or a thrown error with its
message. -/
inductive Outcome (σ : Type) where
  | summary (s : Summary σ)
  | thrown (message : String)

/-- An entry of `options.existingData`. -/
structure Existing where
  wallet : Option String
  firstTradeDate : Option Int
  periodPnLs : Option PnlHistory.PeriodPnLs
  pnlHistory : Option PnlHistory.PnLHistory
deriving DecidableEq, Repr

/-- The lookup `existingDataMap.get(trader.wallet?.toLowerCase())`: the last entry of the
existing data whose wallet is set and has the same lower case. -/
def existingFor (existingData : List Existing) (wallet : Option String) : Option Existing :=
  match wallet with
  | none => none
  | some w =>
    (existingData.filter (fun e =>
      match e.wallet with
      | some ew => !(ew == "") && (Traders.toLowerCase ew == Traders.toLowerCase w)
      | none => false)).getLast?

/-- Truthiness of an optional timestamp. -/
def truthyDate (d : Option Int) : Bool :=
  match d with
  | some x => decide (x ≠ 0)
  | none => false

/-- The block that preserves data of the existing trader on a quick refresh. -/
def preserve {σ : Type} (quickRefresh : Bool) (existingTrader : Option Existing)
    (summary : Summary σ) : Summary σ :=
  match quickRefresh, existingTrader with
  | true, some e =>
    { firstTradeDate :=
        if truthyDate e.firstTradeDate && !truthyDate summary.firstTradeDate
        then e.firstTradeDate else summary.firstTradeDate
      periodPnLs :=
        if e.periodPnLs.isSome && !summary.periodPnLs.isSome then e.periodPnLs
        else summary.periodPnLs
      pnlHistory :=
        if e.pnlHistory.isSome && !summary.pnlHistory.isSome then e.pnlHistory
        else summary.pnlHistory
      rest := summary.rest }
  | _, _ => summary

/-- The object stored in `results[index]`: the spread watchlist entry, and either the summary
or the error record with the preserved fields. The `lastUpdated` stamp is left out. -/
inductive ResultEntry (σ : Type) where
  | loaded (trader : WatchTrader) (summary : Summary σ)
  | failed (trader : WatchTrader) (error : String) (firstTradeDate : Option Int)
      (periodPnLs : Option PnlHistory.PeriodPnLs) (pnlHistory : Option PnlHistory.PnLHistory)

/-- The watchlist entry spread into a result entry. -/
def ResultEntry.trader {σ : Type} : ResultEntry σ → WatchTrader
  | .loaded t _ => t
  | .failed t _ _ _ _ => t

/-- The entry that `processTrader(index)` stores; `none` when the index is out of range. -/
def entryFor {σ : Type} (traders : List WatchTrader) (outcome : Nat → Outcome σ)
    (quickRefresh : Bool) (existingData : List Existing) (index : Nat) :
    Option (ResultEntry σ) :=
  match traders[index]? with
  | none => none
  | some trader =>
    let existingTrader := existingFor existingData trader.wallet
    match outcome index with
    | .summary s => some (.loaded trader (preserve quickRefresh existingTrader s))
    | .thrown message =>
      some (.failed trader message (existingTrader.bind Existing.firstTradeDate)
        (existingTrader.bind Existing.periodPnLs) (existingTrader.bind Existing.pnlHistory))

/-- State shared by the `processTrader` calls: the `results` array (`none` is a hole), the
counter `completed`, and the calls made to the progress callback. -/
structure Progress (σ : Type) where
  results : List (Option (ResultEntry σ))
  completed : Nat
  calls : List (Nat × Nat × String)

/-- The part of `processTrader(index)` that runs when its request settles: store the entry,
increment `completed`, call the progress callback. -/
def complete {σ : Type} (traders : List WatchTrader) (outcome : Nat → Outcome σ)
    (quickRefresh : Bool) (existingData : List Existing) (s : Progress σ) (index : Nat) :
    Progress σ :=
  { results := s.results.set index (entryFor traders outcome quickRefresh existingData index)
    completed := s.completed + 1
    calls := s.calls ++ [(s.completed + 1, traders.length,
      ((traders[index]?).map WatchTrader.name).getD "")] }

/-- The batches of the loop `for (let i = 0; i < traders.length; i += concurrency)`, each the
indices `i .. min(i + concurrency, traders.length) - 1`. The first argument bounds the number
of iterations. -/
def batchesLoop (concurrency n : Nat) : Nat → Nat → List (List Nat)
  | 0, _ => []
  | fuel + 1, i =>
    if i < n then
      List.range' i (min (i + concurrency) n - i) :: batchesLoop concurrency n fuel (i + concurrency)
    else []

/-- The constant `concurrency`. -/
def concurrencyOf (quickRefresh : Bool) : Nat := if quickRefresh then 10 else 6

/-- The batches of a run over `n` traders. -/
def batches (quickRefresh : Bool) (n : Nat) : List (List Nat) :=
  batchesLoop (concurrencyOf quickRefresh) n n 0

/-- The function `fetchAllTradersData(traders, progressCallback, options)` with a progress
callback. The batches run one after the other; within a batch the requests settle in the order
`schedule batch`. -/
def fetchAllTradersData {σ : Type} (traders : List WatchTrader) (outcome : Nat → Outcome σ)
    (quickRefresh : Bool) (existingData : List Existing) (schedule : List Nat → List Nat) :
    Progress σ :=
  (batches quickRefresh traders.length).foldl
    (fun s batch =>
      (schedule batch).foldl (complete traders outcome quickRefresh existingData) s)
    { results := List.replicate traders.length none, completed := 0, calls := [] }

/-- Three watchlist entries. -/
def sampleWatchlist : List WatchTrader :=
  [⟨"a", "Alice", some "0xA"⟩, ⟨"b", "Bob", some "0xB"⟩, ⟨"c", "Carol", none⟩]

/-- The first and third request succeed, the second throws. -/
def sampleOutcome : Nat → Outcome Unit := fun i =>
  if i = 1 then .thrown "timeout" else .summary ⟨none, none, none, ()⟩

end Api

namespace App

/-! ## Client-side helpers of `src/app.js` -/

/-- The `pnl` values of `trader.periodPnLs`, per period key; `none` when the entry or its `pnl`
is absent. -/
structure ClientPeriods where
  day : Option ℚ
  week : Option ℚ
  month : Option ℚ
  all : Option ℚ
deriving DecidableEq, Repr

/-- The fields of a trader record read by the chart helpers. -/
structure ClientTrader where
  wallet : Option String
  totalPnl : Option ℚ
  periodPnLs : Option ClientPeriods
  firstTradeDate : Option Int
  pnlHistory : Option PnlHistory.PnLHistory
deriving DecidableEq, Repr

/-- The expression `periodMap[timeframe] || 'ALL'`. -/
def periodKey (timeframe : String) : String :=
  if timeframe = "1D" then "DAY"
  else if timeframe = "1W" then "WEEK"
  else if timeframe = "1M" then "MONTH"
  else "ALL"

/-- The expression `trader.periodPnLs?.[periodKey]?.pnl`; `none` is `undefined` (or `null`). -/
def periodPnlOf (trader : ClientTrader) (key : String) : Option ℚ :=
  match trader.periodPnLs with
  | none => none
  | some p =>
    if key = "DAY" then p.day
    else if key = "WEEK" then p.week
    else if key = "MONTH" then p.month
    else if key = "ALL" then p.all
    else none

/-- Truthiness of an optional number: present and not `0`. -/
def truthy (x : Option ℚ) : Bool :=
  match x with
  | some q => decide (q ≠ 0)
  | none => false

/-- The expression `trader.totalPnl || trader.periodPnLs?.ALL?.pnl || 0`. -/
def allTimePnL (trader : ClientTrader) : ℚ :=
  if truthy trader.totalPnl then trader.totalPnl.getD 0
  else if truthy (periodPnlOf trader "ALL") then (periodPnlOf trader "ALL").getD 0
  else 0

/-- The function `getPnLForTimeframe(trader, timeframe)`. -/
def getPnLForTimeframe (trader : ClientTrader) (timeframe : String) : ℚ :=
  let fromPeriods : ℚ :=
    if timeframe = "ALL" then allTimePnL trader
    else
      match periodPnlOf trader (periodKey timeframe) with
      | some periodPnl => periodPnl
      | none => 0
  match trader.pnlHistory with
  | none => fromPeriods
  | some pnlHistory =>
    match pnlHistory.get? timeframe with
    | none => fromPeriods
    | some history =>
      if history.length > 0 then
        let startPnl := (history.head?.map PnlHistory.Point.pnl).getD 0
        let endPnl := (history.getLast?.map PnlHistory.Point.pnl).getD 0
        if timeframe = "ALL" then endPnl else endPnl - startPnl
      else fromPeriods

/-- The method `s.slice(0, n)` on the characters of a string. -/
def sliceTo (s : List Char) (n : Nat) : List Char := s.take n

/-- The method `s.slice(-n)` on the characters of a string: the last `n` characters. -/
def sliceLast (s : List Char) (n : Nat) : List Char := s.drop (s.length - n)

/-- The expression `name.split('-')[0]`: the text before the first `-`. -/
def beforeDash (s : List Char) : List Char := s.takeWhile (fun c => c != '-')

/-- The function `truncateTraderName(name)`; `none` is a missing name. Lengths and slices count
characters, which on names within the Basic Multilingual Plane are the UTF-16 units that
JavaScript counts. -/
def truncateTraderName (name : Option String) : String :=
  match name with
  | none => ""
  | some name =>
    if name = "" then ""
    else if name.length ≤ 20 then name
    else
      let cs := name.toList
      if "0x".toList.isPrefixOf cs then
        let walletPart := if cs.contains '-' then beforeDash cs else cs
        String.mk (sliceTo walletPart 6 ++ "...".toList ++ sliceLast walletPart 4)
      else
        String.mk (sliceTo cs 6 ++ "...".toList ++ sliceLast cs 4)

/-! ## `generateFallbackTimeframeData` -/

/-- A point of a client-side chart series; the timestamp need not be a whole number. -/
structure ChartPoint where
  timestamp : ℚ
  pnl : ℚ
deriving DecidableEq, Repr

/-- The constant `hourMs`. -/
def hourMs : Int := 60 * 60 * 1000

/-- The constant `dayMs`. -/
def dayMs : Int := 24 * hourMs

/-- The builtin `Math.ceil` on an exact value. -/
def jsCeil (x : ℚ) : Int := ⌈x⌉

/-- The end value of the series: `allTimePnL` for `'ALL'`, else
`trader.periodPnLs?.[periodKey]?.pnl || 0`. -/
def endPnlOf (trader : ClientTrader) (timeframe : String) : ℚ :=
  if timeframe = "ALL" then allTimePnL trader
  else (periodPnlOf trader (periodKey timeframe)).getD 0

/-- The test `firstTradeDate && firstTradeDate > bound`. -/
def startedAfter (firstTradeDate : Option Int) (bound : Int) : Bool :=
  match firstTradeDate with
  | some d => decide (d ≠ 0) && decide (d > bound)
  | none => false

/-- The `switch (timeframe)`: the pair `(dataPoints, startTime)`. -/
def chartWindow (trader : ClientTrader) (timeframe : String) (now : Int) : Int × Int :=
  let firstTradeDate := trader.firstTradeDate
  if timeframe = "1D" then
    if startedAfter firstTradeDate (now - dayMs) then
      let startTime := firstTradeDate.getD 0
      (max 24 (jsCeil (((now - startTime : Int) : ℚ) / ((15 * 60 * 1000 : Int) : ℚ))), startTime)
    else (96, now - dayMs)
  else if timeframe = "1W" then
    if startedAfter firstTradeDate (now - 7 * dayMs) then
      let startTime := firstTradeDate.getD 0
      (max 24 (jsCeil (((now - startTime : Int) : ℚ) / (hourMs : ℚ))), startTime)
    else (168, now - 7 * dayMs)
  else if timeframe = "1M" then
    if startedAfter firstTradeDate (now - 30 * dayMs) then
      let startTime := firstTradeDate.getD 0
      (max 30 (jsCeil (((now - startTime : Int) : ℚ) / ((6 * hourMs : Int) : ℚ))), startTime)
    else (120, now - 30 * dayMs)
  else
    if startedAfter firstTradeDate 0 then
      let startTime := firstTradeDate.getD 0
      let tradingDays := jsCeil (((now - startTime : Int) : ℚ) / (dayMs : ℚ))
      (min 365 (max 30 tradingDays), startTime)
    else (180, now - 180 * dayMs)

/-- The conversion `ToInt32` of a whole number. -/
def toInt32 (x : Int) : Int := (x + 2 ^ 31) % 2 ^ 32 - 2 ^ 31

/-- The reducer `((a << 5) - a) + b.charCodeAt(0)` of the wallet hash. -/
def hashStep (a : Int) (b : Char) : Int := (toInt32 (toInt32 a * 32) - a) + (b.toNat : Int)

/-- The expression `Math.abs(walletHash) + timeframe.charCodeAt(0) * 1000`, on a wallet and a
timeframe within the Basic Multilingual Plane. -/
def seedOf (trader : ClientTrader) (timeframe : String) : Int :=
  let wallet := match trader.wallet with
    | some w => if w = "" then "default" else w
    | none => "default"
  let walletHash := wallet.toList.foldl hashStep 0
  |walletHash| + ((timeframe.toList.head?.map Char.toNat).getD 0 : Nat) * 1000

/-- State of the loop that draws the increments: `increments`, `sum`, `trendDirection` and
`trendStrength`. -/
structure WalkState where
  increments : List ℚ
  sum : ℚ
  trendDirection : ℚ
  trendStrength : ℚ
deriving DecidableEq, Repr

/-- One iteration of the loop that draws the increments. `seededRandom` and `sqrt` stand for
the closure `seededRandom` and for `Math.sqrt`, whose values are not rational. -/
def walkStep (seededRandom : ℚ → ℚ) (sqrt : ℚ → ℚ) (seed volatility dataPoints : ℚ)
    (s : WalkState) (i : Nat) : WalkState :=
  let r1 := seededRandom (seed + (i : ℚ) * (11 / 10)) - 1 / 2
  let r2 := seededRandom (seed + (i : ℚ) * (23 / 10)) - 1 / 2
  let r3 := seededRandom (seed + (i : ℚ) * (37 / 10)) - 1 / 2
  let reversal : Bool := decide (seededRandom (seed + (i : ℚ) * (49 / 10)) > 85 / 100)
  let trendDirection := if reversal then s.trendDirection * (-1) else s.trendDirection
  let trendStrength :=
    if reversal then seededRandom (seed + (i : ℚ) * (61 / 10)) * (3 / 10) else s.trendStrength
  let base := (r1 + r2 * (1 / 2) + r3 * (3 / 10)) * volatility / sqrt dataPoints
  let biased := base + trendDirection * trendStrength * volatility / dataPoints
  let spikeChance := seededRandom (seed + (i : ℚ) * (51 / 10))
  let spiked :=
    if spikeChance > 92 / 100 then biased * 3
    else if spikeChance > 85 / 100 then biased * 2
    else biased
  let increment :=
    if seededRandom (seed + (i : ℚ) * (73 / 10)) > 95 / 100 then spiked * (-2) else spiked
  { increments := s.increments ++ [increment]
    sum := s.sum + increment
    trendDirection := trendDirection
    trendStrength := trendStrength }

/-- The state after the loop `for (let i = 0; i < dataPoints - 1; i++)`. -/
def walk (seededRandom : ℚ → ℚ) (sqrt : ℚ → ℚ) (trader : ClientTrader) (timeframe : String)
    (now : Int) : WalkState :=
  let endPnl := endPnlOf trader timeframe
  let totalChange := endPnl - 0
  let dataPoints := (chartWindow trader timeframe now).1
  let seed : ℚ := (seedOf trader timeframe : ℚ)
  let minVolatility := if |endPnl| * (15 / 100) = 0 then 10000 else |endPnl| * (15 / 100)
  let volatility := max (|totalChange| * (8 / 10)) minVolatility
  (List.range (dataPoints - 1).toNat).foldl
    (walkStep seededRandom sqrt seed volatility (dataPoints : ℚ))
    { increments := [], sum := 0
      trendDirection := if seededRandom seed > 5 / 10 then 1 else -1
      trendStrength := 0 }

/-- The increments after the adjustment loop `increments[i] += adjustment`. -/
def adjustedIncrements (seededRandom : ℚ → ℚ) (sqrt : ℚ → ℚ) (trader : ClientTrader)
    (timeframe : String) (now : Int) : List ℚ :=
  let s := walk seededRandom sqrt trader timeframe now
  let totalChange := endPnlOf trader timeframe - 0
  let dataPoints := (chartWindow trader timeframe now).1
  let adjustment := (totalChange - s.sum) / (((dataPoints - 1 : Int) : ℚ))
  s.increments.map (fun x => x + adjustment)

/-- State of the loop that builds the path: `history` and `currentPnl`. -/
structure PathState where
  history : List ChartPoint
  currentPnl : ℚ
deriving DecidableEq, Repr

/-- One iteration of the loop that builds the path, at index `i` with increment `inc`. -/
def pathStep (startTime intervalMs : ℚ) (s : PathState) (e : Nat × ℚ) : PathState :=
  let currentPnl := s.currentPnl + e.2
  { history := s.history ++ [{ timestamp := startTime + ((e.1 : ℚ) + 1) * intervalMs,
                               pnl := currentPnl }]
    currentPnl := currentPnl }

/-- The assignment `history[history.length - 1].pnl = endPnl`, guarded by
`history.length > 0`. -/
def pinEnd (history : List ChartPoint) (endPnl : ℚ) : List ChartPoint :=
  match history.getLast? with
  | none => history
  | some p => history.dropLast ++ [{ p with pnl := endPnl }]

/-- The path before the final pin: the start point followed by the running sums of the adjusted
increments. -/
def pathBeforePin (seededRandom : ℚ → ℚ) (sqrt : ℚ → ℚ) (trader : ClientTrader)
    (timeframe : String) (now : Int) : PathState :=
  let w := chartWindow trader timeframe now
  let dataPoints := w.1
  let startTime : ℚ := (w.2 : ℚ)
  let intervalMs : ℚ := (((now - w.2 : Int) : ℚ)) / (((dataPoints - 1 : Int) : ℚ))
  (adjustedIncrements seededRandom sqrt trader timeframe now).enum.foldl
    (pathStep startTime intervalMs)
    { history := [{ timestamp := startTime, pnl := 0 }], currentPnl := 0 }

/-- The function `generateFallbackTimeframeData(trader, timeframe)` at the clock value `now`. -/
def generateFallbackTimeframeData (seededRandom : ℚ → ℚ) (sqrt : ℚ → ℚ) (trader : ClientTrader)
    (timeframe : String) (now : Int) : List ChartPoint :=
  pinEnd (pathBeforePin seededRandom sqrt trader timeframe now).history
    (endPnlOf trader timeframe)

/-- A trader record with period PnLs and a first trade less than a day before the clock value
`1700000000000`. -/
def chartTrader : ClientTrader :=
  { wallet := some "0xabc", totalPnl := some 1000,
    periodPnLs := some ⟨some 20, some 100, none, some 1000⟩,
    firstTradeDate := some 1699999000000, pnlHistory := none }

/-- A trader record whose `pnlHistory` is the server-side synthetic history for the period
deltas `{1000, 400, 100, 20}`, without trades. -/
def roundTripTrader : ClientTrader :=
  { wallet := some "0xabc", totalPnl := none, periodPnLs := none, firstTradeDate := none,
    pnlHistory := some (PnlHistory.fetchPnLHistoryFallback (fun _ => 0) ⟨1000, 400, 100, 20⟩ [] 0) }

/-- The first example of the comment above `truncateTraderName`. -/
def exampleWithSuffix : String := "0x006cc834Cc092684F1B56626E23BEdB3835c16ea-1729683673397"

/-- The second example of the comment above `truncateTraderName`. -/
def examplePlain : String := "0x594edB9112f526Fa6A80b8F858A6379C8A2c1C11"

end App

/-! # Theorems -/

namespace PnlHistory

theorem tradePoints_length (rnd : Nat → ℚ) (a b : Int) (x y : ℚ) (k : Nat) (l : List Trade) :
    (tradePoints rnd a b x y k l).length = l.length := by
  induction l generalizing k with
  | nil => rfl
  | cons t ts ih => simp [tradePoints, ih]

theorem tradePoints_timestamps (rnd : Nat → ℚ) (a b : Int) (x y : ℚ) (k : Nat) (l : List Trade) :
    (tradePoints rnd a b x y k l).map Point.timestamp = l.map tradeMs := by
  induction l generalizing k with
  | nil => rfl
  | cons t ts ih => simp [tradePoints, tradePoint, ih]

theorem foldl_tradeStep (rnd : Nat → ℚ) (a b : Int) (x y : ℚ) (l : List Trade) (s : LoopState) :
    (l.foldl (tradeStep rnd a b x y) s).timeline = s.timeline ++ tradePoints rnd a b x y s.draws l
    ∧ (l.foldl (tradeStep rnd a b x y) s).lastTs = ((l.map tradeMs).getLast?).getD s.lastTs
    ∧ (l.foldl (tradeStep rnd a b x y) s).draws = s.draws + l.length := by
  induction l generalizing s with
  | nil => simp [tradePoints]
  | cons t ts ih =>
    obtain ⟨h1, h2, h3⟩ := ih (tradeStep rnd a b x y s t)
    refine ⟨?_, ?_, ?_⟩
    · rw [List.foldl_cons, h1]
      simp [tradeStep, tradePoints, tradePoint]
    · rw [List.foldl_cons, h2]
      cases ts with
      | nil => simp [tradeStep]
      | cons u us =>
        simp only [List.map_cons, List.getLast?_cons_cons]
        rw [List.getLast?_eq_getLast _ (List.cons_ne_nil _ _)]
        simp
    · rw [List.foldl_cons, h3]; simp [tradeStep]; omega

theorem generateTimeline_even (rnd : Nat → ℚ) (n : Nat) (a b : Int) (x y : ℚ) (points : Nat)
    (trades : List Trade) (h : periodTrades a b trades = [] ∨ points ≤ 2) :
    generateTimeline rnd n a b x y points trades
      = ((List.range points).map (evenPoint a b x y points), n) := by
  unfold generateTimeline
  have h2 : (periodTrades a b trades).length = 0 ∨ points ≤ 2 := by
    rcases h with h | h
    · left; simp [h]
    · right; exact h
  simp only [h2, if_true]

theorem generateTimeline_trades (rnd : Nat → ℚ) (n : Nat) (a b : Int) (x y : ℚ) (points : Nat)
    (trades : List Trade) (h1 : periodTrades a b trades ≠ []) (h2 : 2 < points) :
    generateTimeline rnd n a b x y points trades
      = (if (((periodTrades a b trades).map tradeMs).getLast?).getD a < b - 60000 then
          (⟨a, x⟩ :: tradePoints rnd a b x y n (periodTrades a b trades)) ++ [⟨b, y⟩]
        else pinLast (⟨a, x⟩ :: tradePoints rnd a b x y n (periodTrades a b trades)) y,
        n + (periodTrades a b trades).length) := by
  unfold generateTimeline
  have h3 : ¬ ((periodTrades a b trades).length = 0 ∨ points ≤ 2) := by
    rintro (h | h)
    · exact h1 (List.length_eq_zero.mp h)
    · omega
  obtain ⟨e1, e2, e3⟩ := foldl_tradeStep rnd a b x y (periodTrades a b trades)
    ⟨[⟨a, x⟩], a, n⟩
  simp only [h3, if_false, e1, e2, e3]
  split <;> simp

theorem pinLast_getLast? (l : List Point) (v : ℚ) (h : l ≠ []) :
    (pinLast l v).getLast?.map Point.pnl = some v := by
  unfold pinLast
  rw [List.getLast?_eq_getLast _ h]
  simp

theorem evenPoint_last_pnl (a b : Int) (x y : ℚ) (points : Nat) (h : 2 ≤ points) :
    (evenPoint a b x y points (points - 1)).pnl = y := by
  have h1 : ((points - 1 : Nat) : ℚ) = (points : ℚ) - 1 := by
    rw [Nat.cast_sub (by omega)]; simp
  have h2 : ((points : ℚ) - 1) ≠ 0 := by
    have : (2 : ℚ) ≤ (points : ℚ) := by exact_mod_cast h
    intro h0; linarith
  simp only [evenPoint, h1]
  rw [div_self h2]; ring

theorem generateTimeline_last_pnl (rnd : Nat → ℚ) (n : Nat) (a b : Int) (x y : ℚ) (points : Nat)
    (trades : List Trade) (h : 2 ≤ points) :
    (generateTimeline rnd n a b x y points trades).1.getLast?.map Point.pnl = some y := by
  by_cases hc : periodTrades a b trades = [] ∨ points ≤ 2
  · rw [generateTimeline_even rnd n a b x y points trades hc]
    obtain ⟨m, rfl⟩ : ∃ m, points = m + 1 := ⟨points - 1, by omega⟩
    simp only [List.range_succ, List.map_append, List.map_cons, List.map_nil]
    rw [List.getLast?_concat]
    have := evenPoint_last_pnl a b x y (m + 1) h
    simpa using this
  · push_neg at hc
    rw [generateTimeline_trades rnd n a b x y points trades hc.1 hc.2]
    simp only
    split
    · rw [List.getLast?_concat]; rfl
    · exact pinLast_getLast? _ _ (List.cons_ne_nil _ _)

theorem jsRound_mono {u v : ℚ} (h : u ≤ v) : jsRound u ≤ jsRound v := by
  unfold jsRound
  exact Int.floor_mono (by linarith)

theorem jsRound_intCast (z : Int) : jsRound (z : ℚ) = z := by
  unfold jsRound
  rw [Int.floor_eq_iff]
  constructor <;> norm_num

theorem even_nonDecreasing (a b : Int) (x y : ℚ) (points : Nat) (hab : a ≤ b) (hp : 2 ≤ points) :
    NonDecreasing ((List.range points).map (evenPoint a b x y points)) := by
  unfold NonDecreasing
  rw [List.map_map]
  refine (List.pairwise_lt_range points).map _ ?_
  intro i j hij
  simp only [Function.comp, evenPoint]
  apply jsRound_mono
  have hd : (0 : ℚ) ≤ ((b - a : Int) : ℚ) := by exact_mod_cast sub_nonneg.mpr hab
  have hq : (0 : ℚ) < (points : ℚ) - 1 := by
    have : (2 : ℚ) ≤ (points : ℚ) := by exact_mod_cast hp
    linarith
  have hs : (0 : ℚ) ≤ ((b - a : Int) : ℚ) / ((points : ℚ) - 1) := div_nonneg hd hq.le
  have hij' : (i : ℚ) ≤ (j : ℚ) := by exact_mod_cast hij.le
  have := mul_le_mul_of_nonneg_left hij' hs
  linarith

theorem pinLast_timestamps (l : List Point) (v : ℚ) :
    (pinLast l v).map Point.timestamp = l.map Point.timestamp := by
  unfold pinLast
  rcases List.eq_nil_or_concat l with h | ⟨l', p, h⟩
  · subst h; rfl
  · subst h
    simp [List.getLast?_concat, List.dropLast_concat]

theorem periodTrades_bounds (a b : Int) (trades : List Trade) :
    ∀ t ∈ periodTrades a b trades, a ≤ tradeMs t ∧ tradeMs t ≤ b := by
  intro t ht
  unfold periodTrades at ht
  simpa using (List.mem_filter.mp ht).2

theorem periodTrades_sorted (a b : Int) (trades : List Trade)
    (hs : SortedByTimestamp trades) :
    ((periodTrades a b trades).map tradeMs).Sorted (· ≤ ·) := by
  unfold periodTrades
  have h1 : List.Pairwise (fun s t : Trade => sortKey s ≤ sortKey t) trades :=
    List.pairwise_map.mp hs
  have h2 := h1.sublist (List.filter_sublist (l := trades)
    (p := fun t => decide (tradeMs t ≥ a) && decide (tradeMs t ≤ b)))
  refine List.pairwise_map.mpr (h2.imp ?_)
  intro s t hst
  unfold tradeMs
  unfold sortKey at hst
  omega

theorem generateTimeline_nonDecreasing (rnd : Nat → ℚ) (n : Nat) (a b : Int) (x y : ℚ) (points : Nat)
    (trades : List Trade) (hab : a ≤ b) (hp : 2 ≤ points)
    (hs : SortedByTimestamp trades) :
    NonDecreasing (generateTimeline rnd n a b x y points trades).1 := by
  by_cases hc : periodTrades a b trades = [] ∨ points ≤ 2
  · rw [generateTimeline_even rnd n a b x y points trades hc]
    exact even_nonDecreasing a b x y points hab hp
  · push_neg at hc
    rw [generateTimeline_trades rnd n a b x y points trades hc.1 hc.2]
    have hb := periodTrades_bounds a b trades
    have hsorted := periodTrades_sorted a b trades hs
    have hbase : ((⟨a, x⟩ :: tradePoints rnd a b x y n (periodTrades a b trades)).map
        Point.timestamp).Sorted (· ≤ ·) := by
      rw [List.map_cons, tradePoints_timestamps]
      refine List.pairwise_cons.mpr ⟨?_, hsorted⟩
      intro z hz
      obtain ⟨t, ht, rfl⟩ := List.mem_map.mp hz
      exact (hb t ht).1
    unfold NonDecreasing
    simp only
    split
    · rw [List.map_append]
      refine List.pairwise_append.mpr ⟨hbase, by simp, ?_⟩
      intro z hz w hw
      simp only [List.map_cons, List.map_nil, List.mem_singleton] at hw
      subst hw
      rw [List.map_cons, tradePoints_timestamps] at hz
      rcases List.mem_cons.mp hz with rfl | hz
      · exact hab
      · obtain ⟨t, ht, rfl⟩ := List.mem_map.mp hz
        exact (hb t ht).2
    · rw [pinLast_timestamps]; exact hbase

instance : IsTotal Trade (fun a b => sortKey a ≤ sortKey b) := ⟨fun _ _ => le_total _ _⟩

instance : IsTrans Trade (fun a b => sortKey a ≤ sortKey b) := ⟨fun _ _ _ h1 h2 => le_trans h1 h2⟩

theorem sortTrades_sorted (trades : List Trade) : SortedByTimestamp (sortTrades trades) := by
  unfold SortedByTimestamp sortTrades
  exact List.pairwise_map.mpr (List.sorted_insertionSort _ trades)

theorem mem_sortTrades (trades : List Trade) (t : Trade) :
    t ∈ sortTrades trades ↔ t ∈ trades :=
  (List.perm_insertionSort _ trades).mem_iff

theorem dayMs_pos : 0 < dayMs := by decide

theorem allStartTime_le (now : Int) (l : List Trade) : allStartTime now l ≤ now - 180 * dayMs := by
  unfold allStartTime
  cases h : l.head? with
  | none => simp
  | some t =>
    simp only
    split
    · omega
    · exact le_refl _

theorem fallback_series (rnd : Nat → ℚ) (pp : PeriodPnLs) (trades : List Trade) (now : Int)
    (P : Int → ℚ → Nat → List Point → Prop)
    (h : ∀ n a x points, a ≤ now - dayMs → 48 ≤ points →
      P a x points (generateTimeline rnd n a now x pp.all points (sortTrades trades)).1) :
    let r := fetchPnLHistoryFallback rnd pp trades now
    P (now - dayMs) (pp.all - pp.day) 48 r.s1D ∧ P (now - 7 * dayMs) (pp.all - pp.week) 84 r.s1W ∧
    P (now - 30 * dayMs) (pp.all - pp.month) 60 r.s1M ∧
    P (allStartTime now (sortTrades trades)) 0 100 r.sALL := by
  have hd := dayMs_pos
  have ha := allStartTime_le now (sortTrades trades)
  refine ⟨h _ _ _ _ (le_refl _) (le_refl _), h _ _ _ _ (by omega) (by omega),
    h _ _ _ _ (by omega) (by omega), h _ _ _ _ (by omega) (by omega)⟩

theorem fallback_forall_series (rnd : Nat → ℚ) (pp : PeriodPnLs) (trades : List Trade) (now : Int)
    (Q : List Point → Prop)
    (h : ∀ n a x points, a ≤ now - dayMs → 48 ≤ points →
      Q (generateTimeline rnd n a now x pp.all points (sortTrades trades)).1) :
    ∀ s ∈ (fetchPnLHistoryFallback rnd pp trades now).series, Q s := by
  obtain ⟨h1, h2, h3, h4⟩ := fallback_series rnd pp trades now (fun _ _ _ s => Q s) h
  intro s hs
  simp only [PnLHistory.series, List.mem_cons, List.mem_singleton, List.not_mem_nil,
    or_false] at hs
  rcases hs with rfl | rfl | rfl | rfl
  · exact h1
  · exact h2
  · exact h3
  · exact h4

theorem fallback_nonDecreasing (rnd : Nat → ℚ) (pp : PeriodPnLs) (trades : List Trade)
    (now : Int) :
    ∀ s ∈ (fetchPnLHistoryFallback rnd pp trades now).series, NonDecreasing s := by
  apply fallback_forall_series
  intro n a x points ha hp
  have hd := dayMs_pos
  exact generateTimeline_nonDecreasing rnd n a now x pp.all points _ (by omega) (by omega)
    (sortTrades_sorted trades)

/-- C1. Exact-endpoint invariant. For every window `startTime < endTime`, every `startPnl` and
`endPnl`, every `points ≥ 2`, every trade list and every stream of jitter values,
`generateTimeline` returns a non-empty series whose last point has `pnl = endPnl`; hence every
one of the four series built by `fetchPnLHistoryFallback` is non-empty and ends at
`periodPnLs.all`. -/
theorem exact_endpoint (rnd : Nat → ℚ) (n : Nat) (startTime endTime : Int) (startPnl endPnl : ℚ)
    (points : Nat) (trades : List Trade) (periodPnLs : PeriodPnLs) (now : Int)
    (hwin : startTime < endTime) (hpoints : 2 ≤ points) :
    ((generateTimeline rnd n startTime endTime startPnl endPnl points trades).1 ≠ [] ∧
      (generateTimeline rnd n startTime endTime startPnl endPnl points trades).1.getLast?.map
        Point.pnl = some endPnl) ∧
    ∀ s ∈ (fetchPnLHistoryFallback rnd periodPnLs trades now).series,
      s ≠ [] ∧ s.getLast?.map Point.pnl = some periodPnLs.all := by
  have key : ∀ (n : Nat) (a b : Int) (x y : ℚ) (points : Nat) (l : List Trade), 2 ≤ points →
      (generateTimeline rnd n a b x y points l).1 ≠ [] ∧
      (generateTimeline rnd n a b x y points l).1.getLast?.map Point.pnl = some y := by
    intro n a b x y points l hp
    have h := generateTimeline_last_pnl rnd n a b x y points l hp
    refine ⟨?_, h⟩
    intro h0
    rw [h0] at h
    simp at h
  refine ⟨key n startTime endTime startPnl endPnl points trades hpoints, ?_⟩
  apply fallback_forall_series
  intro n a x points _ hp
  exact key n a now x periodPnLs.all points _ (by omega)

theorem exact_endpoint_witness :
    ((0 : Int) < 100 ∧ 2 ≤ 4) ∧
    (((generateTimeline (fun _ => 0) 0 0 100 5 10 4 [⟨some 3⟩]).1 ≠ [] ∧
      (generateTimeline (fun _ => 0) 0 0 100 5 10 4 [⟨some 3⟩]).1.getLast?.map
        Point.pnl = some 10) ∧
    ∀ s ∈ (fetchPnLHistoryFallback (fun _ => 0) ⟨1000, 400, 100, 20⟩ [⟨some 3⟩] 0).series,
      s ≠ [] ∧ s.getLast?.map Point.pnl = some (PeriodPnLs.mk 1000 400 100 20).all) :=
  ⟨⟨by decide, by decide⟩,
    exact_endpoint (fun _ => 0) 0 0 100 5 10 4 [⟨some 3⟩] ⟨1000, 400, 100, 20⟩ 0
      (by decide) (by decide)⟩

/-- C3. For every `startTime ≤ endTime`, every `points ≥ 2` and every trade list sorted
ascending by timestamp, the series returned by `generateTimeline` has non-decreasing
timestamps, in the evenly spaced branch as well as in the trade branch. -/
theorem timeline_timestamps_nonDecreasing (rnd : Nat → ℚ) (n : Nat) (startTime endTime : Int)
    (startPnl endPnl : ℚ) (points : Nat) (trades : List Trade)
    (hwin : startTime ≤ endTime) (hpoints : 2 ≤ points) (hsorted : SortedByTimestamp trades) :
    NonDecreasing (generateTimeline rnd n startTime endTime startPnl endPnl points trades).1 ∧
    ((periodTrades startTime endTime trades = [] ∨ points ≤ 2) →
      NonDecreasing ((List.range points).map
        (evenPoint startTime endTime startPnl endPnl points))) ∧
    ((periodTrades startTime endTime trades ≠ [] ∧ 2 < points) →
      ((generateTimeline rnd n startTime endTime startPnl endPnl points trades).1.map
          Point.timestamp = startTime :: (periodTrades startTime endTime trades).map tradeMs ∨
        (generateTimeline rnd n startTime endTime startPnl endPnl points trades).1.map
          Point.timestamp
          = (startTime :: (periodTrades startTime endTime trades).map tradeMs) ++ [endTime])) := by
  refine ⟨generateTimeline_nonDecreasing rnd n startTime endTime startPnl endPnl points trades
    hwin hpoints hsorted, fun _ => even_nonDecreasing _ _ _ _ _ hwin hpoints, ?_⟩
  rintro ⟨h1, h2⟩
  rw [generateTimeline_trades rnd n startTime endTime startPnl endPnl points trades h1 h2]
  simp only
  split
  · right; simp [tradePoints_timestamps]
  · left; rw [pinLast_timestamps]; simp [tradePoints_timestamps]

theorem timeline_timestamps_nonDecreasing_witness :
    ((0 : Int) ≤ 100000 ∧ 2 ≤ 4 ∧ SortedByTimestamp [⟨some 3⟩, ⟨some 50⟩]) ∧
    NonDecreasing (generateTimeline (fun _ => 0) 0 0 100000 5 10 4 [⟨some 3⟩, ⟨some 50⟩]).1 :=
  ⟨⟨by decide, by decide, by decide⟩,
    (timeline_timestamps_nonDecreasing (fun _ => 0) 0 0 100000 5 10 4 [⟨some 3⟩, ⟨some 50⟩]
      (by decide) (by decide) (by decide)).1⟩

theorem pnlEntry_cases (q : Query) :
    (pnlEntry q = none ∧ ∀ apk s, scanStep apk s q = s) ∨
    ∃ key tf data, q.queryKey = some key ∧ key[0]? = some "portfolio-pnl" ∧
      timeframeOf key = some tf ∧ q.data = some data ∧ data.length > 0 ∧
      pnlEntry q = some (tf, data) := by
  unfold pnlEntry scanStep
  cases hk : q.queryKey with
  | none => exact Or.inl ⟨rfl, fun _ _ => rfl⟩
  | some queryKey =>
    simp only
    by_cases h0 : queryKey[0]? = some "portfolio-pnl"
    · simp only [if_pos h0]
      cases htf : timeframeOf queryKey with
      | none => exact Or.inl ⟨rfl, fun _ _ => rfl⟩
      | some tf =>
        cases hd : q.data with
        | none => exact Or.inl ⟨rfl, fun _ _ => rfl⟩
        | some data =>
          simp only
          by_cases hl : data.length > 0
          · exact Or.inr ⟨queryKey, tf, data, rfl, h0, htf, rfl, hl, by rw [if_pos hl]⟩
          · refine Or.inl ⟨by rw [if_neg hl], fun apk s => ?_⟩
            rw [if_neg (fun h => hl h.1)]
    · exact Or.inl (by simp [h0])

theorem scanStep_eq (apk : List String) (s : ScanState) (q : Query) :
    scanStep apk s q =
      match pnlEntry q with
      | some (tf, data) =>
        if s.result.isDefined apk tf = true then
          { result := s.result.set tf (data.map convertPoint)
            hasVariation := decide (uniqueCount data > 1) || s.hasVariation }
        else s
      | none => s := by
  rcases pnlEntry_cases q with ⟨h, hs⟩ | ⟨key, tf, data, hk, h0, htf, hd, hl, h⟩
  · rw [h, hs]
  · rw [h]
    unfold scanStep
    rw [hk]
    simp only [if_pos h0, htf, hd]
    by_cases hdef : s.result.isDefined apk tf = true
    · rw [if_pos ⟨hl, hdef⟩, if_pos hdef]
      by_cases hu : uniqueCount data > 1 <;> simp [hu]
    · rw [if_neg (fun h => hdef h.2), if_neg hdef]

theorem acceptedEntry_eq (q : Query) :
    acceptedEntry q =
      match pnlEntry q with
      | some (tf, data) => if tf ∈ timeframeKeys then some (tf, data) else none
      | none => none := by
  unfold acceptedEntry pnlEntry
  cases q.queryKey with
  | none => rfl
  | some queryKey =>
    simp only
    by_cases h0 : queryKey[0]? = some "portfolio-pnl"
    · simp only [if_pos h0]
      cases timeframeOf queryKey with
      | none => rfl
      | some tf =>
        cases q.data with
        | none => rfl
        | some data =>
          simp only
          by_cases hl : data.length > 0 <;> by_cases hm : tf ∈ timeframeKeys <;> simp [hl, hm]
    · simp only [if_neg h0]

theorem acceptedData_eq (q : Query) : acceptedData q = (acceptedEntry q).map Prod.snd := by
  unfold acceptedData acceptedEntry
  cases q.queryKey with
  | none => rfl
  | some queryKey =>
    simp only
    by_cases h0 : queryKey[0]? = some "portfolio-pnl"
    · rw [if_pos h0, if_pos h0]
      cases timeframeOf queryKey with
      | none => rfl
      | some tf =>
        cases q.data with
        | none => rfl
        | some data =>
          simp only
          by_cases hc : data.length > 0 ∧ tf ∈ timeframeKeys
          · rw [if_pos hc, if_pos hc]; rfl
          · rw [if_neg hc, if_neg hc]; rfl
    · rw [if_neg h0, if_neg h0]; rfl

theorem isDefined_of_key (apk : List String) (r : PnLHistory) (tf : String)
    (h : tf ∈ timeframeKeys) : r.isDefined apk tf = true := by
  simp [PnLHistory.isDefined, PnLHistory.hasOwn, h]

theorem set_of_not_key (r : PnLHistory) (tf : String) (v : List Point)
    (h : tf ∉ timeframeKeys) :
    (r.set tf v).s1D = r.s1D ∧ (r.set tf v).s1W = r.s1W ∧ (r.set tf v).s1M = r.s1M ∧
      (r.set tf v).sALL = r.sALL := by
  simp only [timeframeKeys, List.mem_cons, List.mem_singleton, List.not_mem_nil, or_false,
    not_or] at h
  obtain ⟨h1, h2, h3, h4⟩ := h
  unfold PnLHistory.set
  simp only [if_neg h1, if_neg h2, if_neg h3, if_neg h4]
  split_ifs <;> exact ⟨rfl, rfl, rfl, rfl⟩

theorem set_of_key (r : PnLHistory) (tf : String) (v : List Point) (h : tf ∈ timeframeKeys) :
    (r.set tf v).extra = r.extra ∧ (r.set tf v).proto = r.proto := by
  simp only [timeframeKeys, List.mem_cons, List.mem_singleton, List.not_mem_nil, or_false] at h
  rcases h with rfl | rfl | rfl | rfl <;> exact ⟨rfl, rfl⟩

/-- The step of the scan on a timeframe entry: the series of its key is replaced. -/
theorem scanStep_entry (apk : List String) (s : ScanState) (q : Query) (tf : String)
    (data : List RawPoint) (h : acceptedEntry q = some (tf, data)) :
    tf ∈ timeframeKeys ∧
    scanStep apk s q =
      { result := s.result.set tf (data.map convertPoint)
        hasVariation := decide (uniqueCount data > 1) || s.hasVariation } := by
  rw [acceptedEntry_eq] at h
  rw [scanStep_eq]
  cases he : pnlEntry q with
  | none => rw [he] at h; cases h
  | some e =>
    obtain ⟨tf', data'⟩ := e
    rw [he] at h
    simp only at h ⊢
    by_cases hm : tf' ∈ timeframeKeys
    · rw [if_pos hm] at h
      simp only [Option.some.injEq, Prod.mk.injEq] at h
      obtain ⟨rfl, rfl⟩ := h
      exact ⟨hm, by rw [if_pos (isDefined_of_key apk _ _ hm)]⟩
    · rw [if_neg hm] at h; cases h

/-- The step of the scan on any other query leaves the four series as they are. -/
theorem scanStep_other (apk : List String) (s : ScanState) (q : Query)
    (h : acceptedEntry q = none) :
    (scanStep apk s q).result.s1D = s.result.s1D ∧ (scanStep apk s q).result.s1W = s.result.s1W ∧
      (scanStep apk s q).result.s1M = s.result.s1M ∧
      (scanStep apk s q).result.sALL = s.result.sALL := by
  rw [acceptedEntry_eq] at h
  rw [scanStep_eq]
  cases he : pnlEntry q with
  | none => exact ⟨rfl, rfl, rfl, rfl⟩
  | some e =>
    obtain ⟨tf, data⟩ := e
    rw [he] at h
    simp only at h ⊢
    have hm : tf ∉ timeframeKeys := by
      intro hm; rw [if_pos hm] at h; cases h
    split_ifs
    · exact set_of_not_key _ _ _ hm
    · exact ⟨rfl, rfl, rfl, rfl⟩

theorem set_series (r : PnLHistory) (tf : String) (v : List Point) :
    ∀ s ∈ (r.set tf v).series, s = v ∨ s ∈ r.series := by
  intro s hs
  unfold PnLHistory.set at hs
  simp only [PnLHistory.series, List.mem_cons, List.mem_singleton, List.not_mem_nil,
    or_false] at hs ⊢
  split_ifs at hs <;> tauto

theorem convert_nonDecreasing (data : List RawPoint) (h : (data.map RawPoint.t).Sorted (· ≤ ·)) :
    NonDecreasing (data.map convertPoint) := by
  unfold NonDecreasing
  rw [List.map_map]
  refine List.pairwise_map.mpr ((List.pairwise_map.mp h).imp ?_)
  intro a b hab
  simp only [Function.comp, convertPoint]
  omega

theorem scan_nonDecreasing (apk : List String) (qs : List Query) (s : ScanState)
    (hq : InTimeOrder qs) (hs : ∀ x ∈ s.result.series, NonDecreasing x) :
    ∀ x ∈ (qs.foldl (scanStep apk) s).result.series, NonDecreasing x := by
  induction qs generalizing s with
  | nil => simpa using hs
  | cons q qs ih =>
    rw [List.foldl_cons]
    apply ih
    · intro q' hq' data hd
      exact hq q' (List.mem_cons_of_mem _ hq') data hd
    · cases h : acceptedEntry q with
      | none =>
        obtain ⟨e1, e2, e3, e4⟩ := scanStep_other apk s q h
        intro x hx
        apply hs
        simpa [PnLHistory.series, e1, e2, e3, e4] using hx
      | some e =>
        obtain ⟨tf, data⟩ := e
        have hd : acceptedData q = some data := by rw [acceptedData_eq, h]; rfl
        rw [(scanStep_entry apk s q tf data h).2]
        intro x hx
        rcases set_series _ _ _ x hx with rfl | hx
        · exact convert_nonDecreasing data (hq q (List.mem_cons_self _ _) data hd)
        · exact hs x hx

theorem empty_nonDecreasing : ∀ x ∈ PnLHistory.empty.series, NonDecreasing x := by
  intro x hx
  simp only [PnLHistory.series, PnLHistory.empty, List.mem_cons, List.mem_singleton,
    List.not_mem_nil, or_false, or_self] at hx
  subst hx
  unfold NonDecreasing
  simp

theorem cacheHit_some (cache : Cache) (w : String) (clock : Int) (data : PnLHistory)
    (h : cacheHit cache w clock = some data) :
    ∃ entry, cache (cacheKey w) = some entry ∧ entry.data = data := by
  unfold cacheHit at h
  cases hc : cache (cacheKey w) with
  | none => rw [hc] at h; simp at h
  | some entry =>
    rw [hc] at h
    simp only at h
    split_ifs at h
    exact ⟨entry, rfl, by simpa using h⟩

/-- C2 (counterexample). A profile page whose `1D` payload lists its two points newest first is
returned as scraped, so the returned `1D` series has decreasing timestamps. -/
theorem scraped_series_not_nonDecreasing :
    ¬ (∀ s ∈ (fetchPnLHistory Cache.empty "0xabc" unorderedUpstream).1.series, NonDecreasing s) := by
  intro h
  have h1 := h [⟨2000, 10⟩, ⟨1000, 20⟩] (by decide)
  exact absurd h1 (by decide)

/-- C2 (amended). Every series built by the synthetic fallback has non-decreasing timestamps,
for every period PnLs, trade list and jitter. The scraped path keeps the upstream order, so
every series returned by `fetchPnLHistory` has non-decreasing timestamps provided every
payload of a timeframe entry lists its points in non-decreasing `t` order and the cache only holds
histories with non-decreasing series; the cache after the call again only holds such
histories. -/
theorem fetchPnLHistory_nonDecreasing (cache : Cache) (walletAddress : String) (up : Upstream)
    (hcache : CacheNonDecreasing cache)
    (horder : ∀ queries, up.queries = some queries → InTimeOrder queries) :
    (∀ s ∈ (fetchPnLHistoryFallback up.rnd up.periodPnLs up.trades up.now).series,
      NonDecreasing s) ∧
    (∀ s ∈ (fetchPnLHistory cache walletAddress up).1.series, NonDecreasing s) ∧
    CacheNonDecreasing (fetchPnLHistory cache walletAddress up).2 := by
  have hfb := fallback_nonDecreasing up.rnd up.periodPnLs up.trades up.now
  refine ⟨hfb, ?_⟩
  unfold fetchPnLHistory
  cases hh : cacheHit cache walletAddress up.clockCheck with
  | some data =>
    obtain ⟨entry, he, rfl⟩ := cacheHit_some cache walletAddress _ data hh
    exact ⟨hcache _ entry he, hcache⟩
  | none =>
    simp only
    unfold fetchPnLHistoryMiss
    cases hq : up.queries with
    | none => exact ⟨hfb, hcache⟩
    | some queries =>
      simp only
      have hscan : ∀ x ∈ (scanQueries up.arrayPrototypeKeys queries).result.series,
          NonDecreasing x :=
        scan_nonDecreasing _ queries _ (horder queries hq) empty_nonDecreasing
      split_ifs
      · exact ⟨hfb, hcache⟩
      · refine ⟨hscan, ?_⟩
        intro key entry hk
        simp only [Cache.set] at hk
        split_ifs at hk
        · simp only [Option.some.injEq] at hk
          subst hk
          exact hscan
        · exact hcache key entry hk

theorem fetchPnLHistory_nonDecreasing_witness :
    (CacheNonDecreasing Cache.empty ∧
      ∀ queries, flatUpstream.queries = some queries → InTimeOrder queries) ∧
    ∀ s ∈ (fetchPnLHistory Cache.empty "0xabc" flatUpstream).1.series, NonDecreasing s :=
  have h1 : CacheNonDecreasing Cache.empty := by
    intro key entry h
    simp [Cache.empty] at h
  have h2 : ∀ queries, flatUpstream.queries = some queries → InTimeOrder queries := by
    intro queries hq
    simp only [flatUpstream, Option.some.injEq] at hq
    subst hq
    intro q hq data hd
    simp only [flatQueries, List.mem_cons, List.mem_singleton, List.not_mem_nil, or_false] at hq
    have e : acceptedData q = some [⟨1, 500⟩, ⟨2, 500⟩] := by
      rcases hq with rfl | rfl | rfl | rfl <;> decide
    rw [e] at hd
    cases hd
    decide
  ⟨⟨h1, h2⟩, (fetchPnLHistory_nonDecreasing Cache.empty "0xabc" flatUpstream h1 h2).2.1⟩

theorem periodTrades_eq_nil (a b : Int) (trades : List Trade)
    (h : ∀ t ∈ trades, ¬ InWindow a b t) : periodTrades a b trades = [] := by
  unfold periodTrades
  rw [List.filter_eq_nil_iff]
  intro t ht
  have := h t ht
  unfold InWindow at this
  simpa using this

theorem evenPoint_eq (a b : Int) (x y : ℚ) (points i : Nat) :
    evenPoint a b x y points i =
      { timestamp := jsRound ((a : ℚ) + (i : ℚ) * ((b : ℚ) - (a : ℚ)) / ((points : ℚ) - 1))
        pnl := x + (y - x) * (i : ℚ) / ((points : ℚ) - 1) } := by
  unfold evenPoint
  simp only [Int.cast_sub, Point.mk.injEq]
  constructor
  · congr 1; ring
  · ring

theorem even_eq_linearSeries (a b : Int) (x y : ℚ) (points : Nat) :
    (List.range points).map (evenPoint a b x y points) = linearSeries a b x y points := by
  unfold linearSeries
  exact List.map_congr_left (fun i _ => evenPoint_eq a b x y points i)

theorem linearSeries_getElem? (a b : Int) (x y : ℚ) (points i : Nat) (hi : i < points) :
    (linearSeries a b x y points)[i]? = some
      { timestamp := jsRound ((a : ℚ) + (i : ℚ) * ((b : ℚ) - (a : ℚ)) / ((points : ℚ) - 1))
        pnl := x + (y - x) * (i : ℚ) / ((points : ℚ) - 1) } := by
  unfold linearSeries
  rw [List.getElem?_map, List.getElem?_range hi]
  rfl

theorem allStartTime_default (now : Int) (l : List Trade)
    (h : ∀ t ∈ l, ¬ InWindow (allStartTime now l) now t) :
    allStartTime now l = now - 180 * dayMs := by
  by_contra hne
  have hd := dayMs_pos
  cases hl : l with
  | nil => subst hl; simp [allStartTime] at hne
  | cons t ts =>
    subst hl
    have ht := h t (List.mem_cons_self _ _)
    unfold allStartTime at hne ht
    simp only [List.head?_cons] at hne ht
    split_ifs at hne ht with hc
    · apply ht
      unfold InWindow
      constructor
      · exact le_refl _
      · omega
    · exact hne rfl

/-- C4. In a window that contains no trade, for every `points ≥ 2`, `generateTimeline` returns
exactly `points` points, the `i`-th having timestamp
`round(startTime + i * (endTime - startTime) / (points - 1))` and
`pnl = startPnl + (endPnl - startPnl) * i / (points - 1)`. With period PnLs
`{all: 1000, month: 400, week: 100, day: 20}` and no trade in any window, the `1D` series is the
48-point line from 980 to 1000, `1W` the 84-point line from 900 to 1000, `1M` the 60-point line
from 600 to 1000 and `ALL` the 100-point line from 0 to 1000 over the last 180 days. -/
theorem even_interpolation (rnd : Nat → ℚ) (n : Nat) (startTime endTime : Int)
    (startPnl endPnl : ℚ) (points : Nat) (trades : List Trade)
    (rnd' : Nat → ℚ) (now : Int) (trades' : List Trade)
    (hno : ∀ t ∈ trades, ¬ InWindow startTime endTime t) (hpoints : 2 ≤ points)
    (hno' : ∀ t ∈ trades', ¬ InWindow (allStartTime now (sortTrades trades')) now t) :
    ((generateTimeline rnd n startTime endTime startPnl endPnl points trades).1.length = points ∧
      ∀ i, i < points →
        (generateTimeline rnd n startTime endTime startPnl endPnl points trades).1[i]? = some
          { timestamp := jsRound ((startTime : ℚ) +
              (i : ℚ) * ((endTime : ℚ) - (startTime : ℚ)) / ((points : ℚ) - 1))
            pnl := startPnl + (endPnl - startPnl) * (i : ℚ) / ((points : ℚ) - 1) }) ∧
    ((fetchPnLHistoryFallback rnd' ⟨1000, 400, 100, 20⟩ trades' now).s1D
        = linearSeries (now - dayMs) now 980 1000 48 ∧
      (fetchPnLHistoryFallback rnd' ⟨1000, 400, 100, 20⟩ trades' now).s1W
        = linearSeries (now - 7 * dayMs) now 900 1000 84 ∧
      (fetchPnLHistoryFallback rnd' ⟨1000, 400, 100, 20⟩ trades' now).s1M
        = linearSeries (now - 30 * dayMs) now 600 1000 60 ∧
      (fetchPnLHistoryFallback rnd' ⟨1000, 400, 100, 20⟩ trades' now).sALL
        = linearSeries (now - 180 * dayMs) now 0 1000 100) := by
  constructor
  · rw [generateTimeline_even rnd n startTime endTime startPnl endPnl points trades
      (Or.inl (periodTrades_eq_nil _ _ _ hno)), even_eq_linearSeries]
    refine ⟨by simp [linearSeries], fun i hi => linearSeries_getElem? _ _ _ _ _ _ hi⟩
  · have hsorted : ∀ t ∈ sortTrades trades',
        ¬ InWindow (allStartTime now (sortTrades trades')) now t :=
      fun t ht => hno' t ((mem_sortTrades trades' t).mp ht)
    have hall := allStartTime_default now (sortTrades trades') hsorted
    have hd := dayMs_pos
    have hwin : ∀ a, now - 180 * dayMs ≤ a → periodTrades a now (sortTrades trades') = [] := by
      intro a ha
      apply periodTrades_eq_nil
      intro t ht hin
      apply hsorted t ht
      unfold InWindow at hin ⊢
      rw [hall]
      exact ⟨by omega, hin.2⟩
    have hgen : ∀ n a x points, now - 180 * dayMs ≤ a →
        (generateTimeline rnd' n a now x 1000 points (sortTrades trades')).1
          = linearSeries a now x 1000 points := by
      intro n a x points ha
      rw [generateTimeline_even rnd' n a now x 1000 points _ (Or.inl (hwin a ha)),
        even_eq_linearSeries]
    unfold fetchPnLHistoryFallback
    simp only
    rw [hall]
    refine ⟨?_, ?_, ?_, ?_⟩
    · rw [hgen _ _ _ _ (by omega)]; norm_num
    · rw [hgen _ _ _ _ (by omega)]; norm_num
    · rw [hgen _ _ _ _ (by omega)]; norm_num
    · rw [hgen _ _ _ _ (by omega)]

theorem even_interpolation_witness :
    ((∀ t ∈ [(⟨some 500⟩ : Trade)], ¬ InWindow 0 100 t) ∧ 2 ≤ 4 ∧
      ∀ t ∈ ([] : List Trade), ¬ InWindow (allStartTime 0 (sortTrades [])) 0 t) ∧
    (fetchPnLHistoryFallback (fun _ => 0) ⟨1000, 400, 100, 20⟩ [] 0).s1D
        = linearSeries (0 - dayMs) 0 980 1000 48 :=
  ⟨⟨by decide, by decide, by simp⟩,
    (even_interpolation (fun _ => 0) 0 0 100 5 10 4 [⟨some 500⟩] (fun _ => 0) 0 []
      (by decide) (by decide) (by simp)).2.1⟩

theorem generateTimeline_head (rnd : Nat → ℚ) (n : Nat) (a b : Int) (x y : ℚ) (points : Nat)
    (trades : List Trade) (hp : 1 ≤ points) :
    (generateTimeline rnd n a b x y points trades).1.head? = some ⟨a, x⟩ := by
  by_cases hc : periodTrades a b trades = [] ∨ points ≤ 2
  · rw [generateTimeline_even rnd n a b x y points trades hc]
    obtain ⟨m, rfl⟩ : ∃ m, points = m + 1 := ⟨points - 1, by omega⟩
    rw [List.range_succ_eq_map]
    simp only [List.map_cons, List.head?_cons, Option.some.injEq]
    rw [evenPoint_eq]
    simp only [Nat.cast_zero, zero_mul, zero_div, add_zero, mul_zero, Point.mk.injEq, and_true]
    exact jsRound_intCast a
  · push_neg at hc
    rw [generateTimeline_trades rnd n a b x y points trades hc.1 hc.2]
    simp only
    split
    · rfl
    · cases hpt : periodTrades a b trades with
      | nil => exact absurd hpt hc.1
      | cons t ts =>
        unfold pinLast
        simp only [tradePoints]
        rw [List.getLast?_cons_cons]
        rw [List.getLast?_eq_getLast _ (List.cons_ne_nil _ _)]
        simp

/-- C5. For every period PnLs and every trade list, the first point of the synthetic `1D`,
`1W` and `1M` series has timestamp `now - 1d`, `now - 7d` and `now - 30d` and `pnl` equal to
`all - day`, `all - week` and `all - month` respectively, whichever branch of
`generateTimeline` is taken. -/
theorem window_start_points (rnd : Nat → ℚ) (periodPnLs : PeriodPnLs) (trades : List Trade)
    (now : Int) :
    (fetchPnLHistoryFallback rnd periodPnLs trades now).s1D.head?
        = some ⟨now - 24 * 60 * 60 * 1000, periodPnLs.all - periodPnLs.day⟩ ∧
    (fetchPnLHistoryFallback rnd periodPnLs trades now).s1W.head?
        = some ⟨now - 7 * 24 * 60 * 60 * 1000, periodPnLs.all - periodPnLs.week⟩ ∧
    (fetchPnLHistoryFallback rnd periodPnLs trades now).s1M.head?
        = some ⟨now - 30 * 24 * 60 * 60 * 1000, periodPnLs.all - periodPnLs.month⟩ := by
  obtain ⟨h1, h2, h3, -⟩ := fallback_series rnd periodPnLs trades now
    (fun a x _ s => s.head? = some ⟨a, x⟩)
    (fun n a x points _ hp => generateTimeline_head rnd n a now x periodPnLs.all points _
      (by omega))
  simp only [dayMs] at h1 h2 h3
  refine ⟨h1, ?_, ?_⟩
  · rw [h2]; congr 2
  · rw [h3]; congr 2

theorem tradePoints_concat (rnd : Nat → ℚ) (a b : Int) (x y : ℚ) (k : Nat) (l : List Trade)
    (t : Trade) :
    tradePoints rnd a b x y k (l ++ [t])
      = tradePoints rnd a b x y k l ++ [tradePoint rnd a b x y (k + l.length) t] := by
  induction l generalizing k with
  | nil => simp [tradePoints]
  | cons u us ih =>
    have e := ih (k + 1)
    rw [show k + 1 + us.length = k + (us.length + 1) by omega] at e
    show tradePoint rnd a b x y k u :: tradePoints rnd a b x y (k + 1) (us ++ [t]) = _
    rw [e]
    rfl

theorem pinLast_concat (l : List Point) (p : Point) (v : ℚ) :
    pinLast (l ++ [p]) v = l ++ [⟨p.timestamp, v⟩] := by
  unfold pinLast
  rw [List.getLast?_concat]
  simp [List.dropLast_concat]

/-- C6. For every `points ≥ 3` and every window containing `k ≥ 1` trades, `generateTimeline`
returns the window-start point `(startTime, startPnl)`, then one point per in-window trade at
the trade's own time `ts * 1000` in input order, then the end: when the last in-window trade
is more than 60 seconds before `endTime` the point `(endTime, endPnl)` is appended (`k + 2`
points), otherwise the last trade point's `pnl` is overwritten with `endPnl` and nothing is
appended (`k + 1` points, the last timestamp staying the trade's). -/
theorem trade_branch_shape (rnd : Nat → ℚ) (n : Nat) (startTime endTime : Int)
    (startPnl endPnl : ℚ) (points : Nat) (trades : List Trade)
    (hpoints : 3 ≤ points) (hk : 1 ≤ (periodTrades startTime endTime trades).length) :
    ∃ earlier last, periodTrades startTime endTime trades = earlier ++ [last] ∧
      (generateTimeline rnd n startTime endTime startPnl endPnl points trades).1.head?
        = some ⟨startTime, startPnl⟩ ∧
      (endTime - tradeMs last > 60000 →
        (generateTimeline rnd n startTime endTime startPnl endPnl points trades).1
          = (⟨startTime, startPnl⟩ ::
              tradePoints rnd startTime endTime startPnl endPnl n
                (periodTrades startTime endTime trades)) ++ [⟨endTime, endPnl⟩] ∧
        (generateTimeline rnd n startTime endTime startPnl endPnl points trades).1.map
            Point.timestamp
          = (startTime :: (periodTrades startTime endTime trades).map tradeMs) ++ [endTime] ∧
        (generateTimeline rnd n startTime endTime startPnl endPnl points trades).1.length
          = (periodTrades startTime endTime trades).length + 2) ∧
      (¬ endTime - tradeMs last > 60000 →
        (generateTimeline rnd n startTime endTime startPnl endPnl points trades).1
          = (⟨startTime, startPnl⟩ ::
              tradePoints rnd startTime endTime startPnl endPnl n earlier)
            ++ [⟨tradeMs last, endPnl⟩] ∧
        (generateTimeline rnd n startTime endTime startPnl endPnl points trades).1.map
            Point.timestamp
          = startTime :: (periodTrades startTime endTime trades).map tradeMs ∧
        (generateTimeline rnd n startTime endTime startPnl endPnl points trades).1.length
          = (periodTrades startTime endTime trades).length + 1) := by
  have hne : periodTrades startTime endTime trades ≠ [] := by
    intro h0
    rw [h0] at hk
    simp at hk
  rcases List.eq_nil_or_concat (periodTrades startTime endTime trades) with h0 | ⟨earlier, last, hpt⟩
  · exact absurd h0 hne
  rw [List.concat_eq_append] at hpt
  refine ⟨earlier, last, hpt, generateTimeline_head rnd n _ _ _ _ _ _ (by omega), ?_, ?_⟩
  · intro hgap
    have hlt : (((periodTrades startTime endTime trades).map tradeMs).getLast?).getD startTime
        < endTime - 60000 := by
      rw [hpt, List.map_append, List.map_singleton, List.getLast?_concat]
      simp only [Option.getD_some]
      omega
    rw [generateTimeline_trades rnd n _ _ _ _ _ _ hne (by omega)]
    simp only [if_pos hlt]
    refine ⟨trivial, ?_, ?_⟩
    · simp [tradePoints_timestamps]
    · simp [tradePoints_length]
  · intro hgap
    have hlt : ¬ (((periodTrades startTime endTime trades).map tradeMs).getLast?).getD startTime
        < endTime - 60000 := by
      rw [hpt, List.map_append, List.map_singleton, List.getLast?_concat]
      simp only [Option.getD_some]
      omega
    rw [generateTimeline_trades rnd n _ _ _ _ _ _ hne (by omega)]
    simp only [if_neg hlt]
    have e : pinLast (⟨startTime, startPnl⟩ :: tradePoints rnd startTime endTime startPnl endPnl n
          (periodTrades startTime endTime trades)) endPnl
        = (⟨startTime, startPnl⟩ :: tradePoints rnd startTime endTime startPnl endPnl n earlier)
          ++ [⟨tradeMs last, endPnl⟩] := by
      rw [hpt, tradePoints_concat, ← List.cons_append, pinLast_concat]
      rfl
    refine ⟨e, ?_, ?_⟩
    · rw [pinLast_timestamps]; simp [tradePoints_timestamps]
    · rw [e, hpt]; simp [tradePoints_length]

theorem trade_branch_shape_witness :
    (3 ≤ 4 ∧ 1 ≤ (periodTrades 0 100000 [⟨some 3⟩, ⟨some 50⟩, ⟨some 500⟩]).length) ∧
    ∃ earlier last, periodTrades 0 100000 [⟨some 3⟩, ⟨some 50⟩, ⟨some 500⟩] = earlier ++ [last] ∧
      (generateTimeline (fun _ => 0) 0 0 100000 5 10 4
          [⟨some 3⟩, ⟨some 50⟩, ⟨some 500⟩]).1.head? = some ⟨0, 5⟩ :=
  ⟨⟨by decide, by decide⟩,
    (trade_branch_shape (fun _ => 0) 0 0 100000 5 10 4 [⟨some 3⟩, ⟨some 50⟩, ⟨some 500⟩]
      (by decide) (by decide)).imp fun _ h => h.imp fun _ h => ⟨h.1, h.2.1⟩⟩

theorem dedup_length_le_of_subset {l₁ l₂ : List ℚ} (h : l₁ ⊆ l₂) :
    l₁.dedup.length ≤ l₂.dedup.length := by
  apply List.Subperm.length_le
  apply List.subperm_of_subset (List.nodup_dedup l₁)
  intro x hx
  exact List.mem_dedup.mpr (h (List.mem_dedup.mp hx))

theorem accepted_subset_union (queries : List Query) (q : Query) (data : List RawPoint)
    (hq : q ∈ queries) (hd : acceptedData q = some data) :
    data.map RawPoint.p ⊆ unionValues queries := by
  intro x hx
  obtain ⟨pt, hpt, rfl⟩ := List.mem_map.mp hx
  unfold unionValues
  refine List.mem_map.mpr ⟨pt, ?_, rfl⟩
  rw [List.mem_flatten]
  exact ⟨data, List.mem_filterMap.mpr ⟨q, hq, hd⟩, hpt⟩

theorem entryVaries_eq (q : Query) :
    entryVaries q =
      match acceptedEntry q with
      | some e => decide (uniqueCount e.2 > 1)
      | none => false := by
  unfold entryVaries
  rw [acceptedData_eq]
  cases acceptedEntry q <;> rfl

theorem isDefined_plain (apk : List String) (r : PnLHistory) (tf : String)
    (he : r.extra = []) (hp : r.proto = none) (hi : tf ∉ objectPrototypeKeys) :
    r.isDefined apk tf = decide (tf ∈ timeframeKeys) := by
  simp [PnLHistory.isDefined, PnLHistory.hasOwn, he, hp, hi]

/-- While no entry is keyed by an inherited property name the result object keeps its four own
properties and its prototype, and the flag records whether a timeframe entry varies. -/
theorem scan_plain (apk : List String) (qs : List Query) (s : ScanState)
    (hk : noInheritedKey qs = true) (he : s.result.extra = []) (hp : s.result.proto = none) :
    (qs.foldl (scanStep apk) s).result.extra = [] ∧
    (qs.foldl (scanStep apk) s).result.proto = none ∧
    (qs.foldl (scanStep apk) s).hasVariation = (s.hasVariation || qs.any entryVaries) := by
  induction qs generalizing s with
  | nil => simp [he, hp]
  | cons q qs ih =>
    unfold noInheritedKey at hk
    rw [List.all_cons, Bool.and_eq_true] at hk
    obtain ⟨hq, hrest⟩ := hk
    rw [List.foldl_cons, List.any_cons]
    have hstep : (scanStep apk s q).result.extra = [] ∧ (scanStep apk s q).result.proto = none ∧
        (scanStep apk s q).hasVariation = (s.hasVariation || entryVaries q) := by
      rw [entryVaries_eq, acceptedEntry_eq, scanStep_eq]
      cases hent : pnlEntry q with
      | none => simp [he, hp]
      | some e =>
        obtain ⟨tf, data⟩ := e
        rw [hent] at hq
        simp only [Bool.not_eq_true', decide_eq_false_iff_not] at hq
        simp only
        rw [isDefined_plain apk s.result tf he hp hq]
        by_cases hm : tf ∈ timeframeKeys
        · obtain ⟨e1, e2⟩ := set_of_key s.result tf (data.map convertPoint) hm
          simp only [hm, decide_True, if_true, e1, e2, he, hp, true_and]
          rw [Bool.or_comm]
        · simp [hm, he, hp]
    obtain ⟨h1, h2, h3⟩ := ih (scanStep apk s q) (by simpa [noInheritedKey] using hrest)
      hstep.1 hstep.2.1
    refine ⟨h1, h2, ?_⟩
    rw [h3, hstep.2.2, Bool.or_assoc]

theorem scanQueries_hasVariation (apk : List String) (qs : List Query)
    (hk : noInheritedKey qs = true) :
    (scanQueries apk qs).hasVariation = qs.any entryVaries := by
  unfold scanQueries
  rw [(scan_plain apk qs _ hk rfl rfl).2.2]
  simp

/-- A scan over entries none of which carries two distinct values leaves the flag as it is. -/
theorem scan_flat (apk : List String) (qs : List Query) (s : ScanState)
    (h : ∀ q ∈ qs, ∀ tf data, pnlEntry q = some (tf, data) → uniqueCount data ≤ 1) :
    (qs.foldl (scanStep apk) s).hasVariation = s.hasVariation := by
  induction qs generalizing s with
  | nil => rfl
  | cons q qs ih =>
    rw [List.foldl_cons, ih _ (fun q' hq' => h q' (List.mem_cons_of_mem _ hq'))]
    rw [scanStep_eq]
    cases hent : pnlEntry q with
    | none => rfl
    | some e =>
      obtain ⟨tf, data⟩ := e
      have hu := h q (List.mem_cons_self _ _) tf data hent
      simp only
      split_ifs
      · have : ¬ uniqueCount data > 1 := by omega
        simp [this]
      · rfl

theorem fetchPnLHistory_miss_flag (cache : Cache) (w : String) (up : Upstream)
    (queries : List Query)
    (hq : up.queries = some queries) (hmiss : cacheHit cache w up.clockCheck = none) :
    fetchPnLHistory cache w up =
      if (scanQueries up.arrayPrototypeKeys queries).hasVariation then
        ((scanQueries up.arrayPrototypeKeys queries).result,
          cache.set (cacheKey w)
            ⟨(scanQueries up.arrayPrototypeKeys queries).result, up.clockStore⟩)
      else (fetchPnLHistoryFallback up.rnd up.periodPnLs up.trades up.now, cache) := by
  unfold fetchPnLHistory
  rw [hmiss]
  simp only
  unfold fetchPnLHistoryMiss
  rw [hq]
  cases h : (scanQueries up.arrayPrototypeKeys queries).hasVariation <;> simp [h]

theorem fetchPnLHistory_miss (cache : Cache) (w : String) (up : Upstream) (queries : List Query)
    (hq : up.queries = some queries) (hmiss : cacheHit cache w up.clockCheck = none)
    (hk : noInheritedKey queries = true) :
    fetchPnLHistory cache w up =
      if queries.any entryVaries then
        ((scanQueries up.arrayPrototypeKeys queries).result,
          cache.set (cacheKey w)
            ⟨(scanQueries up.arrayPrototypeKeys queries).result, up.clockStore⟩)
      else (fetchPnLHistoryFallback up.rnd up.periodPnLs up.trades up.now, cache) := by
  rw [fetchPnLHistory_miss_flag cache w up queries hq hmiss,
    scanQueries_hasVariation _ queries hk]

theorem uniqueCount_le_one_of_flat (data : List RawPoint) (v : ℚ)
    (h : ∀ pt ∈ data, pt.p = v) : uniqueCount data ≤ 1 := by
  unfold uniqueCount
  have hsub : data.map RawPoint.p ⊆ [v] := by
    intro x hx
    obtain ⟨pt, hpt, rfl⟩ := List.mem_map.mp hx
    simp [h pt hpt]
  have := dedup_length_le_of_subset hsub
  simpa using this

theorem entryVaries_false_of_flat (q : Query) (v : ℚ)
    (h : ∀ data, acceptedData q = some data → ∀ pt ∈ data, pt.p = v) :
    entryVaries q = false := by
  unfold entryVaries
  cases hd : acceptedData q with
  | none => rfl
  | some data =>
    simp only [decide_eq_false_iff_not, not_lt, gt_iff_lt]
    unfold uniqueCount
    have hsub : data.map RawPoint.p ⊆ [v] := by
      intro x hx
      obtain ⟨pt, hpt, rfl⟩ := List.mem_map.mp hx
      simp [h data hd pt hpt]
    have := dedup_length_le_of_subset hsub
    simpa using this

theorem fallback_1D_head (rnd : Nat → ℚ) (pp : PeriodPnLs) (trades : List Trade) (now : Int) :
    (fetchPnLHistoryFallback rnd pp trades now).s1D.head? = some ⟨now - dayMs, pp.all - pp.day⟩ :=
  (fallback_series rnd pp trades now (fun a x _ s => s.head? = some ⟨a, x⟩)
    (fun n a x points _ hp => generateTimeline_head rnd n a now x pp.all points _ (by omega))).1

/-- C7 (counterexample). With a `1D` payload constant at 500 and a `1W` payload constant at
600, the union of `p` values has two distinct values, yet `fetchPnLHistory` returns the
synthetic fallback, which differs from the scraped result, and caches nothing. -/
theorem stepped_scrape_falls_through :
    2 ≤ (unionValues steppedQueries).dedup.length ∧
    cacheHit Cache.empty "0xabc" steppedUpstream.clockCheck = none ∧
    fetchPnLHistory Cache.empty "0xabc" steppedUpstream
      = (fetchPnLHistoryFallback steppedUpstream.rnd steppedUpstream.periodPnLs
          steppedUpstream.trades steppedUpstream.now, Cache.empty) ∧
    (fetchPnLHistory Cache.empty "0xabc" steppedUpstream).1
      ≠ (scanQueries steppedUpstream.arrayPrototypeKeys steppedQueries).result ∧
    (fetchPnLHistory Cache.empty "0xabc" steppedUpstream).2 (cacheKey "0xabc") = none := by
  have hfetch : fetchPnLHistory Cache.empty "0xabc" steppedUpstream
      = (fetchPnLHistoryFallback steppedUpstream.rnd steppedUpstream.periodPnLs
          steppedUpstream.trades steppedUpstream.now, Cache.empty) := by
    rw [fetchPnLHistory_miss Cache.empty "0xabc" steppedUpstream steppedQueries rfl rfl
      (by decide)]
    have : steppedQueries.any entryVaries = false := by decide
    rw [this]
    rfl
  refine ⟨by decide, rfl, hfetch, ?_, ?_⟩
  · rw [hfetch]
    intro h
    have h1 := fallback_1D_head steppedUpstream.rnd steppedUpstream.periodPnLs
      steppedUpstream.trades steppedUpstream.now
    simp only at h
    rw [h] at h1
    revert h1
    decide
  · rw [hfetch]
    rfl

/-- C7 (amended). On a cache miss with a parsed profile blob none of whose `portfolio-pnl`
entries with data is keyed by the name of a property inherited from `Object.prototype`,
`fetchPnLHistory` falls through to the synthetic path exactly when no timeframe entry (`1D`,
`1W`, `1M`, `ALL`) has, within itself, at least two distinct `p` values; when some timeframe
entry has, the scraped result is returned and cached. A union of `p` values with fewer than two
distinct values always falls through; timeframes that are each constant but differ from one
another fall through as well. -/
theorem fallthrough_iff_no_entry_varies (cache : Cache) (walletAddress : String)
    (up : Upstream) (queries : List Query)
    (hq : up.queries = some queries)
    (hmiss : cacheHit cache walletAddress up.clockCheck = none)
    (hkeys : noInheritedKey queries = true) :
    (queries.any entryVaries = false →
      fetchPnLHistory cache walletAddress up
        = (fetchPnLHistoryFallback up.rnd up.periodPnLs up.trades up.now, cache)) ∧
    (queries.any entryVaries = true →
      fetchPnLHistory cache walletAddress up
        = ((scanQueries up.arrayPrototypeKeys queries).result,
            cache.set (cacheKey walletAddress)
              { data := (scanQueries up.arrayPrototypeKeys queries).result,
                timestamp := up.clockStore })) ∧
    ((unionValues queries).dedup.length < 2 → queries.any entryVaries = false) := by
  have h := fetchPnLHistory_miss cache walletAddress up queries hq hmiss hkeys
  refine ⟨?_, ?_, ?_⟩
  · intro hv; rw [h, hv]; rfl
  · intro hv; rw [h, hv]; rfl
  · intro hu
    rw [List.any_eq_false]
    intro q hqm hvar
    unfold entryVaries at hvar
    cases hd : acceptedData q with
    | none => rw [hd] at hvar; simp at hvar
    | some data =>
      rw [hd] at hvar
      simp only [decide_eq_true_eq] at hvar
      have := dedup_length_le_of_subset (accepted_subset_union queries q data hqm hd)
      unfold uniqueCount at hvar
      omega

theorem fallthrough_iff_no_entry_varies_witness :
    (steppedUpstream.queries = some steppedQueries ∧
      cacheHit Cache.empty "0xabc" steppedUpstream.clockCheck = none ∧
      noInheritedKey steppedQueries = true) ∧
    (steppedQueries.any entryVaries = false →
      fetchPnLHistory Cache.empty "0xabc" steppedUpstream
        = (fetchPnLHistoryFallback steppedUpstream.rnd steppedUpstream.periodPnLs
            steppedUpstream.trades steppedUpstream.now, Cache.empty)) :=
  ⟨⟨rfl, rfl, by decide⟩,
    (fallthrough_iff_no_entry_varies Cache.empty "0xabc" steppedUpstream steppedQueries
      rfl rfl (by decide)).1⟩

/-- On a cache miss with a parsed profile blob in which every point of every `portfolio-pnl`
entry with data carries one and the same `p` value, or in which no `portfolio-pnl` entry has
data, `fetchPnLHistory` returns the result of the synthetic fallback and leaves the cache
unchanged. When no entry is keyed by the name of a property inherited from `Object.prototype`,
it is enough that the entries of the four timeframes carry one and the same value, or that
none of the four timeframes has data. -/
theorem flat_scrape_falls_back (cache : Cache) (walletAddress : String) (up : Upstream)
    (queries : List Query)
    (hq : up.queries = some queries)
    (hmiss : cacheHit cache walletAddress up.clockCheck = none)
    (hflat : (∃ v : ℚ, ∀ q ∈ queries, ∀ tf data, pnlEntry q = some (tf, data) →
          ∀ pt ∈ data, pt.p = v) ∨
        (∀ q ∈ queries, pnlEntry q = none) ∨
        (noInheritedKey queries = true ∧
          ((∃ v : ℚ, ∀ q ∈ queries, ∀ data, acceptedData q = some data →
              ∀ pt ∈ data, pt.p = v) ∨
            (∀ q ∈ queries, acceptedData q = none)))) :
    fetchPnLHistory cache walletAddress up
      = (fetchPnLHistoryFallback up.rnd up.periodPnLs up.trades up.now, cache) := by
  have hflag : (scanQueries up.arrayPrototypeKeys queries).hasVariation = false := by
    rcases hflat with ⟨v, hv⟩ | hnone | ⟨hkeys, hnamed⟩
    · unfold scanQueries
      rw [scan_flat]
      intro q hqm tf data hent
      exact uniqueCount_le_one_of_flat data v (hv q hqm tf data hent)
    · unfold scanQueries
      rw [scan_flat]
      intro q hqm tf data hent
      rw [hnone q hqm] at hent
      cases hent
    · rw [scanQueries_hasVariation _ queries hkeys, List.any_eq_false]
      intro q hqm
      rcases hnamed with ⟨v, hv⟩ | hnone
      · rw [entryVaries_false_of_flat q v (hv q hqm)]; simp
      · simp [entryVaries, hnone q hqm]
  rw [fetchPnLHistory_miss_flag cache walletAddress up queries hq hmiss, hflag]
  rfl

/-- C8 (code bug). In the blob `flatKeyedQueries` every point of every one of the four
timeframes carries `p = 500`, and its only other `portfolio-pnl` entry is keyed `constructor`.
The scrape is not treated as degenerate: the entry keyed `constructor` is accepted and sets
`hasVariation`, so `fetchPnLHistory` returns and caches the scraped object with its four flat
series instead of the result of the synthetic fallback. Without that entry the same four
timeframes do fall back. -/
theorem flat_timeframes_returned_with_inherited_key :
    (∀ q ∈ flatKeyedQueries, ∀ data, acceptedData q = some data → ∀ pt ∈ data, pt.p = 500) ∧
    cacheHit Cache.empty "0xabc" flatKeyedUpstream.clockCheck = none ∧
    (fetchPnLHistory Cache.empty "0xabc" flatKeyedUpstream).1 = flatKeyedResult ∧
    (fetchPnLHistory Cache.empty "0xabc" flatKeyedUpstream).2 (cacheKey "0xabc")
      = some { data := flatKeyedResult, timestamp := 0 } ∧
    (fetchPnLHistory Cache.empty "0xabc" flatKeyedUpstream).1
      ≠ fetchPnLHistoryFallback flatKeyedUpstream.rnd flatKeyedUpstream.periodPnLs
          flatKeyedUpstream.trades flatKeyedUpstream.now ∧
    fetchPnLHistory Cache.empty "0xabc" flatUpstream
      = (fetchPnLHistoryFallback flatUpstream.rnd flatUpstream.periodPnLs flatUpstream.trades
          flatUpstream.now, Cache.empty) := by
  have hres : (fetchPnLHistory Cache.empty "0xabc" flatKeyedUpstream).1 = flatKeyedResult := by
    decide
  refine ⟨?_, rfl, hres, by decide, ?_, ?_⟩
  · intro q hq data hd
    have e : acceptedData q = some [⟨1, 500⟩, ⟨2, 500⟩] ∨ acceptedData q = none := by
      simp only [flatKeyedQueries, flatQueries, constructorQueries, List.cons_append,
        List.nil_append, List.mem_cons, List.mem_singleton, List.not_mem_nil, or_false] at hq
      rcases hq with rfl | rfl | rfl | rfl | rfl <;> decide
    rcases e with e | e
    · rw [e] at hd
      cases hd
      decide
    · rw [e] at hd
      cases hd
  · rw [hres]
    intro h
    have h1 := fallback_1D_head flatKeyedUpstream.rnd flatKeyedUpstream.periodPnLs
      flatKeyedUpstream.trades flatKeyedUpstream.now
    rw [← h] at h1
    revert h1
    decide
  · rw [fetchPnLHistory_miss_flag Cache.empty "0xabc" flatUpstream flatQueries rfl rfl]
    have : (scanQueries flatUpstream.arrayPrototypeKeys flatQueries).hasVariation = false := by
      decide
    rw [this]
    rfl

end PnlHistory

namespace Traders

theorem mem_keys (k : Strategy) : k ∈ Strategy.keys := by
  cases k <;> decide

theorem foldr_max_ge (g : Strategy → Nat) (ks : List Strategy) :
    ∀ k ∈ ks, g k ≤ (ks.map g).foldr Nat.max 0 := by
  induction ks with
  | nil => intro k hk; cases hk
  | cons a ks ih =>
    intro k hk
    simp only [List.map_cons, List.foldr_cons]
    rcases List.mem_cons.mp hk with rfl | hk
    · exact Nat.le_max_left _ _
    · exact le_trans (ih k hk) (Nat.le_max_right _ _)

theorem foldr_max_attained (g : Strategy → Nat) (ks : List Strategy) :
    (ks.map g).foldr Nat.max 0 = 0 ∨ ∃ k ∈ ks, g k = (ks.map g).foldr Nat.max 0 := by
  induction ks with
  | nil => left; rfl
  | cons a ks ih =>
    simp only [List.map_cons, List.foldr_cons]
    rcases Nat.le_total (g a) ((ks.map g).foldr Nat.max 0) with h | h
    · have e : Nat.max (g a) ((ks.map g).foldr Nat.max 0) = (ks.map g).foldr Nat.max 0 :=
        Nat.max_eq_right h
      rw [e]
      rcases ih with h0 | ⟨k, hk, hg⟩
      · left; exact h0
      · right; exact ⟨k, List.mem_cons_of_mem _ hk, hg⟩
    · have e : Nat.max (g a) ((ks.map g).foldr Nat.max 0) = g a := Nat.max_eq_left h
      rw [e]
      right
      exact ⟨a, List.mem_cons_self _ _, rfl⟩

theorem primary_fold (g : Strategy → Nat) (ks : List Strategy) (st : PrimaryState) :
    st.maxScore ≤ ((ks.map (fun k => (k, g k))).foldl primaryStep st).maxScore ∧
    (∀ k ∈ ks, g k ≤ ((ks.map (fun k => (k, g k))).foldl primaryStep st).maxScore) ∧
    ((ks.map (fun k => (k, g k))).foldl primaryStep st = st ∨
      (((ks.map (fun k => (k, g k))).foldl primaryStep st).primaryStrategy ∈ ks ∧
        g ((ks.map (fun k => (k, g k))).foldl primaryStep st).primaryStrategy
          = ((ks.map (fun k => (k, g k))).foldl primaryStep st).maxScore ∧
        st.maxScore < ((ks.map (fun k => (k, g k))).foldl primaryStep st).maxScore ∧
        ∀ k ∈ ks, g k = ((ks.map (fun k => (k, g k))).foldl primaryStep st).maxScore →
          ks.indexOf ((ks.map (fun k => (k, g k))).foldl primaryStep st).primaryStrategy
            ≤ ks.indexOf k)) := by
  induction ks generalizing st with
  | nil => simp
  | cons a ks ih =>
    simp only [List.map_cons, List.foldl_cons]
    obtain ⟨h1, h2, h3⟩ := ih (primaryStep st (a, g a))
    generalize (ks.map (fun k => (k, g k))).foldl primaryStep (primaryStep st (a, g a)) = r
      at h1 h2 h3
    have hst : st.maxScore ≤ (primaryStep st (a, g a)).maxScore ∧
        g a ≤ (primaryStep st (a, g a)).maxScore := by
      unfold primaryStep
      split_ifs with hc
      · exact ⟨by show st.maxScore ≤ g a; omega, le_refl _⟩
      · exact ⟨le_refl _, by omega⟩
    refine ⟨by omega, ?_, ?_⟩
    · intro k hk
      rcases List.mem_cons.mp hk with rfl | hk
      · omega
      · exact h2 k hk
    · rcases h3 with h3 | ⟨m1, m2, m3, m4⟩
      · by_cases hc : g a > st.maxScore
        · right
          have e : r = ⟨g a, a⟩ := by rw [h3]; unfold primaryStep; simp [hc]
          subst e
          refine ⟨List.mem_cons_self _ _, rfl, hc, ?_⟩
          intro k _ _
          rw [List.indexOf_cons_self]
          exact Nat.zero_le _
        · left
          rw [h3]; unfold primaryStep; simp [hc]
      · right
        have hne : ∀ k, g k = r.maxScore → a ≠ k := by
          intro k hk hak
          subst hak
          omega
        refine ⟨List.mem_cons_of_mem _ m1, m2, by omega, ?_⟩
        intro k hk hg
        have hka : k ∈ ks := by
          rcases List.mem_cons.mp hk with rfl | hk
          · exact absurd rfl (hne _ hg)
          · exact hk
        rw [List.indexOf_cons_ne _ (hne _ m2), List.indexOf_cons_ne _ (hne _ hg)]
        exact Nat.succ_le_succ (m4 k hka hg)

theorem secondary_fold (g : Strategy → Nat) (p : Strategy) (ks : List Strategy)
    (st : SecondaryState) :
    st.secondMaxScore ≤ ((ks.map (fun k => (k, g k))).foldl (secondaryStep p) st).secondMaxScore ∧
    (∀ k ∈ ks, k ≠ p → 20 ≤ g k →
      g k ≤ ((ks.map (fun k => (k, g k))).foldl (secondaryStep p) st).secondMaxScore) ∧
    ((ks.map (fun k => (k, g k))).foldl (secondaryStep p) st = st ∨
      ∃ s, ((ks.map (fun k => (k, g k))).foldl (secondaryStep p) st).secondaryStrategy = some s ∧
        s ∈ ks ∧ s ≠ p ∧ 20 ≤ g s ∧
        g s = ((ks.map (fun k => (k, g k))).foldl (secondaryStep p) st).secondMaxScore ∧
        st.secondMaxScore < g s ∧
        ∀ k ∈ ks, k ≠ p → g k = g s → ks.indexOf s ≤ ks.indexOf k) := by
  induction ks generalizing st with
  | nil => simp
  | cons a ks ih =>
    simp only [List.map_cons, List.foldl_cons]
    obtain ⟨h1, h2, h3⟩ := ih (secondaryStep p st (a, g a))
    generalize (ks.map (fun k => (k, g k))).foldl (secondaryStep p) (secondaryStep p st (a, g a))
      = r at h1 h2 h3
    by_cases hc : a ≠ p ∧ g a > st.secondMaxScore ∧ g a ≥ 20
    · have e : secondaryStep p st (a, g a) = ⟨some a, g a⟩ := by
        unfold secondaryStep; rw [if_pos hc]
      rw [e] at h1 h3
      simp only at h1
      refine ⟨by omega, ?_, ?_⟩
      · intro k hk hkp hk20
        rcases List.mem_cons.mp hk with rfl | hk
        · exact h1
        · exact h2 k hk hkp hk20
      · right
        rcases h3 with h3 | ⟨s, m1, m2, m3, m4, m5, m6, m7⟩
        · subst h3
          refine ⟨a, rfl, List.mem_cons_self _ _, hc.1, hc.2.2, rfl, hc.2.1, ?_⟩
          intro k _ _ _
          rw [List.indexOf_cons_self]
          exact Nat.zero_le _
        · simp only at m6
          have hne : ∀ k, g k = g s → a ≠ k := by
            intro k hk hak
            subst hak
            omega
          refine ⟨s, m1, List.mem_cons_of_mem _ m2, m3, m4, m5, by omega, ?_⟩
          intro k hk hkp hg
          have hka : k ∈ ks := by
            rcases List.mem_cons.mp hk with rfl | hk
            · exact absurd rfl (hne _ hg)
            · exact hk
          rw [List.indexOf_cons_ne _ (hne _ rfl), List.indexOf_cons_ne _ (hne _ hg)]
          exact Nat.succ_le_succ (m7 k hka hkp hg)
    · have e : secondaryStep p st (a, g a) = st := by
        unfold secondaryStep; rw [if_neg hc]
      rw [e] at h1 h3
      refine ⟨h1, ?_, ?_⟩
      · intro k hk hkp hk20
        rcases List.mem_cons.mp hk with rfl | hk
        · have : ¬ g k > st.secondMaxScore := fun h => hc ⟨hkp, h, hk20⟩
          omega
        · exact h2 k hk hkp hk20
      · rcases h3 with h3 | ⟨s, m1, m2, m3, m4, m5, m6, m7⟩
        · left; exact h3
        · right
          have hne : ∀ k, k ≠ p → g k = g s → a ≠ k := by
            intro k hkp hk hak
            subst hak
            exact hc ⟨hkp, by omega, by omega⟩
          refine ⟨s, m1, List.mem_cons_of_mem _ m2, m3, m4, m5, m6, ?_⟩
          intro k hk hkp hg
          have hka : k ∈ ks := by
            rcases List.mem_cons.mp hk with rfl | hk
            · exact absurd rfl (hne _ hkp hg)
            · exact hk
          rw [List.indexOf_cons_ne _ (hne _ m3 rfl), List.indexOf_cons_ne _ (hne _ hkp hg)]
          exact Nat.succ_le_succ (m7 k hka hkp hg)

theorem primaryLoop_spec (s : Scores) :
    (primaryLoop s).maxScore = s.max ∧
    (0 < s.max → s.get (primaryLoop s).primaryStrategy = s.max ∧
      ∀ k, s.get k = s.max → (primaryLoop s).primaryStrategy.index ≤ k.index) := by
  obtain ⟨-, h2, h3⟩ := primary_fold s.get Strategy.keys ⟨0, .momentum⟩
  have hge := foldr_max_ge s.get Strategy.keys
  have hat := foldr_max_attained s.get Strategy.keys
  have hloop : primaryLoop s
      = (Strategy.keys.map (fun k => (k, s.get k))).foldl primaryStep ⟨0, .momentum⟩ := rfl
  have hmax : s.max = (Strategy.keys.map s.get).foldr Nat.max 0 := rfl
  rw [← hloop] at h2 h3
  rw [← hmax] at hge hat
  have hle : s.max ≤ (primaryLoop s).maxScore := by
    rcases hat with h0 | ⟨k, hk, hg⟩
    · omega
    · rw [← hg]; exact h2 k hk
  have hge' : (primaryLoop s).maxScore ≤ s.max := by
    rcases h3 with h3 | ⟨m1, m2, -, -⟩
    · rw [h3]; exact Nat.zero_le _
    · rw [← m2]; exact hge _ m1
  have heq : (primaryLoop s).maxScore = s.max := le_antisymm hge' hle
  refine ⟨heq, ?_⟩
  intro hpos
  rcases h3 with h3 | ⟨-, m2, -, m4⟩
  · rw [h3] at heq
    simp only at heq
    omega
  · rw [heq] at m2 m4
    exact ⟨m2, fun k hk => m4 k (mem_keys k) hk⟩

theorem secondaryLoop_spec (s : Scores) (p : Strategy) :
    ((secondaryLoop s p).secondaryStrategy = none ↔ ∀ k, k ≠ p → s.get k < 20) ∧
    ∀ x, (secondaryLoop s p).secondaryStrategy = some x →
      x ≠ p ∧ 20 ≤ s.get x ∧ (∀ k, k ≠ p → s.get k ≤ s.get x) ∧
      ∀ k, k ≠ p → s.get k = s.get x → x.index ≤ k.index := by
  obtain ⟨-, h2, h3⟩ := secondary_fold s.get p Strategy.keys ⟨none, 0⟩
  have hloop : secondaryLoop s p
      = (Strategy.keys.map (fun k => (k, s.get k))).foldl (secondaryStep p) ⟨none, 0⟩ := rfl
  rw [← hloop] at h2 h3
  rcases h3 with h3 | ⟨x, m1, -, m3, m4, m5, -, m7⟩
  · have hnone : ∀ k, k ≠ p → s.get k < 20 := by
      intro k hkp
      by_contra hlt
      have := h2 k (mem_keys k) hkp (by omega)
      rw [h3] at this
      simp only at this
      omega
    refine ⟨⟨fun _ => hnone, fun _ => by rw [h3]⟩, ?_⟩
    intro x hx
    rw [h3] at hx
    cases hx
  · refine ⟨⟨?_, ?_⟩, ?_⟩
    · intro hn
      rw [hn] at m1
      cases m1
    · intro hall
      have := hall x m3
      omega
    · intro y hy
      rw [m1] at hy
      cases hy
      refine ⟨m3, m4, ?_, fun k hkp hg => m7 k (mem_keys k) hkp hg⟩
      intro k hkp
      by_cases h20 : 20 ≤ s.get k
      · rw [m5]; exact h2 k (mem_keys k) hkp h20
      · omega

theorem select_primary_of_ge (s : Scores) (pc cc : Nat) (h : 20 ≤ s.max) :
    (selectStrategies s pc cc).primary = (primaryLoop s).primaryStrategy := by
  have := (primaryLoop_spec s).1
  unfold selectStrategies
  simp only
  rw [if_neg (by omega)]

/-- C9. For every trader summary, `classifyTraderStrategy` returns `confidence` equal to the
maximum of the eight scores, and whenever that maximum is at least 20 the primary strategy is
an archetype attaining it, no archetype earlier in the order arbitrage, liquidity, quant, meta,
eventDriven, conviction, momentum, conservative attaining it as well. -/
theorem primary_is_first_argmax (trader : Trader) :
    (classifyTraderStrategy trader).scores = computeScores (metrics trader) ∧
    (classifyTraderStrategy trader).confidence = (classifyTraderStrategy trader).scores.max ∧
    (20 ≤ (classifyTraderStrategy trader).scores.max →
      (classifyTraderStrategy trader).scores.get (classifyTraderStrategy trader).primary
        = (classifyTraderStrategy trader).scores.max ∧
      ∀ k, (classifyTraderStrategy trader).scores.get k = (classifyTraderStrategy trader).scores.max →
        (classifyTraderStrategy trader).primary.index ≤ k.index) := by
  have hs : (classifyTraderStrategy trader).scores = computeScores (metrics trader) := rfl
  obtain ⟨h1, h2⟩ := primaryLoop_spec (computeScores (metrics trader))
  refine ⟨hs, ?_, ?_⟩
  · rw [hs]; exact h1
  · rw [hs]
    intro h20
    have hp : (classifyTraderStrategy trader).primary
        = (primaryLoop (computeScores (metrics trader))).primaryStrategy :=
      select_primary_of_ge _ _ _ h20
    rw [hp]
    exact h2 (by omega)

/-- C10. For every trader summary, the secondary strategy returned by `classifyTraderStrategy`
is null exactly when no archetype other than the returned primary has a score of at least 20;
otherwise it is an archetype different from the primary, with score at least 20, whose score is
maximal among all non-primary archetypes, the earliest in enumeration order among equal
scores. -/
theorem secondary_is_best_other (trader : Trader) :
    ((classifyTraderStrategy trader).secondary = none ↔
      ∀ k, k ≠ (classifyTraderStrategy trader).primary →
        (classifyTraderStrategy trader).scores.get k < 20) ∧
    ∀ x, (classifyTraderStrategy trader).secondary = some x →
      x ≠ (classifyTraderStrategy trader).primary ∧
      20 ≤ (classifyTraderStrategy trader).scores.get x ∧
      (∀ k, k ≠ (classifyTraderStrategy trader).primary →
        (classifyTraderStrategy trader).scores.get k ≤ (classifyTraderStrategy trader).scores.get x) ∧
      ∀ k, k ≠ (classifyTraderStrategy trader).primary →
        (classifyTraderStrategy trader).scores.get k = (classifyTraderStrategy trader).scores.get x →
        x.index ≤ k.index := by
  have hs : (classifyTraderStrategy trader).scores = computeScores (metrics trader) := rfl
  have hsec : (classifyTraderStrategy trader).secondary
      = (secondaryLoop (computeScores (metrics trader))
          (primaryLoop (computeScores (metrics trader))).primaryStrategy).secondaryStrategy := rfl
  rw [hs, hsec]
  generalize hsc : computeScores (metrics trader) = s
  obtain ⟨h1, h2⟩ := secondaryLoop_spec s (primaryLoop s).primaryStrategy
  have hmaxge : ∀ k, s.get k ≤ s.max := fun k => foldr_max_ge s.get Strategy.keys k (mem_keys k)
  by_cases h20 : 20 ≤ s.max
  · have hp : (classifyTraderStrategy trader).primary = (primaryLoop s).primaryStrategy := by
      rw [← hsc]; exact select_primary_of_ge _ _ _ (by rw [hsc]; exact h20)
    rw [hp]
    exact ⟨h1, h2⟩
  · have hlow : ∀ k, s.get k < 20 := fun k => by have := hmaxge k; omega
    have hnone : (secondaryLoop s (primaryLoop s).primaryStrategy).secondaryStrategy = none :=
      h1.mpr (fun k _ => hlow k)
    refine ⟨⟨fun _ k _ => hlow k, fun _ => hnone⟩, ?_⟩
    intro x hx
    rw [hnone] at hx
    cases hx

theorem secondary_none_of_low (s : Scores) (p : Strategy) (h : s.max < 20) :
    (secondaryLoop s p).secondaryStrategy = none := by
  apply (secondaryLoop_spec s p).1.mpr
  intro k _
  have := foldr_max_ge s.get Strategy.keys k (mem_keys k)
  have e : s.max = (Strategy.keys.map s.get).foldr Nat.max 0 := rfl
  omega

/-- C11. For every trader summary whose maximum score is below 20, `classifyTraderStrategy`
returns `primary = conviction` when `positionCount < 10`, otherwise `primary = meta` when
`categoryCount ≥ 4`, otherwise `primary = momentum`, and `secondary = null`; the scores map
and `confidence` are left as computed. -/
theorem low_score_default (trader : Trader)
    (hlow : (computeScores (metrics trader)).max < 20) :
    (classifyTraderStrategy trader).primary
      = (if trader.positionCount < 10 then Strategy.conviction
         else if (metrics trader).categoryCount ≥ 4 then Strategy.meta
         else Strategy.momentum) ∧
    (classifyTraderStrategy trader).secondary = none ∧
    (classifyTraderStrategy trader).scores = computeScores (metrics trader) ∧
    (classifyTraderStrategy trader).confidence = (computeScores (metrics trader)).max := by
  have hmax := (primaryLoop_spec (computeScores (metrics trader))).1
  refine ⟨?_, secondary_none_of_low _ _ hlow, rfl, hmax⟩
  show (selectStrategies (computeScores (metrics trader)) (metrics trader).positionCount
    (metrics trader).categoryCount).primary = _
  unfold selectStrategies
  simp only
  rw [if_pos (by omega)]
  rfl

theorem idle_scores : computeScores (metrics idleTrader) = ⟨0, 0, 0, 0, 0, 0, 0, 0⟩ := by
  have h1 : includes (toLowerCase "x") "bot" = false := by decide
  have h2 : includes (toLowerCase "x") "automated" = false := by decide
  have h3 : includes (toLowerCase "x") "algo" = false := by decide
  have h4 : includes (toLowerCase "x") "ai trading" = false := by decide
  simp [computeScores, metrics, idleTrader, bonus, h1, h2, h3, h4, mathMax, category]
  norm_num

theorem low_score_default_witness :
    (computeScores (metrics idleTrader)).max < 20 ∧
    (classifyTraderStrategy idleTrader).primary
      = (if idleTrader.positionCount < 10 then Strategy.conviction
         else if (metrics idleTrader).categoryCount ≥ 4 then Strategy.meta
         else Strategy.momentum) :=
  have h : (computeScores (metrics idleTrader)).max < 20 := by
    rw [idle_scores]; decide
  ⟨h, (low_score_default idleTrader h).1⟩

theorem bot_scores : computeScores (metrics botTrader) = ⟨25, 85, 120, 0, 0, 0, 10, 55⟩ := by
  have h1 : includes (toLowerCase "automatedAItradingbot") "bot" = true := by decide
  simp [computeScores, metrics, botTrader, bonus, h1, mathMax, category]
  norm_num [abs_of_pos]

theorem bonus_or_name (m : Metrics)
    (h : includes m.nameLower "bot" = true ∨ includes m.nameLower "automated" = true ∨
      includes m.nameLower "algo" = true ∨ includes m.nameLower "ai trading" = true) :
    (includes m.nameLower "bot" || includes m.nameLower "automated" ||
      includes m.nameLower "algo" || includes m.nameLower "ai trading") = true := by
  rcases h with h | h | h | h <;> simp [h]

/-- C12. For the summary named "automatedAItradingbot" with 80 positions, volume 12,000,000,
PnL 50,000 and no categories or PnL history, `classifyTraderStrategy` gives a quant score of at
least 105 and `primary = quant`; and for every summary whose lower-cased name contains "bot",
"automated", "algo" or "ai trading" and that has `totalVolume > 10,000,000` and
`positionCount > 50`, the quant score is at least 105. -/
theorem bot_name_quant_score (trader : Trader) (hname : HasBotName trader)
    (hvol : trader.totalVolume > 10000000) (hpos : trader.positionCount > 50) :
    (105 ≤ (classifyTraderStrategy botTrader).scores.quant ∧
      (classifyTraderStrategy botTrader).primary = Strategy.quant) ∧
    105 ≤ (classifyTraderStrategy trader).scores.quant := by
  constructor
  · have hs : (classifyTraderStrategy botTrader).scores = ⟨25, 85, 120, 0, 0, 0, 10, 55⟩ :=
      bot_scores
    refine ⟨by rw [hs]; decide, ?_⟩
    have hp : (classifyTraderStrategy botTrader).primary
        = (primaryLoop (computeScores (metrics botTrader))).primaryStrategy :=
      select_primary_of_ge _ _ _ (by rw [bot_scores]; decide)
    rw [hp, bot_scores]
    decide
  · show 105 ≤ (computeScores (metrics trader)).quant
    have h60 := bonus_or_name (metrics trader) hname
    have hv : (metrics trader).totalVolume > 10000000 := hvol
    have hp : (metrics trader).positionCount > 50 := hpos
    have hv5 : (metrics trader).totalVolume > 5000000 := by linarith
    have hp30 : (metrics trader).positionCount > 30 := by omega
    simp only [computeScores, bonus, h60, hv, hp, hv5, hp30, decide_True, Bool.and_self,
      if_true]
    omega

theorem bot_name_quant_score_witness :
    (HasBotName botTrader ∧ botTrader.totalVolume > 10000000 ∧ botTrader.positionCount > 50) ∧
    105 ≤ (classifyTraderStrategy botTrader).scores.quant :=
  have h1 : HasBotName botTrader := Or.inl (by decide)
  have h2 : botTrader.totalVolume > 10000000 := by norm_num [botTrader]
  have h3 : botTrader.positionCount > 50 := by decide
  ⟨⟨h1, h2, h3⟩, (bot_name_quant_score botTrader h1 h2 h3).2⟩

end Traders

namespace Api

theorem parse_numeric (f : Field) (h : f.IsNumeric) : parseFloat (orZero f) = some f.value := by
  cases f with
  | missing => rfl
  | num q =>
    unfold orZero
    by_cases hq : q = 0
    · simp [hq, parseFloat, Field.value]
    · simp [hq, parseFloat, Field.value]
  | str s => exact absurd h (by simp [Field.IsNumeric])

theorem foldl_calculateStep_numeric (positions : List Position) (a b c d : ℚ)
    (h : ∀ p ∈ positions, p.IsNumeric) :
    positions.foldl calculateStep ⟨some a, some b, some c, some d⟩
      = ⟨some (a + (positions.map (fun p => p.cashPnl.value)).sum),
         some (b + (positions.map (fun p => p.currentValue.value)).sum),
         some (c + (positions.map (fun p => p.initialValue.value)).sum),
         some (d + (positions.map (fun p => p.realizedPnl.value)).sum)⟩ := by
  induction positions generalizing a b c d with
  | nil => simp
  | cons p ps ih =>
    obtain ⟨h1, h2, h3, h4⟩ := h p (List.mem_cons_self _ _)
    rw [List.foldl_cons]
    have e : calculateStep ⟨some a, some b, some c, some d⟩ p
        = ⟨some (a + p.cashPnl.value), some (b + p.currentValue.value),
           some (c + p.initialValue.value), some (d + p.realizedPnl.value)⟩ := by
      simp [calculateStep, parse_numeric _ h1, parse_numeric _ h2, parse_numeric _ h3,
        parse_numeric _ h4, jsAdd]
    rw [e, ih _ _ _ _ (fun q hq => h q (List.mem_cons_of_mem _ hq))]
    simp only [List.map_cons, List.sum_cons, add_assoc]

/-- C13. For every list of positions whose `cashPnl`, `currentValue`, `initialValue` and
`realizedPnl` fields are each numeric or missing, `calculatePnL` returns `cashPnl`,
`currentValue`, `initialValue` and `realizedPnl` equal to the sums of the corresponding fields
over the list, a missing field counting as 0; and `calculatePnL([])` is 0 in all six fields. -/
theorem calculatePnL_sums (positions : List Position) (h : ∀ p ∈ positions, p.IsNumeric) :
    ((calculatePnL positions).cashPnl
        = some ((positions.map (fun p => p.cashPnl.value)).sum) ∧
      (calculatePnL positions).currentValue
        = some ((positions.map (fun p => p.currentValue.value)).sum) ∧
      (calculatePnL positions).initialValue
        = some ((positions.map (fun p => p.initialValue.value)).sum) ∧
      (calculatePnL positions).realizedPnl
        = some ((positions.map (fun p => p.realizedPnl.value)).sum)) ∧
    calculatePnL [] = ⟨some 0, some 0, some 0, some 0, some 0, some 0⟩ := by
  constructor
  · unfold calculatePnL
    simp only [foldl_calculateStep_numeric positions 0 0 0 0 h, zero_add]
    exact ⟨trivial, trivial, trivial, trivial⟩
  · simp [calculatePnL, jsSub, jsAdd]

theorem calculatePnL_sums_witness :
    (∀ p ∈ scenarioPositions, p.IsNumeric) ∧
    (calculatePnL scenarioPositions).cashPnl
      = some ((scenarioPositions.map (fun p => p.cashPnl.value)).sum) :=
  have h : ∀ p ∈ scenarioPositions, p.IsNumeric := by decide
  ⟨h, (calculatePnL_sums scenarioPositions h).1.1⟩

/-- C14. For every list of positions the result of `calculatePnL` satisfies
`unrealizedPnl = cashPnl - realizedPnl` and `totalPnl = cashPnl + realizedPnl`, on the returned
sums; for the positions `[{cashPnl: 100, realizedPnl: 40}, {cashPnl: -20, realizedPnl: -40}]`
this gives `totalPnl = 80`, `realizedPnl = 0` and `unrealizedPnl = 80`. -/
theorem calculatePnL_derived (positions : List Position) :
    ((calculatePnL positions).unrealizedPnl
        = jsSub (calculatePnL positions).cashPnl (calculatePnL positions).realizedPnl ∧
      (calculatePnL positions).totalPnl
        = jsAdd (calculatePnL positions).cashPnl (calculatePnL positions).realizedPnl) ∧
    (∀ c r : ℚ, (calculatePnL positions).cashPnl = some c →
      (calculatePnL positions).realizedPnl = some r →
      (calculatePnL positions).unrealizedPnl = some (c - r) ∧
      (calculatePnL positions).totalPnl = some (c + r)) ∧
    ((calculatePnL scenarioPositions).totalPnl = some 80 ∧
      (calculatePnL scenarioPositions).realizedPnl = some 0 ∧
      (calculatePnL scenarioPositions).unrealizedPnl = some 80) := by
  have h1 : (calculatePnL positions).unrealizedPnl
      = jsSub (calculatePnL positions).cashPnl (calculatePnL positions).realizedPnl := rfl
  have h2 : (calculatePnL positions).totalPnl
      = jsAdd (calculatePnL positions).cashPnl (calculatePnL positions).realizedPnl := rfl
  refine ⟨⟨h1, h2⟩, ?_, ?_⟩
  · intro c r hc hr
    rw [h1, h2, hc, hr]
    exact ⟨rfl, rfl⟩
  · have hs : ∀ p ∈ scenarioPositions, p.IsNumeric := by decide
    have e := foldl_calculateStep_numeric scenarioPositions 0 0 0 0 hs
    unfold calculatePnL
    simp only [e]
    simp only [jsAdd, jsSub, scenarioPositions, Field.value, List.map_cons, List.map_nil,
      List.sum_cons, List.sum_nil]
    norm_num

/-- C15 (the code at the failing input). A position whose `cashPnl` is the string `"abc"` is not
counted as 0: `parseFloat("abc" || 0)` is `NaN`, and the returned `cashPnl`, `unrealizedPnl` and
`totalPnl` are `NaN`. -/
theorem calculatePnL_garbled_is_nan :
    parseFloat (orZero (Field.str "abc")) = none ∧
    (calculatePnL garbledPositions).cashPnl = none ∧
    (calculatePnL garbledPositions).unrealizedPnl = none ∧
    (calculatePnL garbledPositions).totalPnl = none := by
  have h : parseFloat (orZero (Field.str "abc")) = none := by decide
  refine ⟨h, ?_, ?_, ?_⟩ <;>
    simp [calculatePnL, garbledPositions, calculateStep, h, jsAdd, jsSub]

end Api

namespace Traders

theorem includes_iff (haystack needle : String) :
    includes haystack needle = true ↔ IsSubstring needle haystack := by
  unfold includes IsSubstring
  rw [List.any_eq_true, List.infix_iff_prefix_suffix]
  constructor
  · rintro ⟨t, ht, hp⟩
    exact ⟨t, List.isPrefixOf_iff_prefix.mp hp, (List.mem_tails _ _).mp ht⟩
  · rintro ⟨t, hp, hs⟩
    exact ⟨t, (List.mem_tails _ _).mpr hs, List.isPrefixOf_iff_prefix.mpr hp⟩

theorem foldl_categorizeStep (lowerTitle : String) (entries : List (String × List String))
    (acc : List String) :
    entries.foldl (categorizeStep lowerTitle) acc
      = acc ++ (entries.filter (fun e => matchesCategory lowerTitle e.2)).map Prod.fst := by
  induction entries generalizing acc with
  | nil => simp
  | cons e es ih =>
    rw [List.foldl_cons, ih]
    unfold categorizeStep
    by_cases h : matchesCategory lowerTitle e.2 = true
    · simp [h, List.filter_cons]
    · simp [h, List.filter_cons]

/-- The matched category keys, in table order. -/
theorem categorizeMarket_eq (title : String) :
    categorizeMarket title =
      if (MARKET_CATEGORIES.filter
          (fun e => matchesCategory (toLowerCase title) e.2)).map Prod.fst = [] then ["other"]
      else (MARKET_CATEGORIES.filter
          (fun e => matchesCategory (toLowerCase title) e.2)).map Prod.fst := by
  unfold categorizeMarket
  simp only [foldl_categorizeStep, List.nil_append]
  by_cases h : (MARKET_CATEGORIES.filter
      (fun e => matchesCategory (toLowerCase title) e.2)).map Prod.fst = []
  · rw [if_pos h, h]; rfl
  · rw [if_neg h, if_pos (List.length_pos.mpr h)]

theorem keywordsOf_entry : ∀ e ∈ MARKET_CATEGORIES, keywordsOf e.1 = e.2 := by decide

theorem matchesCategory_iff (title : String) (e : String × List String)
    (he : e ∈ MARKET_CATEGORIES) :
    matchesCategory (toLowerCase title) e.2 = true ↔ CategoryMatches title e.1 := by
  unfold matchesCategory CategoryMatches
  rw [keywordsOf_entry e he, List.any_eq_true]
  constructor
  · rintro ⟨kw, hk, hi⟩
    exact ⟨kw, hk, (includes_iff _ _).mp hi⟩
  · rintro ⟨kw, hk, hi⟩
    exact ⟨kw, hk, (includes_iff _ _).mpr hi⟩

theorem mem_matched_iff (title key : String) :
    key ∈ (MARKET_CATEGORIES.filter
        (fun e => matchesCategory (toLowerCase title) e.2)).map Prod.fst
      ↔ key ∈ categoryKeys ∧ CategoryMatches title key := by
  constructor
  · intro h
    obtain ⟨e, he, rfl⟩ := List.mem_map.mp h
    obtain ⟨hm, hf⟩ := List.mem_filter.mp he
    exact ⟨List.mem_map.mpr ⟨e, hm, rfl⟩, (matchesCategory_iff title e hm).mp hf⟩
  · rintro ⟨hk, hc⟩
    obtain ⟨e, he, rfl⟩ := List.mem_map.mp hk
    exact List.mem_map.mpr ⟨e, List.mem_filter.mpr ⟨he, (matchesCategory_iff title e he).mpr hc⟩,
      rfl⟩

theorem matched_sublist (title : String) :
    List.Sublist ((MARKET_CATEGORIES.filter
        (fun e => matchesCategory (toLowerCase title) e.2)).map Prod.fst) categoryKeys :=
  (List.filter_sublist _).map Prod.fst

theorem other_not_key : "other" ∉ categoryKeys := by decide

theorem categoryKeys_eq : categoryKeys = ["politics", "crypto", "sports", "science",
    "entertainment", "business", "world", "weather"] := by decide

/-- C16. For every title, `categorizeMarket` returns exactly the categories, among politics,
crypto, sports, science, entertainment, business, world and weather, each at most once and in
that order, that have at least one keyword occurring as a substring of the lower-cased title,
and returns `['other']` exactly when no category matches; the result is never empty, `'other'`
never appears together with another category, and `categorizeMarket('') = ['other']`. -/
theorem categorizeMarket_spec (title : String) :
    categoryKeys = ["politics", "crypto", "sports", "science", "entertainment", "business",
      "world", "weather"] ∧
    ((categorizeMarket title = ["other"] ∧ ¬ ∃ key ∈ categoryKeys, CategoryMatches title key) ∨
      (List.Sublist (categorizeMarket title) categoryKeys ∧ categorizeMarket title ≠ ["other"] ∧
        (∃ key ∈ categoryKeys, CategoryMatches title key) ∧
        ∀ key, key ∈ categorizeMarket title ↔ key ∈ categoryKeys ∧ CategoryMatches title key)) ∧
    categorizeMarket title ≠ [] ∧
    ("other" ∈ categorizeMarket title → categorizeMarket title = ["other"]) ∧
    categorizeMarket "" = ["other"] := by
  have hmain : (categorizeMarket title = ["other"] ∧
        ¬ ∃ key ∈ categoryKeys, CategoryMatches title key) ∨
      (List.Sublist (categorizeMarket title) categoryKeys ∧ categorizeMarket title ≠ ["other"] ∧
        (∃ key ∈ categoryKeys, CategoryMatches title key) ∧
        ∀ key, key ∈ categorizeMarket title ↔ key ∈ categoryKeys ∧ CategoryMatches title key) := by
    rw [categorizeMarket_eq]
    by_cases h : (MARKET_CATEGORIES.filter
        (fun e => matchesCategory (toLowerCase title) e.2)).map Prod.fst = []
    · left
      rw [if_pos h]
      refine ⟨rfl, ?_⟩
      rintro ⟨key, hk, hc⟩
      have := (mem_matched_iff title key).mpr ⟨hk, hc⟩
      rw [h] at this
      cases this
    · right
      rw [if_neg h]
      refine ⟨matched_sublist title, ?_, ?_, mem_matched_iff title⟩
      · intro ho
        have : "other" ∈ categoryKeys := (matched_sublist title).subset (by rw [ho]; simp)
        exact other_not_key this
      · obtain ⟨key, hkey⟩ := List.exists_mem_of_ne_nil _ h
        exact ⟨key, (mem_matched_iff title key).mp hkey⟩
  refine ⟨categoryKeys_eq, hmain, ?_, ?_, ?_⟩
  · rcases hmain with ⟨h, -⟩ | ⟨-, -, ⟨key, hk, hc⟩, hiff⟩
    · rw [h]; simp
    · intro h0
      have := (hiff key).mpr ⟨hk, hc⟩
      rw [h0] at this
      cases this
  · intro ho
    rcases hmain with ⟨h, -⟩ | ⟨-, -, -, hiff⟩
    · exact h
    · exact absurd ((hiff "other").mp ho).1 other_not_key
  · decide

end Traders

namespace Api

theorem lookup_bump (m : List (String × CatData)) (c : String) (v : JsNum) (c' : String) :
    (bump m c v).lookup c'
      = if c' = c then some ⟨countOf m c + 1, jsAdd (valueOf m c) v⟩ else m.lookup c' := by
  induction m with
  | nil =>
    by_cases h : c' = c
    · subst h; simp [bump, countOf, valueOf, List.lookup]
    · have hb : (c' == c) = false := by simpa using h
      simp [bump, List.lookup, hb, h]
  | cons kv rest ih =>
    obtain ⟨key, catData⟩ := kv
    unfold bump
    by_cases hk : key = c
    · subst hk
      rw [if_pos rfl]
      by_cases h : c' = key
      · subst h; simp [countOf, valueOf, List.lookup]
      · have hb : (c' == key) = false := by simpa using h
        simp [List.lookup, hb, h]
    · rw [if_neg hk]
      by_cases h : c' = c
      · subst h
        have hb : (c' == key) = false := by simpa using fun e => hk e.symm
        simp only [List.lookup, hb, ih, if_true, countOf, valueOf]
      · by_cases h2 : c' = key
        · subst h2; simp [List.lookup, h]
        · have hb : (c' == key) = false := by simpa using h2
          simp only [List.lookup, hb, ih, if_neg h]

theorem totalCount_bump (m : List (String × CatData)) (c : String) (v : JsNum) :
    totalCount (bump m c v) = totalCount m + 1 := by
  induction m with
  | nil => simp [bump, totalCount]
  | cons kv rest ih =>
    obtain ⟨key, catData⟩ := kv
    unfold bump
    by_cases hk : key = c
    · rw [if_pos hk]; simp [totalCount]; omega
    · rw [if_neg hk]
      simp only [totalCount, List.map_cons, List.sum_cons] at ih ⊢
      omega

theorem keys_bump (m : List (String × CatData)) (c : String) (v : JsNum) :
    (bump m c v).map Prod.fst = if c ∈ m.map Prod.fst then m.map Prod.fst
      else m.map Prod.fst ++ [c] := by
  induction m with
  | nil => simp [bump]
  | cons kv rest ih =>
    obtain ⟨key, catData⟩ := kv
    unfold bump
    by_cases hk : key = c
    · subst hk; simp
    · rw [if_neg hk]
      simp only [List.map_cons, ih, List.mem_cons]
      have hk' : ¬ c = key := fun e => hk e.symm
      by_cases hm : c ∈ rest.map Prod.fst
      · simp [hm]
      · simp [hm, hk']

theorem nodup_bump (m : List (String × CatData)) (c : String) (v : JsNum)
    (h : (m.map Prod.fst).Nodup) : ((bump m c v).map Prod.fst).Nodup := by
  rw [keys_bump]
  split_ifs with hc
  · exact h
  · exact List.Nodup.append h (List.nodup_singleton c) (by simpa using hc)

theorem foldl_bump (cs : List String) (v : JsNum) (m : List (String × CatData))
    (hcs : cs.Nodup) (c : String) :
    (cs.foldl (fun m cat => bump m cat v) m).lookup c
        = (if c ∈ cs then some ⟨countOf m c + 1, jsAdd (valueOf m c) v⟩ else m.lookup c) ∧
    totalCount (cs.foldl (fun m cat => bump m cat v) m) = totalCount m + cs.length ∧
    ((m.map Prod.fst).Nodup → ((cs.foldl (fun m cat => bump m cat v) m).map Prod.fst).Nodup) := by
  induction cs generalizing m with
  | nil => simp
  | cons a cs ih =>
    obtain ⟨ha, hcs'⟩ := List.nodup_cons.mp hcs
    obtain ⟨h1, h2, h3⟩ := ih (bump m a v) hcs'
    rw [List.foldl_cons]
    refine ⟨?_, ?_, fun hm => h3 (nodup_bump m a v hm)⟩
    · rw [h1]
      by_cases hca : c = a
      · subst hca
        simp only [ha, if_false, List.mem_cons, true_or, if_true]
        rw [lookup_bump, if_pos rfl]
      · have e : (bump m a v).lookup c = m.lookup c := by rw [lookup_bump, if_neg hca]
        simp only [List.mem_cons, hca, false_or, countOf, valueOf, e]
    · rw [h2, totalCount_bump, List.length_cons]; omega

theorem marketCategories_concat (categorizer : Option (String → List String))
    (ps : List Position) (p : Position) :
    marketCategories categorizer (ps ++ [p])
      = bucketStep categorizer (marketCategories categorizer ps) p := by
  unfold marketCategories
  rw [List.foldl_concat]

theorem jsSum_concat (xs : List JsNum) (x : JsNum) : jsSum (xs ++ [x]) = jsAdd (jsSum xs) x := by
  unfold jsSum
  rw [List.foldl_concat]

theorem buckets_spec (categorizer : Option (String → List String))
    (hnodup : ∀ p, (categoriesOf categorizer p).Nodup)
    (hne : ∀ p, categoriesOf categorizer p ≠ [])
    (positions : List Position) :
    (∀ c, (marketCategories categorizer positions).lookup c
      = if positions.filter (fun p => decide (c ∈ categoriesOf categorizer p)) = [] then none
        else some
          ⟨(positions.filter (fun p => decide (c ∈ categoriesOf categorizer p))).length,
            jsSum ((positions.filter (fun p => decide (c ∈ categoriesOf categorizer p))).map
              (fun p => parseFloat (orZero p.currentValue)))⟩) ∧
    positions.length ≤ totalCount (marketCategories categorizer positions) ∧
    ((marketCategories categorizer positions).map Prod.fst).Nodup := by
  induction positions using List.reverseRecOn with
  | nil =>
    refine ⟨fun c => ?_, ?_, ?_⟩
    · simp [marketCategories]
    · simp
    · simp [marketCategories]
  | append_singleton ps p ih =>
    obtain ⟨ih1, ih2, ih3⟩ := ih
    rw [marketCategories_concat]
    unfold bucketStep
    refine ⟨fun c => ?_, ?_, ?_⟩
    · obtain ⟨h1, -, -⟩ := foldl_bump (categoriesOf categorizer p)
        (parseFloat (orZero p.currentValue)) (marketCategories categorizer ps) (hnodup p) c
      rw [h1, List.filter_append]
      have hl := ih1 c
      by_cases hc : c ∈ categoriesOf categorizer p
      · rw [if_pos hc]
        simp only [List.filter_cons, hc, decide_True, if_true, List.filter_nil,
          List.append_eq_nil, List.cons_ne_nil, and_false, if_false, List.length_append,
          List.length_singleton, List.map_append, List.map_cons, List.map_nil, jsSum_concat]
        by_cases he : ps.filter (fun p => decide (c ∈ categoriesOf categorizer p)) = []
        · rw [he] at hl ⊢
          simp only [if_true] at hl
          simp [countOf, valueOf, hl, jsSum]
        · rw [if_neg he] at hl
          simp [countOf, valueOf, hl]
      · rw [if_neg hc]
        simp only [List.filter_cons, hc, decide_False, List.filter_nil, List.append_nil]
        simpa using hl
    · obtain ⟨-, h2, -⟩ := foldl_bump (categoriesOf categorizer p)
        (parseFloat (orZero p.currentValue)) (marketCategories categorizer ps) (hnodup p) ""
      rw [h2, List.length_append, List.length_singleton]
      have := List.length_pos.mpr (hne p)
      omega
    · exact (foldl_bump (categoriesOf categorizer p) (parseFloat (orZero p.currentValue))
        (marketCategories categorizer ps) (hnodup p) "").2.2 ih3

end Api

namespace Traders

theorem categoryKeys_nodup : categoryKeys.Nodup := by decide

theorem categorizeMarket_nodup (title : String) : (categorizeMarket title).Nodup := by
  rw [categorizeMarket_eq]
  split_ifs
  · simp
  · exact (matched_sublist title).nodup categoryKeys_nodup

theorem categorizeMarket_ne_nil (title : String) : categorizeMarket title ≠ [] := by
  rw [categorizeMarket_eq]
  split_ifs with h
  · simp
  · exact h

end Traders

namespace Api

theorem foldl_jsAdd_numeric (l : List Position) (a : ℚ)
    (h : ∀ p ∈ l, p.currentValue.IsNumeric) :
    (l.map (fun p => parseFloat (orZero p.currentValue))).foldl jsAdd (some a)
      = some (a + (l.map (fun p => p.currentValue.value)).sum) := by
  induction l generalizing a with
  | nil => simp
  | cons p ps ih =>
    simp only [List.map_cons, List.foldl_cons, List.sum_cons]
    rw [parse_numeric _ (h p (List.mem_cons_self _ _))]
    simp only [jsAdd]
    rw [ih _ (fun q hq => h q (List.mem_cons_of_mem _ hq)), add_assoc]

/-- C17. For every list of positions, the `marketCategories` map built by `getTraderSummary`
has, for each category `c`, `count` equal to the number of positions whose
`categorizeMarket(title || '')` contains `c` and `value` equal to the sum of those positions'
`currentValue` (read by `parseFloat(currentValue || 0)`; the plain sum when the fields are
numeric or missing); categories matched by no position are absent, every key occurs once, and
the counts sum to at least the number of positions. -/
theorem market_categories_buckets (positions : List Position) :
    (∀ c, (marketCategories (some Traders.categorizeMarket) positions).lookup c
      = if positionsIn positions c = [] then none
        else some ⟨(positionsIn positions c).length,
          jsSum ((positionsIn positions c).map (fun p => parseFloat (orZero p.currentValue)))⟩) ∧
    ((∀ p ∈ positions, p.currentValue.IsNumeric) → ∀ c,
      jsSum ((positionsIn positions c).map (fun p => parseFloat (orZero p.currentValue)))
        = some (((positionsIn positions c).map (fun p => p.currentValue.value)).sum)) ∧
    ((marketCategories (some Traders.categorizeMarket) positions).map Prod.fst).Nodup ∧
    positions.length ≤ totalCount (marketCategories (some Traders.categorizeMarket) positions) := by
  obtain ⟨h1, h2, h3⟩ := buckets_spec (some Traders.categorizeMarket)
    (fun p => Traders.categorizeMarket_nodup _) (fun p => Traders.categorizeMarket_ne_nil _)
    positions
  refine ⟨h1, ?_, h3, h2⟩
  intro hnum c
  have := foldl_jsAdd_numeric (positionsIn positions c) 0
    (fun p hp => hnum p (List.mem_filter.mp hp).1)
  rw [zero_add] at this
  exact this

end Api

namespace PnlHistory

theorem tradePoint_jitter (rnd : Nat → ℚ) (a b : Int) (x y : ℚ) (k : Nat) (t : Trade)
    (hr : 0 ≤ rnd k ∧ rnd k < 1) :
    |(tradePoint rnd a b x y k t).pnl
        - (x + (y - x) * ((((tradePoint rnd a b x y k t).timestamp : ℚ) - (a : ℚ))
            / ((b : ℚ) - (a : ℚ))))|
      ≤ 2 / 100 * |y - x| := by
  have e : (tradePoint rnd a b x y k t).pnl
        - (x + (y - x) * ((((tradePoint rnd a b x y k t).timestamp : ℚ) - (a : ℚ))
            / ((b : ℚ) - (a : ℚ))))
      = (rnd k - 1 / 2) * (4 / 100) * |y - x| := by
    simp only [tradePoint, Int.cast_sub]
    ring
  rw [e, abs_mul, abs_mul, abs_abs]
  have h1 : |rnd k - 1 / 2| ≤ 1 / 2 := by
    rw [abs_le]
    constructor <;> linarith [hr.1, hr.2]
  have h2 : |(4 / 100 : ℚ)| = 4 / 100 := abs_of_pos (by norm_num)
  rw [h2]
  have h3 : (0 : ℚ) ≤ |y - x| := abs_nonneg _
  nlinarith [mul_le_mul_of_nonneg_right h1 h3]

theorem tradePoints_jitter (rnd : Nat → ℚ) (a b : Int) (x y : ℚ) (k : Nat) (l : List Trade)
    (hr : ∀ i, 0 ≤ rnd i ∧ rnd i < 1) :
    ∀ p ∈ tradePoints rnd a b x y k l,
      |p.pnl - (x + (y - x) * (((p.timestamp : ℚ) - (a : ℚ)) / ((b : ℚ) - (a : ℚ))))|
        ≤ 2 / 100 * |y - x| := by
  induction l generalizing k with
  | nil => intro p hp; cases hp
  | cons t ts ih =>
    intro p hp
    simp only [tradePoints, List.mem_cons] at hp
    rcases hp with rfl | hp
    · exact tradePoint_jitter rnd a b x y k t (hr k)
    · exact ih (k + 1) p hp

/-- C18. For every window, every in-window trade and every value `r` in `[0, 1)` returned by
the random source, the `pnl` of the trade's point pushed by the loop of `generateTimeline`
(before any end-pinning) differs from the linear interpolation
`startPnl + (endPnl - startPnl) * (ts - startTime) / (endTime - startTime)` by at most
`0.02 * |endPnl - startPnl|`. -/
theorem jitter_bound (rnd : Nat → ℚ) (n : Nat) (startTime endTime : Int) (startPnl endPnl : ℚ)
    (trades : List Trade) (hr : ∀ i, 0 ≤ rnd i ∧ rnd i < 1) :
    ∃ pts, ((periodTrades startTime endTime trades).foldl
          (tradeStep rnd startTime endTime startPnl endPnl)
          { timeline := [{ timestamp := startTime, pnl := startPnl }], lastTs := startTime,
            draws := n }).timeline = ⟨startTime, startPnl⟩ :: pts ∧
      pts.map Point.timestamp = (periodTrades startTime endTime trades).map tradeMs ∧
      ∀ p ∈ pts,
        |p.pnl - (startPnl + (endPnl - startPnl) *
            (((p.timestamp : ℚ) - (startTime : ℚ)) / ((endTime : ℚ) - (startTime : ℚ))))|
          ≤ 2 / 100 * |endPnl - startPnl| := by
  refine ⟨tradePoints rnd startTime endTime startPnl endPnl n
    (periodTrades startTime endTime trades), ?_, tradePoints_timestamps _ _ _ _ _ _ _,
    tradePoints_jitter rnd startTime endTime startPnl endPnl n _ hr⟩
  rw [(foldl_tradeStep rnd startTime endTime startPnl endPnl
    (periodTrades startTime endTime trades) ⟨[⟨startTime, startPnl⟩], startTime, n⟩).1]
  rfl

theorem jitter_bound_witness :
    (∀ i : Nat, (0 : ℚ) ≤ (fun _ => (0 : ℚ)) i ∧ (fun _ => (0 : ℚ)) i < 1) ∧
    ∃ pts, ((periodTrades 0 100000 [⟨some 3⟩]).foldl
          (tradeStep (fun _ => 0) 0 100000 5 10)
          { timeline := [{ timestamp := 0, pnl := 5 }], lastTs := 0, draws := 0 }).timeline
        = ⟨0, 5⟩ :: pts ∧
      pts.map Point.timestamp = (periodTrades 0 100000 [⟨some 3⟩]).map tradeMs ∧
      ∀ p ∈ pts,
        |p.pnl - ((5 : ℚ) + (10 - 5) *
            (((p.timestamp : ℚ) - ((0 : Int) : ℚ)) / (((100000 : Int) : ℚ) - ((0 : Int) : ℚ))))|
          ≤ 2 / 100 * |(10 : ℚ) - 5| :=
  have h : ∀ i : Nat, (0 : ℚ) ≤ (fun _ => (0 : ℚ)) i ∧ (fun _ => (0 : ℚ)) i < 1 :=
    fun _ => ⟨le_refl _, by norm_num⟩
  ⟨h, jitter_bound (fun _ => 0) 0 0 100000 5 10 [⟨some 3⟩] h⟩

theorem sortTrades_head_min (trades : List Trade) (h : Trade)
    (hh : (sortTrades trades).head? = some h) :
    h ∈ trades ∧ ∀ u ∈ trades, sortKey h ≤ sortKey u := by
  have hsorted := sortTrades_sorted trades
  unfold SortedByTimestamp at hsorted
  cases hl : sortTrades trades with
  | nil => rw [hl] at hh; cases hh
  | cons a rest =>
    rw [hl] at hh hsorted
    simp only [List.head?_cons, Option.some.injEq] at hh
    subst hh
    have hmem : ∀ u, u ∈ trades ↔ u ∈ a :: rest := fun u => by
      rw [← hl]; exact (mem_sortTrades trades u).symm
    refine ⟨(hmem a).mpr (List.mem_cons_self _ _), ?_⟩
    intro u hu
    rcases List.mem_cons.mp ((hmem u).mp hu) with rfl | hu'
    · exact le_refl _
    · have := List.pairwise_cons.mp (List.pairwise_map.mp hsorted)
      exact this.1 u hu'

theorem sortTrades_eq_nil (trades : List Trade) : sortTrades trades = [] ↔ trades = [] := by
  constructor
  · intro h
    have := (List.perm_insertionSort (fun a b => sortKey a ≤ sortKey b) trades).length_eq
    unfold sortTrades at h
    rw [h] at this
    exact List.length_eq_zero.mp this.symm
  · intro h; subst h; rfl

/-- C20. For every trade list the synthetic `ALL` series starts with `pnl` 0 at the time
`now - 180d`, unless the earliest fetched trade has a known, positive timestamp earlier than
`now - 180d`, in which case it starts at that trade's timestamp in milliseconds; when the
earliest trade is not earlier than `now - 180d` the 180-day default is kept. -/
theorem all_series_start (rnd : Nat → ℚ) (periodPnLs : PeriodPnLs) (trades : List Trade)
    (now : Int) :
    (trades = [] →
      (fetchPnLHistoryFallback rnd periodPnLs trades now).sALL.head?
        = some ⟨now - 180 * 24 * 60 * 60 * 1000, 0⟩) ∧
    ∀ earliest ∈ trades, (∀ u ∈ trades, sortKey earliest ≤ sortKey u) →
      ((0 < tradeMs earliest ∧ tradeMs earliest < now - 180 * 24 * 60 * 60 * 1000) →
        (fetchPnLHistoryFallback rnd periodPnLs trades now).sALL.head?
          = some ⟨tradeMs earliest, 0⟩) ∧
      (¬ (0 < tradeMs earliest ∧ tradeMs earliest < now - 180 * 24 * 60 * 60 * 1000) →
        (fetchPnLHistoryFallback rnd periodPnLs trades now).sALL.head?
          = some ⟨now - 180 * 24 * 60 * 60 * 1000, 0⟩) := by
  have hhead : (fetchPnLHistoryFallback rnd periodPnLs trades now).sALL.head?
      = some ⟨allStartTime now (sortTrades trades), 0⟩ :=
    (fallback_series rnd periodPnLs trades now (fun a x _ s => s.head? = some ⟨a, x⟩)
      (fun n a x points _ hp => generateTimeline_head rnd n a now x periodPnLs.all points _
        (by omega))).2.2.2
  have hd : (180 : Int) * dayMs = 180 * 24 * 60 * 60 * 1000 := by decide
  constructor
  · intro h0
    rw [hhead, h0]
    simp only [sortTrades, List.insertionSort, allStartTime, List.head?_nil, hd]
  · intro earliest he hmin
    cases hs : (sortTrades trades).head? with
    | none =>
      have : sortTrades trades = [] := List.head?_eq_none_iff.mp hs
      rw [(sortTrades_eq_nil trades).mp this] at he
      cases he
    | some h =>
      obtain ⟨hm, hle⟩ := sortTrades_head_min trades h hs
      have hkey : sortKey h = sortKey earliest := le_antisymm (hle earliest he) (hmin h hm)
      have hms : tradeMs h = tradeMs earliest := by
        unfold tradeMs; unfold sortKey at hkey; rw [hkey]
      rw [hhead]
      unfold allStartTime
      rw [hs]
      simp only [hms, hd]
      constructor
      · intro hc; rw [if_pos hc]
      · intro hc; rw [if_neg hc]

theorem get?_set (r : PnLHistory) (tf : String) (v : List Point) (tf' : String)
    (htf' : tf' ∈ timeframeKeys) :
    (r.set tf v).get? tf' = if tf' = tf then some v else r.get? tf' := by
  by_cases htf : tf ∈ timeframeKeys
  · simp only [timeframeKeys, List.mem_cons, List.mem_singleton, List.not_mem_nil, or_false]
      at htf htf'
    rcases htf with rfl | rfl | rfl | rfl <;> rcases htf' with rfl | rfl | rfl | rfl <;>
      simp [PnLHistory.set, PnLHistory.get?]
  · obtain ⟨e1, e2, e3, e4⟩ := set_of_not_key r tf v htf
    have hne : ¬ tf' = tf := fun e => htf (e ▸ htf')
    rw [if_neg hne]
    unfold PnLHistory.get?
    rw [e1, e2, e3, e4]

theorem lastAccepted_concat (qs : List Query) (q : Query) (tf : String) :
    lastAccepted (qs ++ [q]) tf
      = match acceptedEntry q with
        | some (tf', data) => if tf' = tf then some data else lastAccepted qs tf
        | none => lastAccepted qs tf := by
  unfold lastAccepted
  rw [List.filterMap_append]
  cases h : acceptedEntry q with
  | none => simp [List.filterMap, h]
  | some e =>
    obtain ⟨tf', data⟩ := e
    simp only [List.filterMap, h, List.filter_append]
    by_cases ht : tf' = tf
    · simp [List.filter_cons, ht, List.getLast?_concat]
    · simp [List.filter_cons, ht]

theorem get?_of_fields (r r' : PnLHistory) (tf : String)
    (h : r'.s1D = r.s1D ∧ r'.s1W = r.s1W ∧ r'.s1M = r.s1M ∧ r'.sALL = r.sALL) :
    r'.get? tf = r.get? tf := by
  obtain ⟨e1, e2, e3, e4⟩ := h
  unfold PnLHistory.get?
  rw [e1, e2, e3, e4]

/-- For every profile blob, whatever the keys of its entries, the scan leaves under each of
the four timeframe keys the converted payload of the last entry for that key, or the empty
series when the blob has none. -/
theorem scan_get? (apk : List String) (qs : List Query) (tf : String)
    (htf : tf ∈ timeframeKeys) :
    (scanQueries apk qs).result.get? tf = some (scrapedSeries qs tf) := by
  induction qs using List.reverseRecOn with
  | nil =>
    simp only [timeframeKeys, List.mem_cons, List.mem_singleton, List.not_mem_nil, or_false]
      at htf
    rcases htf with rfl | rfl | rfl | rfl <;> rfl
  | append_singleton qs q ih =>
    have hstep : scanQueries apk (qs ++ [q]) = scanStep apk (scanQueries apk qs) q := by
      unfold scanQueries; rw [List.foldl_concat]
    rw [hstep]
    unfold scrapedSeries at ih ⊢
    rw [lastAccepted_concat]
    cases h : acceptedEntry q with
    | none =>
      rw [get?_of_fields _ _ tf (scanStep_other apk _ q h)]
      exact ih
    | some e =>
      obtain ⟨tf', data⟩ := e
      rw [(scanStep_entry apk _ q tf' data h).2, get?_set _ _ _ _ htf]
      simp only
      by_cases ht : tf = tf'
      · subst ht; simp
      · have ht' : ¬ tf' = tf := fun e => ht e.symm
        rw [if_neg ht, if_neg ht']
        exact ih

/-- An entry whose timeframe component names no property of the result object, own or
inherited, is ignored by the scan. -/
theorem scanStep_undefined_key (apk : List String) (s : ScanState) (q : Query)
    (key : List String) (tf : String)
    (hk : q.queryKey = some key) (htf : timeframeOf key = some tf)
    (h : s.result.isDefined apk tf = false) :
    scanStep apk s q = s := by
  unfold scanStep
  rw [hk]
  simp only
  split_ifs with h0
  · rw [htf]
    cases q.data with
    | none => rfl
    | some data => simp [h]
  · rfl

theorem fields_of_get? (r : PnLHistory) :
    r.get? "1D" = some r.s1D ∧ r.get? "1W" = some r.s1W ∧ r.get? "1M" = some r.s1M ∧
      r.get? "ALL" = some r.sALL := by
  refine ⟨?_, ?_, ?_, ?_⟩ <;> simp [PnLHistory.get?]

/-- C19 (code bug). An entry with a timeframe key other than `1D`, `1W`, `1M` and `ALL` is not
ignored when the key names a property that the result object inherits. For the blob whose
single `portfolio-pnl` entry is keyed `constructor` with the values 1 and 2, the key is none
of the four timeframes, yet the scan converts the entry, stores it on the result object as a
new own property `constructor` and sets `hasVariation`; `fetchPnLHistory` then returns and
caches this object instead of falling back. The entry under the key `1Y`, which names no
property, is ignored. -/
theorem inherited_key_entry_not_ignored :
    "constructor" ∉ timeframeKeys ∧
    scanQueries nodeArrayPrototypeKeys constructorQueries
      = { result := constructorResult, hasVariation := true } ∧
    (fetchPnLHistory Cache.empty "0xabc" constructorUpstream).1 = constructorResult ∧
    (fetchPnLHistory Cache.empty "0xabc" constructorUpstream).2 (cacheKey "0xabc")
      = some { data := constructorResult, timestamp := 0 } ∧
    scanStep nodeArrayPrototypeKeys { result := PnLHistory.empty, hasVariation := false }
        { queryKey := some ["portfolio-pnl", "user", "0xabc", "1Y"],
          data := some [⟨1, 1⟩, ⟨2, 2⟩] }
      = { result := PnLHistory.empty, hasVariation := false } := by
  refine ⟨by decide, by decide, by decide, by decide, by decide⟩

end PnlHistory

namespace Traders

theorem bonus_le_cases (c : Bool) (n : Nat) : bonus c n = 0 ∨ bonus c n = n := by
  cases c <;> simp [bonus]

theorem abs_pos_iff_ne (q : ℚ) : |q| > 0 ↔ q ≠ 0 := abs_pos

theorem foldl_add_eq_sum (l : List ℚ) (a : ℚ) :
    l.foldl (fun sum v => sum + v) a = a + l.sum := by
  induction l generalizing a with
  | nil => simp
  | cons x xs ih => rw [List.foldl_cons, ih, List.sum_cons, add_assoc]

/-- C21. For every trader summary, each of the scores for quant, liquidity, arbitrage,
eventDriven, conviction, momentum and conservative computed by `classifyTraderStrategy` is a
natural number that is at least the sum of that archetype's bonuses in the specification table
whose conditions hold, with `ratio = totalVolume / |totalPnl|` (0 when `totalPnl` is 0), the
event concentration the share of category value in politics, sports and entertainment, and
`dailyVolatility = |1D delta| / |totalPnl|` (0 if unavailable). -/
theorem scores_at_least_table (trader : Trader) :
    ((metrics trader).volumeToPnlRatio
        = (if trader.totalPnl = 0 then 0 else trader.totalVolume / |trader.totalPnl|) ∧
      (metrics trader).dailyVolatility
        = (if trader.totalPnl = 0 then 0 else |dayDelta trader| / |trader.totalPnl|) ∧
      (trader.pnlHistory = none → dayDelta trader = 0) ∧
      (metrics trader).eventConcentration
        = (if totalCategoryValue trader > 0 then
            (((category trader.marketCategories "politics").map CategoryStat.value).getD 0
              + ((category trader.marketCategories "sports").map CategoryStat.value).getD 0
              + ((category trader.marketCategories "entertainment").map CategoryStat.value).getD 0)
              / totalCategoryValue trader
          else 0)) ∧
    (tableScores (metrics trader)).quant ≤ (classifyTraderStrategy trader).scores.quant ∧
    (tableScores (metrics trader)).liquidity ≤ (classifyTraderStrategy trader).scores.liquidity ∧
    (tableScores (metrics trader)).arbitrage ≤ (classifyTraderStrategy trader).scores.arbitrage ∧
    (tableScores (metrics trader)).eventDriven
      ≤ (classifyTraderStrategy trader).scores.eventDriven ∧
    (tableScores (metrics trader)).conviction ≤ (classifyTraderStrategy trader).scores.conviction ∧
    (tableScores (metrics trader)).momentum ≤ (classifyTraderStrategy trader).scores.momentum ∧
    (tableScores (metrics trader)).conservative
      ≤ (classifyTraderStrategy trader).scores.conservative := by
  have hs : (classifyTraderStrategy trader).scores = computeScores (metrics trader) := rfl
  rw [hs]
  refine ⟨⟨?_, ?_, ?_, ?_⟩, ?_, ?_, ?_, ?_, ?_, ?_, ?_⟩
  · simp only [metrics]
    by_cases h : trader.totalPnl = 0
    · simp [h]
    · rw [if_pos (abs_pos.mpr h), if_neg h]
  · simp only [metrics, dayDelta]
    by_cases h : trader.totalPnl = 0
    · simp [h]
    · rw [if_pos (abs_pos.mpr h), if_neg h]
  · intro h; simp [dayDelta, h]
  · simp only [metrics, totalCategoryValue, foldl_add_eq_sum, zero_add, List.foldl_cons,
      List.foldl_nil]
    congr 2
    cases category trader.marketCategories "politics" <;>
      cases category trader.marketCategories "sports" <;>
      cases category trader.marketCategories "entertainment" <;> simp
  all_goals
    simp only [tableScores, computeScores, gt_iff_lt, ge_iff_le]
    omega

theorem mathMax_lt (xs : List ℚ) (c : ℚ) (h : ∀ x ∈ xs, x < c) :
    mathMax xs < ((c : ℚ) : WithBot ℚ) := by
  induction xs with
  | nil => exact WithBot.bot_lt_coe c
  | cons x xs ih =>
    simp only [mathMax, List.foldr_cons]
    apply max_lt
    · exact WithBot.coe_lt_coe.mpr (h x (List.mem_cons_self _ _))
    · exact ih (fun y hy => h y (List.mem_cons_of_mem _ hy))

theorem meta_balanced_bonus (trader : Trader)
    (hpos : totalCategoryValue trader > 0)
    (hlt : ∀ kv ∈ trader.marketCategories,
      kv.2.value < 4 / 10 * totalCategoryValue trader) :
    (metrics trader).maxCategoryPct < (((4 : ℚ) / 10 : ℚ) : WithBot ℚ) := by
  have htot : (trader.marketCategories.map (fun kv => kv.2.value)).foldl
      (fun sum v => sum + v) 0 = totalCategoryValue trader := by
    rw [foldl_add_eq_sum, zero_add]; rfl
  simp only [metrics, htot, if_pos hpos]
  apply mathMax_lt
  intro x hx
  obtain ⟨kv, hkv, rfl⟩ := List.mem_map.mp hx
  rw [div_lt_iff₀ hpos]
  exact hlt kv hkv

/-- C22 (counterexample). With four categories of values 40, 20, 20 and 20, `categoryCount` is
4 and no category's value is more than 40% of the total, yet the meta score is 0: the largest
share is exactly 40%, which is not below `0.4`. -/
theorem forty_percent_share_no_bonus :
    4 ≤ (metrics fortyPercentTrader).categoryCount ∧
    (∀ kv ∈ fortyPercentTrader.marketCategories,
      kv.2.value ≤ 4 / 10 * totalCategoryValue fortyPercentTrader) ∧
    (classifyTraderStrategy fortyPercentTrader).scores.meta = 0 ∧
    ¬ 20 ≤ (classifyTraderStrategy fortyPercentTrader).scores.meta := by
  have hm : (classifyTraderStrategy fortyPercentTrader).scores.meta = 0 := by
    show (computeScores (metrics fortyPercentTrader)).meta = 0
    simp [computeScores, metrics, fortyPercentTrader, bonus, mathMax]
    norm_num
  refine ⟨?_, ?_, hm, by rw [hm]; decide⟩
  · simp [metrics, fortyPercentTrader]
  · intro kv hkv
    simp only [fortyPercentTrader, List.mem_cons, List.mem_singleton, List.not_mem_nil,
      or_false] at hkv
    rcases hkv with rfl | rfl | rfl | rfl <;>
      norm_num [totalCategoryValue, fortyPercentTrader]

/-- C22 (amended). For every trader summary with `categoryCount ≥ 4` whose total category value
is positive and in which every category's value is strictly less than 40% of that total, the
meta score computed by `classifyTraderStrategy` includes the +20 balanced-exposure bonus, so
that `meta ≥ 20`, `meta ≥ 55` when `categoryCount ≥ 5` and `meta ≥ 75` when
`categoryCount ≥ 7`. -/
theorem meta_balanced_exposure (trader : Trader)
    (hcount : 4 ≤ (metrics trader).categoryCount)
    (hpos : totalCategoryValue trader > 0)
    (hlt : ∀ kv ∈ trader.marketCategories,
      kv.2.value < 4 / 10 * totalCategoryValue trader) :
    20 ≤ (classifyTraderStrategy trader).scores.meta ∧
    (5 ≤ (metrics trader).categoryCount → 55 ≤ (classifyTraderStrategy trader).scores.meta) ∧
    (7 ≤ (metrics trader).categoryCount → 75 ≤ (classifyTraderStrategy trader).scores.meta) := by
  have hb := meta_balanced_bonus trader hpos hlt
  have hmeta : (classifyTraderStrategy trader).scores.meta
      = bonus (decide ((metrics trader).categoryCount ≥ 5)) 35
        + bonus (decide ((metrics trader).categoryCount ≥ 7)) 20
        + 20
        + bonus (decide ((metrics trader).positionCount ≥ 15) &&
            decide ((metrics trader).positionCount ≤ 60) &&
            decide ((metrics trader).categoryCount ≥ 4)) 15 := by
    show (computeScores (metrics trader)).meta = _
    simp only [computeScores]
    have h20 : bonus (decide ((metrics trader).maxCategoryPct < (((4 : ℚ) / 10 : ℚ) : WithBot ℚ))
        && decide ((metrics trader).categoryCount ≥ 4)) 20 = 20 := by
      simp [bonus, hb, hcount]
    rw [h20]
  rw [hmeta]
  refine ⟨by omega, ?_, ?_⟩
  · intro h5
    have : bonus (decide ((metrics trader).categoryCount ≥ 5)) 35 = 35 := by simp [bonus, h5]
    omega
  · intro h7
    have e5 : bonus (decide ((metrics trader).categoryCount ≥ 5)) 35 = 35 := by
      simp [bonus]; omega
    have e7 : bonus (decide ((metrics trader).categoryCount ≥ 7)) 20 = 20 := by simp [bonus, h7]
    omega

theorem meta_balanced_exposure_witness :
    (4 ≤ (metrics balancedTrader).categoryCount ∧ totalCategoryValue balancedTrader > 0 ∧
      ∀ kv ∈ balancedTrader.marketCategories,
        kv.2.value < 4 / 10 * totalCategoryValue balancedTrader) ∧
    20 ≤ (classifyTraderStrategy balancedTrader).scores.meta :=
  have h1 : 4 ≤ (metrics balancedTrader).categoryCount := by simp [metrics, balancedTrader]
  have h2 : totalCategoryValue balancedTrader > 0 := by
    norm_num [totalCategoryValue, balancedTrader]
  have h3 : ∀ kv ∈ balancedTrader.marketCategories,
      kv.2.value < 4 / 10 * totalCategoryValue balancedTrader := by
    intro kv hkv
    simp only [balancedTrader, List.mem_cons, List.mem_singleton, List.not_mem_nil,
      or_false] at hkv
    rcases hkv with rfl | rfl | rfl | rfl <;> norm_num [totalCategoryValue, balancedTrader]
  ⟨⟨h1, h2, h3⟩, (meta_balanced_exposure balancedTrader h1 h2 h3).1⟩

/-- C30. Missing history is scored as zero volatility: for every trader summary that has no
`pnlHistory`, or whose `1D` series has fewer than 2 points, `dailyVolatility` is 0, so
`classifyTraderStrategy` gives a conservative score of at least 55 whenever
`|totalPnl| > 10000` and of at least 25 whenever `|totalPnl| > 5000`, whatever the other
fields of the summary. -/
theorem missing_history_conservative (trader : Trader)
    (hmissing : trader.pnlHistory = none ∨
      ∃ h, trader.pnlHistory = some h ∧ h.s1D.length < 2) :
    (metrics trader).dailyVolatility = 0 ∧
    (|trader.totalPnl| > 10000 → 55 ≤ (classifyTraderStrategy trader).scores.conservative) ∧
    (|trader.totalPnl| > 5000 → 25 ≤ (classifyTraderStrategy trader).scores.conservative) := by
  have hdv : (metrics trader).dailyVolatility = 0 := by
    simp only [metrics]
    rcases hmissing with h | ⟨h, hh, hlen⟩
    · simp [h]
    · have : seriesChange h.s1D = 0 := by
        unfold seriesChange
        rw [if_neg (by omega)]
      simp [hh, this]
  have habs : (metrics trader).absPnl = |trader.totalPnl| := rfl
  have hc : (classifyTraderStrategy trader).scores.conservative
      = bonus (decide ((0 : ℚ) < 1 / 100) && decide (|trader.totalPnl| > 10000)) 30
        + bonus (decide ((0 : ℚ) < 5 / 1000) && decide (|trader.totalPnl| > 5000)) 25
        + bonus (decide ((metrics trader).totalPnl > 0) && decide ((0 : ℚ) < 2 / 100) &&
            decide ((metrics trader).weekChange > 0)) 20
        + bonus (decide ((metrics trader).volumeToPnlRatio < 15) &&
            decide ((metrics trader).totalPnl > 0)) 15 := by
    show (computeScores (metrics trader)).conservative = _
    simp only [computeScores, hdv, habs]
  refine ⟨hdv, ?_, ?_⟩
  · intro h
    have h5 : |trader.totalPnl| > 5000 := by linarith
    have e1 : bonus (decide ((0 : ℚ) < 1 / 100) && decide (|trader.totalPnl| > 10000)) 30 = 30 := by
      have : (0 : ℚ) < 1 / 100 := by norm_num
      simp [bonus, this, h]
    have e2 : bonus (decide ((0 : ℚ) < 5 / 1000) && decide (|trader.totalPnl| > 5000)) 25 = 25 := by
      have : (0 : ℚ) < 5 / 1000 := by norm_num
      simp [bonus, this, h5]
    rw [hc, e1, e2]
    omega
  · intro h5
    have e2 : bonus (decide ((0 : ℚ) < 5 / 1000) && decide (|trader.totalPnl| > 5000)) 25 = 25 := by
      have : (0 : ℚ) < 5 / 1000 := by norm_num
      simp [bonus, this, h5]
    rw [hc, e2]
    omega

theorem missing_history_conservative_witness :
    (noHistoryTrader.pnlHistory = none ∨
      ∃ h, noHistoryTrader.pnlHistory = some h ∧ h.s1D.length < 2) ∧
    (metrics noHistoryTrader).dailyVolatility = 0 :=
  ⟨Or.inl rfl, (missing_history_conservative noHistoryTrader (Or.inl rfl)).1⟩

end Traders

namespace PnlHistory

theorem fallback_ends (rnd : Nat → ℚ) (pp : PeriodPnLs) (trades : List Trade) (now : Int) :
    let r := fetchPnLHistoryFallback rnd pp trades now
    (r.s1D ≠ [] ∧ r.s1D.head?.map Point.pnl = some (pp.all - pp.day) ∧
      r.s1D.getLast?.map Point.pnl = some pp.all) ∧
    (r.s1W ≠ [] ∧ r.s1W.head?.map Point.pnl = some (pp.all - pp.week) ∧
      r.s1W.getLast?.map Point.pnl = some pp.all) ∧
    (r.s1M ≠ [] ∧ r.s1M.head?.map Point.pnl = some (pp.all - pp.month) ∧
      r.s1M.getLast?.map Point.pnl = some pp.all) ∧
    (r.sALL ≠ [] ∧ r.sALL.head?.map Point.pnl = some 0 ∧
      r.sALL.getLast?.map Point.pnl = some pp.all) := by
  apply fallback_series rnd pp trades now
    (fun _ x _ s => s ≠ [] ∧ s.head?.map Point.pnl = some x ∧
      s.getLast?.map Point.pnl = some pp.all)
  intro n a x points _ hp
  have hh := generateTimeline_head rnd n a now x pp.all points (sortTrades trades) (by omega)
  have hl := generateTimeline_last_pnl rnd n a now x pp.all points (sortTrades trades) (by omega)
  refine ⟨?_, ?_, hl⟩
  · intro h0
    rw [h0] at hh
    cases hh
  · rw [hh]; rfl

end PnlHistory

namespace App

theorem readout (trader : ClientTrader) (h : PnlHistory.PnLHistory) (tf : String)
    (series : List PnlHistory.Point) (first last : ℚ)
    (hh : trader.pnlHistory = some h) (hs : h.get? tf = some series) (hne : series ≠ [])
    (hf : series.head?.map PnlHistory.Point.pnl = some first)
    (hl : series.getLast?.map PnlHistory.Point.pnl = some last) :
    getPnLForTimeframe trader tf = if tf = "ALL" then last else last - first := by
  unfold getPnLForTimeframe
  simp only [hh, hs, hf, hl, Option.getD_some]
  rw [if_pos (List.length_pos.mpr hne)]

/-- C29. Round trip between the server-side reconstruction and the client-side read-out: for
every period PnLs `{all, month, week, day}`, every trade list and every jitter, if a trader's
`pnlHistory` is the result of `fetchPnLHistoryFallback`, then `getPnLForTimeframe` returns
exactly `day`, `week` and `month` for `'1D'`, `'1W'` and `'1M'` (last `pnl` minus first `pnl`)
and `all` for `'ALL'`. -/
theorem fallback_round_trip (rnd : Nat → ℚ) (periodPnLs : PnlHistory.PeriodPnLs)
    (trades : List PnlHistory.Trade) (now : Int) (trader : ClientTrader)
    (hhist : trader.pnlHistory
      = some (PnlHistory.fetchPnLHistoryFallback rnd periodPnLs trades now)) :
    getPnLForTimeframe trader "1D" = periodPnLs.day ∧
    getPnLForTimeframe trader "1W" = periodPnLs.week ∧
    getPnLForTimeframe trader "1M" = periodPnLs.month ∧
    getPnLForTimeframe trader "ALL" = periodPnLs.all := by
  obtain ⟨⟨d1, d2, d3⟩, ⟨w1, w2, w3⟩, ⟨m1, m2, m3⟩, ⟨a1, a2, a3⟩⟩ :=
    PnlHistory.fallback_ends rnd periodPnLs trades now
  obtain ⟨g1, g2, g3, g4⟩ :=
    PnlHistory.fields_of_get? (PnlHistory.fetchPnLHistoryFallback rnd periodPnLs trades now)
  refine ⟨?_, ?_, ?_, ?_⟩
  · rw [readout trader _ "1D" _ _ _ hhist g1 d1 d2 d3, if_neg (by decide)]; ring
  · rw [readout trader _ "1W" _ _ _ hhist g2 w1 w2 w3, if_neg (by decide)]; ring
  · rw [readout trader _ "1M" _ _ _ hhist g3 m1 m2 m3, if_neg (by decide)]; ring
  · rw [readout trader _ "ALL" _ _ _ hhist g4 a1 a2 a3, if_pos rfl]

theorem fallback_round_trip_witness :
    roundTripTrader.pnlHistory
      = some (PnlHistory.fetchPnLHistoryFallback (fun _ => 0) ⟨1000, 400, 100, 20⟩ [] 0) ∧
    getPnLForTimeframe roundTripTrader "1D" = (PnlHistory.PeriodPnLs.mk 1000 400 100 20).day :=
  ⟨rfl, (fallback_round_trip (fun _ => 0) ⟨1000, 400, 100, 20⟩ [] 0 roundTripTrader rfl).1⟩

/-- C27 (the code at the documented examples). A name of at most 20 characters is returned
unchanged and a missing name gives `''`; the second documented example maps to
`"0x594e...1C11"`; the first documented example maps to `"0x006c...16ea"`, the first six and the
last four characters of its wallet part, and not to the documented `"0x006c...c16ea"`. -/
theorem truncateTraderName_examples :
    truncateTraderName none = "" ∧
    (∀ name : String, name.length ≤ 20 → truncateTraderName (some name) = name) ∧
    truncateTraderName (some examplePlain) = "0x594e...1C11" ∧
    truncateTraderName (some exampleWithSuffix) = "0x006c...16ea" ∧
    truncateTraderName (some exampleWithSuffix) ≠ "0x006c...c16ea" := by
  refine ⟨rfl, ?_, by decide, by decide, by decide⟩
  intro name hlen
  unfold truncateTraderName
  by_cases h0 : name = ""
  · simp [h0]
  · simp [h0, hlen]

end App

namespace PnlHistory

theorem sortTrades_perm (trades : List Trade) : (sortTrades trades).Perm trades :=
  List.perm_insertionSort _ trades

theorem fetchAllTrades_two_pages (upstream : Nat → PageResult) (f : Nat)
    (hsize : ∀ offset trades, upstream offset = .page trades → trades.length ≤ 100) :
    ∃ s, fetchAllTrades upstream 200 (f + 3) = some s ∧
      s.allTrades = pagesUpToLast upstream ∧
      (s.requested = [0] ∨ s.requested = [0, 100]) ∧
      (s.requested = [0] ↔ (upstream 0).isLast = true) ∧
      s.allTrades.length ≤ 200 := by
  unfold fetchAllTrades pagesUpToLast
  simp only [fetchAllTradesLoop, List.length_nil, Nat.zero_lt_succ, if_true, List.nil_append,
    Nat.zero_add]
  cases h0 : upstream 0 with
  | failed => exact ⟨_, rfl, by simp [PageResult.isLast, PageResult.trades], by simp,
      by simp [PageResult.isLast], by simp⟩
  | notArray => exact ⟨_, rfl, by simp [PageResult.isLast, PageResult.trades], by simp,
      by simp [PageResult.isLast], by simp⟩
  | page t0 =>
    have hl0 := hsize 0 t0 h0
    simp only [PageResult.isLast, PageResult.trades, decide_eq_true_eq]
    by_cases he : t0.length = 0
    · rw [if_pos he]
      have : t0 = [] := List.length_eq_zero.mp he
      subst this
      exact ⟨_, rfl, by simp, by simp, by simp, by simp⟩
    · rw [if_neg he]
      by_cases hs : t0.length < 100
      · rw [if_pos hs]
        exact ⟨_, rfl, by simp [hs], by simp, by simp [hs], by simp; omega⟩
      · rw [if_neg hs]
        have h100 : t0.length = 100 := by omega
        simp only [h100, show (100 : Nat) < 200 by decide, if_true]
        cases h1 : upstream 100 with
        | failed => exact ⟨_, rfl, by simp [hs], by simp, by simp [hs], by simp [h100]⟩
        | notArray => exact ⟨_, rfl, by simp [hs], by simp, by simp [hs], by simp [h100]⟩
        | page t1 =>
          have hl1 := hsize 100 t1 h1
          simp only
          by_cases he1 : t1.length = 0
          · rw [if_pos he1]
            have : t1 = [] := List.length_eq_zero.mp he1
            subst this
            exact ⟨_, rfl, by simp [hs], by simp, by simp [hs], by simp [h100]⟩
          · rw [if_neg he1]
            by_cases hs1 : t1.length < 100
            · rw [if_pos hs1]
              exact ⟨_, rfl, by simp [hs], by simp, by simp [hs],
                by simp [h100]; omega⟩
            · rw [if_neg hs1]
              have h200 : ¬ (t0 ++ t1).length < 200 := by
                rw [List.length_append]; omega
              rw [if_neg h200]
              exact ⟨_, rfl, by simp [hs], by simp, by simp [hs],
                by simp [h100]; omega⟩

/-- C24. For every upstream whose pages contain at most 100 trades each,
`fetchAllTrades(wallet, 200)` terminates after requesting at most two pages (offsets 0 and
100) and returns at most 200 trades, namely the concatenation of the pages up to and including
the first page that is short, empty, not an array or fails; `fetchPnLHistoryFallback` then
orders them by ascending timestamp, a missing timestamp counting as 0. -/
theorem fetchAllTrades_pagination (upstream : Nat → PageResult) (fuel : Nat)
    (hsize : ∀ offset trades, upstream offset = .page trades → trades.length ≤ 100)
    (hfuel : 3 ≤ fuel) :
    ∃ s, fetchAllTrades upstream 200 fuel = some s ∧
      s.allTrades = pagesUpToLast upstream ∧
      (s.requested = [0] ∨ s.requested = [0, 100]) ∧
      (s.requested = [0] ↔ (upstream 0).isLast = true) ∧
      s.allTrades.length ≤ 200 ∧
      SortedByTimestamp (sortTrades s.allTrades) ∧
      (sortTrades s.allTrades).Perm s.allTrades := by
  obtain ⟨f, rfl⟩ : ∃ f, fuel = f + 3 := ⟨fuel - 3, by omega⟩
  obtain ⟨s, h1, h2, h3, h4, h5⟩ := fetchAllTrades_two_pages upstream f hsize
  exact ⟨s, h1, h2, h3, h4, h5, sortTrades_sorted _, sortTrades_perm _⟩

theorem fetchAllTrades_pagination_witness :
    ((∀ offset trades, twoPageUpstream offset = .page trades → trades.length ≤ 100) ∧ 3 ≤ 3) ∧
    ∃ s, fetchAllTrades twoPageUpstream 200 3 = some s ∧
      s.allTrades = pagesUpToLast twoPageUpstream ∧
      (s.requested = [0] ∨ s.requested = [0, 100]) ∧
      (s.requested = [0] ↔ (twoPageUpstream 0).isLast = true) ∧
      s.allTrades.length ≤ 200 ∧
      SortedByTimestamp (sortTrades s.allTrades) ∧
      (sortTrades s.allTrades).Perm s.allTrades :=
  have h : ∀ offset trades, twoPageUpstream offset = .page trades → trades.length ≤ 100 := by
    intro offset trades ht
    unfold twoPageUpstream at ht
    split_ifs at ht
    · cases ht; simp
    · cases ht; simp
  ⟨⟨h, le_refl _⟩, fetchAllTrades_pagination twoPageUpstream 3 h (le_refl _)⟩

theorem tradeObjects_map_some (trades : List Trade) :
    tradeObjects (trades.map some) = some trades := by
  induction trades with
  | nil => rfl
  | cons t ts ih => simp [tradeObjects, ih]

theorem tradeObjects_of_null (raw : List (Option Trade)) (h : none ∈ raw) :
    tradeObjects raw = none := by
  induction raw with
  | nil => cases h
  | cons x xs ih =>
    cases x with
    | none => rfl
    | some t =>
      have hx : none ∈ xs := by
        rcases List.mem_cons.mp h with h | h
        · cases h
        · exact h
      simp [tradeObjects, ih hx]

/-- Every failure of the primary path (transport error, missing or unparsable embedded blob, a
scan that throws) returns the result of the fallback and caches nothing; when the fallback
itself fails on a malformed trade entry its result is `{1D: [], 1W: [], 1M: [], ALL: []}`; on
well-formed trades the function with its handlers is `fetchPnLHistory`. -/
theorem fetchPnLHistoryCaught_failures (apk : List String) (cache : Cache)
    (walletAddress : String) (clockCheck : Int)
    (page : PageOutcome) (clockStore : Int) (rnd : Nat → ℚ) (periodPnLs : PeriodPnLs)
    (rawTrades : List (Option Trade)) (now : Int) :
    (∃ history cache', fetchPnLHistoryCaught apk cache walletAddress clockCheck page clockStore rnd
        periodPnLs rawTrades now = Except.ok (history, cache')) ∧
    (cacheHit cache walletAddress clockCheck = none → page.queries = none →
      fetchPnLHistoryCaught apk cache walletAddress clockCheck page clockStore rnd periodPnLs
          rawTrades now
        = Except.ok (fetchPnLHistoryFallbackCaught rnd periodPnLs rawTrades now, cache)) ∧
    (none ∈ rawTrades →
      fetchPnLHistoryFallbackCaught rnd periodPnLs rawTrades now = PnLHistory.empty) ∧
    ((∃ e, fallbackBody rnd periodPnLs rawTrades now = Except.error e) →
      fetchPnLHistoryFallbackCaught rnd periodPnLs rawTrades now = PnLHistory.empty) ∧
    (∀ trades : List Trade, rawTrades = trades.map some →
      fetchPnLHistoryCaught apk cache walletAddress clockCheck page clockStore rnd periodPnLs
          rawTrades now
        = Except.ok (fetchPnLHistory cache walletAddress
            { arrayPrototypeKeys := apk, clockCheck := clockCheck, queries := page.queries, clockStore := clockStore,
              periodPnLs := periodPnLs, trades := trades, now := now, rnd := rnd })) := by
  refine ⟨?_, ?_, ?_, ?_, ?_⟩
  · unfold fetchPnLHistoryCaught
    cases cacheHit cache walletAddress clockCheck with
    | some data => exact ⟨_, _, rfl⟩
    | none =>
      simp only
      cases hs : scrapeBody apk page with
      | error e => exact ⟨_, _, rfl⟩
      | ok r =>
        cases r with
        | none => exact ⟨_, _, rfl⟩
        | some result => exact ⟨_, _, rfl⟩
  · intro hmiss hq
    unfold fetchPnLHistoryCaught
    rw [hmiss]
    cases page with
    | parsed queries => simp [PageOutcome.queries] at hq
    | transportError => rfl
    | noNextData => rfl
    | parseError => rfl
    | scanError => rfl
  · intro hnull
    unfold fetchPnLHistoryFallbackCaught fallbackBody
    rw [tradeObjects_of_null rawTrades hnull]
  · rintro ⟨e, he⟩
    unfold fetchPnLHistoryFallbackCaught
    rw [he]
  · intro trades hraw
    subst hraw
    have hfb : fetchPnLHistoryFallbackCaught rnd periodPnLs (trades.map some) now
        = fetchPnLHistoryFallback rnd periodPnLs trades now := by
      unfold fetchPnLHistoryFallbackCaught fallbackBody
      rw [tradeObjects_map_some]
    unfold fetchPnLHistoryCaught fetchPnLHistory
    cases cacheHit cache walletAddress clockCheck with
    | some data => rfl
    | none =>
      simp only [hfb]
      unfold fetchPnLHistoryMiss
      cases page with
      | parsed queries =>
        simp only [scrapeBody, PageOutcome.queries]
        cases (scanQueries apk queries).hasVariation <;> rfl
      | transportError => rfl
      | noNextData => rfl
      | parseError => rfl
      | scanError => rfl

/-- C23 (code bug). On the profile blob whose single `portfolio-pnl` entry is keyed
`constructor` with the values 1 and 2, `fetchPnLHistory` completes without raising, but the
object it returns and caches has, besides `1D`, `1W`, `1M` and `ALL` (all four empty), a fifth
own property `constructor` holding the converted entry. -/
theorem scrape_returns_fifth_key :
    "constructor" ∉ timeframeKeys ∧
    fetchPnLHistoryCaught nodeArrayPrototypeKeys Cache.empty "0xabc" 0
        (PageOutcome.parsed constructorQueries) 0 (fun _ => 0) ⟨1000, 400, 100, 20⟩ [] 0
      = Except.ok (constructorResult,
          Cache.empty.set (cacheKey "0xabc") { data := constructorResult, timestamp := 0 }) ∧
    constructorResult.hasOwn "constructor" = true ∧
    constructorResult.s1D = [] ∧ constructorResult.s1W = [] ∧ constructorResult.s1M = [] ∧
    constructorResult.sALL = [] ∧
    PnLHistory.empty.hasOwn "constructor" = false := by
  have hscan : scanQueries nodeArrayPrototypeKeys constructorQueries
      = { result := constructorResult, hasVariation := true } := by decide
  refine ⟨by decide, ?_, by decide, rfl, rfl, rfl, rfl, by decide⟩
  unfold fetchPnLHistoryCaught scrapeBody
  simp only [hscan]
  rfl

end PnlHistory

namespace App

theorem ceil_div_le (x : Int) (c k : Int) (hc : 0 < c) (h : x ≤ k * c) :
    jsCeil ((x : ℚ) / (c : ℚ)) ≤ k := by
  unfold jsCeil
  rw [Int.ceil_le]
  have hc' : (0 : ℚ) < (c : ℚ) := by exact_mod_cast hc
  rw [div_le_iff₀ hc']
  exact_mod_cast h

theorem startedAfter_spec (f : Option Int) (b : Int) (h : startedAfter f b = true) :
    f.getD 0 > b := by
  cases f with
  | none => simp [startedAfter] at h
  | some d =>
    simp only [startedAfter, Bool.and_eq_true, decide_eq_true_eq] at h
    exact h.2

theorem chartWindow_bounds (trader : ClientTrader) (timeframe : String) (now : Int) :
    24 ≤ (chartWindow trader timeframe now).1 ∧ (chartWindow trader timeframe now).1 ≤ 365 := by
  have hh : hourMs = 3600000 := by decide
  have hd : dayMs = 86400000 := by decide
  unfold chartWindow
  simp only
  split_ifs with h1 h2 h3 h4 h5 h6 h7
  · have := startedAfter_spec _ _ h2
    have hc := ceil_div_le (now - trader.firstTradeDate.getD 0) (15 * 60 * 1000) 96 (by decide)
      (by omega)
    simp only
    omega
  · simp
  · have := startedAfter_spec _ _ h4
    have hc := ceil_div_le (now - trader.firstTradeDate.getD 0) hourMs 168 (by decide)
      (by omega)
    simp only
    omega
  · simp
  · have := startedAfter_spec _ _ h6
    have hc := ceil_div_le (now - trader.firstTradeDate.getD 0) (6 * hourMs) 120 (by decide)
      (by omega)
    simp only
    omega
  · simp
  · simp only
    omega
  · simp

theorem walk_fold (seededRandom : ℚ → ℚ) (sqrt : ℚ → ℚ) (seed volatility dataPoints : ℚ)
    (l : List Nat) (s : WalkState) :
    (l.foldl (walkStep seededRandom sqrt seed volatility dataPoints) s).increments.length
        = s.increments.length + l.length ∧
    ((l.foldl (walkStep seededRandom sqrt seed volatility dataPoints) s).sum - s.sum
        = (l.foldl (walkStep seededRandom sqrt seed volatility dataPoints) s).increments.sum
          - s.increments.sum) := by
  induction l generalizing s with
  | nil => simp
  | cons i is ih =>
    rw [List.foldl_cons]
    obtain ⟨h1, h2⟩ := ih (walkStep seededRandom sqrt seed volatility dataPoints s i)
    have e1 : (walkStep seededRandom sqrt seed volatility dataPoints s i).increments.length
        = s.increments.length + 1 := by simp [walkStep]
    have e2 : (walkStep seededRandom sqrt seed volatility dataPoints s i).sum - s.sum
        = (walkStep seededRandom sqrt seed volatility dataPoints s i).increments.sum
          - s.increments.sum := by
      simp only [walkStep, List.sum_append, List.sum_singleton]
      ring
    refine ⟨?_, ?_⟩
    · rw [h1, e1, List.length_cons]; omega
    · linarith

theorem walk_spec (seededRandom : ℚ → ℚ) (sqrt : ℚ → ℚ) (trader : ClientTrader)
    (timeframe : String) (now : Int) :
    (walk seededRandom sqrt trader timeframe now).increments.length
        = ((chartWindow trader timeframe now).1 - 1).toNat ∧
    (walk seededRandom sqrt trader timeframe now).sum
        = (walk seededRandom sqrt trader timeframe now).increments.sum := by
  unfold walk
  simp only
  obtain ⟨h1, h2⟩ := walk_fold seededRandom sqrt (seedOf trader timeframe : ℚ)
    (max (|endPnlOf trader timeframe - 0| * (8 / 10))
      (if |endPnlOf trader timeframe| * (15 / 100) = 0 then 10000
        else |endPnlOf trader timeframe| * (15 / 100)))
    ((chartWindow trader timeframe now).1 : ℚ)
    (List.range ((chartWindow trader timeframe now).1 - 1).toNat)
    { increments := [], sum := 0
      trendDirection := if seededRandom (seedOf trader timeframe : ℚ) > 5 / 10 then 1 else -1
      trendStrength := 0 }
  refine ⟨?_, ?_⟩
  · rw [h1]; simp
  · simp only [List.sum_nil] at h2
    linarith

theorem sum_map_add (l : List ℚ) (c : ℚ) :
    (l.map (fun x => x + c)).sum = l.sum + (l.length : ℚ) * c := by
  induction l with
  | nil => simp
  | cons x xs ih =>
    simp only [List.map_cons, List.sum_cons, ih, List.length_cons, Nat.cast_succ]
    ring

theorem adjusted_spec (seededRandom : ℚ → ℚ) (sqrt : ℚ → ℚ) (trader : ClientTrader)
    (timeframe : String) (now : Int) :
    (adjustedIncrements seededRandom sqrt trader timeframe now).length
        = ((chartWindow trader timeframe now).1 - 1).toNat ∧
    (adjustedIncrements seededRandom sqrt trader timeframe now).sum
        = endPnlOf trader timeframe := by
  obtain ⟨h1, h2⟩ := walk_spec seededRandom sqrt trader timeframe now
  obtain ⟨hb, -⟩ := chartWindow_bounds trader timeframe now
  unfold adjustedIncrements
  simp only
  refine ⟨by rw [List.length_map, h1], ?_⟩
  rw [sum_map_add, h1, ← h2]
  have hn : ((((chartWindow trader timeframe now).1 - 1).toNat : Nat) : ℚ)
      = (((chartWindow trader timeframe now).1 - 1 : Int) : ℚ) := by
    have : ((((chartWindow trader timeframe now).1 - 1).toNat : Nat) : Int)
        = (chartWindow trader timeframe now).1 - 1 := Int.toNat_of_nonneg (by omega)
    exact_mod_cast this
  rw [hn]
  have hne : (((chartWindow trader timeframe now).1 - 1 : Int) : ℚ) ≠ 0 := by
    have : (chartWindow trader timeframe now).1 - 1 ≠ 0 := by omega
    exact_mod_cast this
  generalize (((chartWindow trader timeframe now).1 - 1 : Int) : ℚ) = n at hne
  have e : n * ((endPnlOf trader timeframe - 0
      - (walk seededRandom sqrt trader timeframe now).sum) / n)
      = endPnlOf trader timeframe - 0 - (walk seededRandom sqrt trader timeframe now).sum := by
    field_simp
  rw [e]
  ring

theorem path_fold (startTime intervalMs : ℚ) (l : List (Nat × ℚ)) (s : PathState) :
    (l.foldl (pathStep startTime intervalMs) s).history.length = s.history.length + l.length ∧
    (l.foldl (pathStep startTime intervalMs) s).currentPnl
      = s.currentPnl + (l.map Prod.snd).sum ∧
    (s.history ≠ [] →
      (l.foldl (pathStep startTime intervalMs) s).history.head? = s.history.head?) := by
  induction l generalizing s with
  | nil => simp
  | cons e es ih =>
    rw [List.foldl_cons]
    obtain ⟨h1, h2, h3⟩ := ih (pathStep startTime intervalMs s e)
    refine ⟨?_, ?_, ?_⟩
    · rw [h1]; simp [pathStep]; omega
    · rw [h2]; simp [pathStep]; ring
    · intro hne
      rw [h3 (by simp [pathStep])]
      simp only [pathStep]
      cases hs : s.history with
      | nil => exact absurd hs hne
      | cons p ps => rfl

theorem pinEnd_spec (history : List ChartPoint) (v : ℚ) (hne : history ≠ []) :
    (pinEnd history v).length = history.length ∧
    (pinEnd history v).getLast?.map ChartPoint.pnl = some v ∧
    (2 ≤ history.length → (pinEnd history v).head? = history.head?) := by
  rcases List.eq_nil_or_concat history with h | ⟨l, p, h⟩
  · exact absurd h hne
  · rw [List.concat_eq_append] at h
    subst h
    have e : pinEnd (l ++ [p]) v = l ++ [{ p with pnl := v }] := by
      unfold pinEnd
      rw [List.getLast?_concat]
      simp [List.dropLast_concat]
    rw [e]
    refine ⟨by simp, by rw [List.getLast?_concat]; rfl, ?_⟩
    intro h2
    cases l with
    | nil => simp at h2
    | cons a as => rfl

theorem pathBeforePin_spec (seededRandom : ℚ → ℚ) (sqrt : ℚ → ℚ) (trader : ClientTrader)
    (timeframe : String) (now : Int) :
    ((pathBeforePin seededRandom sqrt trader timeframe now).history.length : Int)
        = (chartWindow trader timeframe now).1 ∧
    (pathBeforePin seededRandom sqrt trader timeframe now).currentPnl
        = endPnlOf trader timeframe ∧
    (pathBeforePin seededRandom sqrt trader timeframe now).history.head?.map ChartPoint.pnl
        = some 0 := by
  obtain ⟨a1, a2⟩ := adjusted_spec seededRandom sqrt trader timeframe now
  obtain ⟨hb, -⟩ := chartWindow_bounds trader timeframe now
  unfold pathBeforePin
  simp only
  obtain ⟨h1, h2, h3⟩ := path_fold ((chartWindow trader timeframe now).2 : ℚ)
    ((((now - (chartWindow trader timeframe now).2 : Int) : ℚ))
      / ((((chartWindow trader timeframe now).1 - 1 : Int) : ℚ)))
    (adjustedIncrements seededRandom sqrt trader timeframe now).enum
    { history := [{ timestamp := ((chartWindow trader timeframe now).2 : ℚ), pnl := 0 }],
      currentPnl := 0 }
  refine ⟨?_, ?_, ?_⟩
  · rw [h1]
    simp only [List.length_singleton, List.enum_length, a1]
    have := Int.toNat_of_nonneg (show 0 ≤ (chartWindow trader timeframe now).1 - 1 by omega)
    push_cast
    omega
  · rw [h2]
    simp only [List.enum_map_snd, a2, zero_add]
  · rw [h3 (by simp)]
    rfl

/-- C28. For every trader and every timeframe in `{1D, 1W, 1M, ALL}`, and whatever values the
seeded random function yields, the client-side series returned by
`generateFallbackTimeframeData` has between 24 and 365 points, starts with `pnl` 0 and ends
with `pnl` exactly equal to the target: the trader's all-time PnL for `ALL` and the period PnL
(`periodPnLs` `DAY`/`WEEK`/`MONTH`, 0 when unknown) for `1D`/`1W`/`1M`; before the final pin,
the adjusted increments already sum to that target, and so does the running `currentPnl`. -/
theorem fallback_chart_series (seededRandom : ℚ → ℚ) (sqrt : ℚ → ℚ) (trader : ClientTrader)
    (timeframe : String) (now : Int)
    (htf : timeframe ∈ ["1D", "1W", "1M", "ALL"]) :
    (24 ≤ (generateFallbackTimeframeData seededRandom sqrt trader timeframe now).length ∧
      (generateFallbackTimeframeData seededRandom sqrt trader timeframe now).length ≤ 365) ∧
    (generateFallbackTimeframeData seededRandom sqrt trader timeframe now).head?.map
        ChartPoint.pnl = some 0 ∧
    (generateFallbackTimeframeData seededRandom sqrt trader timeframe now).getLast?.map
        ChartPoint.pnl = some (endPnlOf trader timeframe) ∧
    (adjustedIncrements seededRandom sqrt trader timeframe now).sum = endPnlOf trader timeframe ∧
    (pathBeforePin seededRandom sqrt trader timeframe now).currentPnl
        = endPnlOf trader timeframe ∧
    (endPnlOf trader "ALL" = allTimePnL trader ∧
      endPnlOf trader "1D" = (periodPnlOf trader "DAY").getD 0 ∧
      endPnlOf trader "1W" = (periodPnlOf trader "WEEK").getD 0 ∧
      endPnlOf trader "1M" = (periodPnlOf trader "MONTH").getD 0) := by
  obtain ⟨p1, p2, p3⟩ := pathBeforePin_spec seededRandom sqrt trader timeframe now
  obtain ⟨hb1, hb2⟩ := chartWindow_bounds trader timeframe now
  have hne : (pathBeforePin seededRandom sqrt trader timeframe now).history ≠ [] := by
    intro h0
    rw [h0] at p1
    simp only [List.length_nil, Nat.cast_zero] at p1
    omega
  obtain ⟨q1, q2, q3⟩ := pinEnd_spec (pathBeforePin seededRandom sqrt trader timeframe now).history
    (endPnlOf trader timeframe) hne
  have hlen : ((generateFallbackTimeframeData seededRandom sqrt trader timeframe now).length : Int)
      = (chartWindow trader timeframe now).1 := by
    unfold generateFallbackTimeframeData
    rw [q1, p1]
  refine ⟨⟨by omega, by omega⟩, ?_, q2, (adjusted_spec seededRandom sqrt trader timeframe now).2,
    p2, rfl, rfl, rfl, rfl⟩
  unfold generateFallbackTimeframeData
  rw [q3 (by omega), p3]

theorem fallback_chart_series_witness :
    "1D" ∈ ["1D", "1W", "1M", "ALL"] ∧
    (24 ≤ (generateFallbackTimeframeData (fun _ => 0) (fun _ => 1) chartTrader "1D"
        1700000000000).length ∧
      (generateFallbackTimeframeData (fun _ => 0) (fun _ => 1) chartTrader "1D"
        1700000000000).length ≤ 365) :=
  ⟨by decide,
    (fallback_chart_series (fun _ => 0) (fun _ => 1) chartTrader "1D" 1700000000000
      (by decide)).1⟩

end App

namespace Api

theorem batchesLoop_spec (c n : Nat) (hc : 1 ≤ c) (fuel i : Nat) (hfuel : n - i ≤ fuel) :
    (batchesLoop c n fuel i).flatten = List.range' i (n - i) ∧
    ∀ b ∈ batchesLoop c n fuel i, b ≠ [] ∧ b.length ≤ c := by
  induction fuel generalizing i with
  | zero =>
    have : n - i = 0 := by omega
    simp [batchesLoop, this]
  | succ fuel ih =>
    unfold batchesLoop
    by_cases hi : i < n
    · rw [if_pos hi]
      obtain ⟨h1, h2⟩ := ih (i + c) (by omega)
      refine ⟨?_, ?_⟩
      · rw [List.flatten_cons, h1]
        have e := List.range'_append i (min (i + c) n - i) (n - (i + c)) 1
        rw [Nat.one_mul] at e
        have e1 : i + (min (i + c) n - i) = min (i + c) n := by omega
        rw [e1] at e
        by_cases hle : i + c ≤ n
        · have e2 : min (i + c) n = i + c := by omega
          rw [e2] at e ⊢
          rw [e]
          congr 1
          omega
        · have e3 : n - (i + c) = 0 := by omega
          have e4 : min (i + c) n = n := by omega
          rw [e3, e4]
          simp
      · intro b hb
        rcases List.mem_cons.mp hb with rfl | hb
        · constructor
          · intro h0
            have := congrArg List.length h0
            simp only [List.length_range', List.length_nil] at this
            omega
          · simp only [List.length_range']
            omega
        · exact h2 b hb
    · rw [if_neg hi]
      have : n - i = 0 := by omega
      simp [this]

theorem batches_spec (quickRefresh : Bool) (n : Nat) :
    (batches quickRefresh n).flatten = List.range n ∧
    ∀ b ∈ batches quickRefresh n, b ≠ [] ∧ b.length ≤ concurrencyOf quickRefresh := by
  have hc : 1 ≤ concurrencyOf quickRefresh := by
    unfold concurrencyOf; split_ifs <;> omega
  obtain ⟨h1, h2⟩ := batchesLoop_spec (concurrencyOf quickRefresh) n hc n 0 (by omega)
  refine ⟨?_, h2⟩
  unfold batches
  rw [h1, List.range_eq_range']
  rfl

theorem foldl_batches {α β : Type} (f : β → α → β) (schedule : List α → List α)
    (bs : List (List α)) (s : β) :
    bs.foldl (fun s b => (schedule b).foldl f s) s = ((bs.map schedule).flatten).foldl f s := by
  induction bs generalizing s with
  | nil => rfl
  | cons b bs ih =>
    rw [List.foldl_cons, ih, List.map_cons, List.flatten_cons, List.foldl_append]

theorem scheduled_events (schedule : List Nat → List Nat)
    (hs : ∀ b, (schedule b).Perm b) (bs : List (List Nat)) :
    (∀ i, i ∈ (bs.map schedule).flatten ↔ i ∈ bs.flatten) ∧
    ((bs.map schedule).flatten).length = bs.flatten.length := by
  induction bs with
  | nil => simp
  | cons b bs ih =>
    obtain ⟨h1, h2⟩ := ih
    refine ⟨?_, ?_⟩
    · intro i
      simp only [List.map_cons, List.flatten_cons, List.mem_append, h1 i, (hs b).mem_iff]
    · simp only [List.map_cons, List.flatten_cons, List.length_append, h2, (hs b).length_eq]

theorem complete_fold {σ : Type} (traders : List WatchTrader) (outcome : Nat → Outcome σ)
    (quickRefresh : Bool) (existingData : List Existing) (es : List Nat) (s : Progress σ) :
    (es.foldl (complete traders outcome quickRefresh existingData) s).results.length
        = s.results.length ∧
    (∀ i, (es.foldl (complete traders outcome quickRefresh existingData) s).results[i]?
        = if i ∈ es ∧ i < s.results.length
          then some (entryFor traders outcome quickRefresh existingData i)
          else s.results[i]?) ∧
    (es.foldl (complete traders outcome quickRefresh existingData) s).completed
        = s.completed + es.length ∧
    (es.foldl (complete traders outcome quickRefresh existingData) s).calls.map Prod.fst
        = s.calls.map Prod.fst ++ List.range' (s.completed + 1) es.length ∧
    (∀ call ∈ (es.foldl (complete traders outcome quickRefresh existingData) s).calls,
        call ∈ s.calls ∨ call.2.1 = traders.length) := by
  induction es generalizing s with
  | nil =>
    refine ⟨rfl, by simp, by simp, by simp, fun call h => Or.inl h⟩
  | cons e es ih =>
    rw [List.foldl_cons]
    obtain ⟨h1, h2, h3, h4, h5⟩ := ih (complete traders outcome quickRefresh existingData s e)
    have hlen : (complete traders outcome quickRefresh existingData s e).results.length
        = s.results.length := by simp [complete]
    refine ⟨by rw [h1, hlen], ?_, ?_, ?_, ?_⟩
    · intro i
      rw [h2 i, hlen]
      by_cases hi : i < s.results.length
      · by_cases hmem : i ∈ es
        · simp [hmem, hi]
        · by_cases hie : i = e
          · subst hie
            simp [hmem, hi, complete, List.getElem?_set]
          · have hne : ¬ e = i := fun h => hie h.symm
            simp [hmem, hi, hie, hne, complete, List.getElem?_set]
      · have hnone : s.results[i]? = none := List.getElem?_eq_none (by omega)
        by_cases hie : e = i
        · subst hie
          simp [hi, complete, List.getElem?_set, hnone]
        · simp [hi, complete, List.getElem?_set, hie]
    · rw [h3]; simp [complete]; omega
    · rw [h4]
      simp only [complete, List.map_append, List.map_cons, List.map_nil, List.length_cons,
        List.append_assoc, List.singleton_append]
      rw [List.range'_succ]
    · intro call hcall
      rcases h5 call hcall with h | h
      · simp only [complete, List.mem_append, List.mem_singleton] at h
        rcases h with h | h
        · exact Or.inl h
        · right; rw [h]
      · exact Or.inr h

theorem entryFor_trader {σ : Type} (traders : List WatchTrader) (outcome : Nat → Outcome σ)
    (quickRefresh : Bool) (existingData : List Existing) (i : Nat) (t : WatchTrader)
    (ht : traders[i]? = some t) :
    ∃ e, entryFor traders outcome quickRefresh existingData i = some e ∧ e.trader = t := by
  unfold entryFor
  rw [ht]
  simp only
  cases outcome i with
  | summary s => exact ⟨_, rfl, rfl⟩
  | thrown m => exact ⟨_, rfl, rfl⟩

theorem fetchAllTradersData_spec {σ : Type} (traders : List WatchTrader)
    (outcome : Nat → Outcome σ) (quickRefresh : Bool) (existingData : List Existing)
    (schedule : List Nat → List Nat) (hs : ∀ b, (schedule b).Perm b) :
    (fetchAllTradersData traders outcome quickRefresh existingData schedule).results
        = (List.range traders.length).map
            (fun i => entryFor traders outcome quickRefresh existingData i) ∧
    (fetchAllTradersData traders outcome quickRefresh existingData schedule).completed
        = traders.length ∧
    (fetchAllTradersData traders outcome quickRefresh existingData schedule).calls.map Prod.fst
        = List.range' 1 traders.length ∧
    (∀ call ∈ (fetchAllTradersData traders outcome quickRefresh existingData schedule).calls,
        call.2.1 = traders.length) := by
  obtain ⟨b1, -⟩ := batches_spec quickRefresh traders.length
  obtain ⟨e1, e2⟩ := scheduled_events schedule hs (batches quickRefresh traders.length)
  rw [b1] at e1 e2
  unfold fetchAllTradersData
  rw [foldl_batches]
  obtain ⟨h1, h2, h3, h4, h5⟩ := complete_fold traders outcome quickRefresh existingData
    (((batches quickRefresh traders.length).map schedule).flatten)
    { results := List.replicate traders.length none, completed := 0, calls := [] }
  refine ⟨?_, ?_, ?_, ?_⟩
  · apply List.ext_getElem?
    intro i
    rw [h2 i]
    simp only [List.length_replicate, e1 i, List.mem_range, and_self, List.getElem?_map]
    by_cases hi : i < traders.length
    · rw [if_pos hi, List.getElem?_range hi]; rfl
    · rw [if_neg hi]
      rw [List.getElem?_eq_none (by simp; omega), List.getElem?_eq_none (by simp; omega)]
      rfl
  · rw [h3, e2]; simp
  · rw [h4, e2]; simp
  · intro call hcall
    rcases h5 call hcall with h | h
    · cases h
    · exact h

/-- C25. For every watchlist of `N` traders and every per-trader outcome (a summary or a thrown
error), `fetchAllTradersData` returns an array of exactly `N` entries in which entry `i`
carries the id, name and wallet of input trader `i`, whatever the order in which the requests
of a batch settle; the traders are processed in consecutive batches that partition the indices
`0..N-1`, each batch holding at most `C` indices with `C = 10` in quick-refresh mode and
`C = 6` otherwise, and the progress callback is invoked exactly `N` times, with completed
counts `1..N` and total `N`. -/
theorem orchestrator_results {σ : Type} (traders : List WatchTrader)
    (outcome : Nat → Outcome σ) (quickRefresh : Bool) (existingData : List Existing)
    (schedule : List Nat → List Nat) (hschedule : ∀ batch, (schedule batch).Perm batch) :
    (fetchAllTradersData traders outcome quickRefresh existingData schedule).results.length
        = traders.length ∧
    (∀ (i : Nat) (t : WatchTrader), traders[i]? = some t →
      ∃ e, (fetchAllTradersData traders outcome quickRefresh existingData schedule).results[i]?
          = some (some e) ∧
        e.trader.id = t.id ∧ e.trader.name = t.name ∧ e.trader.wallet = t.wallet) ∧
    (fetchAllTradersData traders outcome quickRefresh existingData schedule).results
        = (fetchAllTradersData traders outcome quickRefresh existingData id).results ∧
    ((batches quickRefresh traders.length).flatten = List.range traders.length ∧
      (∀ batch ∈ batches quickRefresh traders.length,
        batch ≠ [] ∧ batch.length ≤ concurrencyOf quickRefresh) ∧
      concurrencyOf true = 10 ∧ concurrencyOf false = 6) ∧
    ((fetchAllTradersData traders outcome quickRefresh existingData schedule).calls.length
        = traders.length ∧
      (fetchAllTradersData traders outcome quickRefresh existingData schedule).calls.map Prod.fst
        = List.range' 1 traders.length ∧
      ∀ call ∈ (fetchAllTradersData traders outcome quickRefresh existingData schedule).calls,
        call.2.1 = traders.length) := by
  obtain ⟨r1, -, r3, r4⟩ :=
    fetchAllTradersData_spec traders outcome quickRefresh existingData schedule hschedule
  obtain ⟨i1, -, -, -⟩ :=
    fetchAllTradersData_spec traders outcome quickRefresh existingData id
      (fun b => List.Perm.refl b)
  obtain ⟨b1, b2⟩ := batches_spec quickRefresh traders.length
  refine ⟨by rw [r1]; simp, ?_, by rw [r1, i1], ⟨b1, b2, rfl, rfl⟩, ?_, r3, r4⟩
  · intro i t ht
    obtain ⟨e, he, het⟩ := entryFor_trader traders outcome quickRefresh existingData i t ht
    refine ⟨e, ?_, by rw [het], by rw [het], by rw [het]⟩
    have hi : i < traders.length := by
      by_contra h
      rw [List.getElem?_eq_none (by omega)] at ht
      cases ht
    rw [r1, List.getElem?_map, List.getElem?_range hi]
    simp only [Option.map_some', he]
  · have := congrArg List.length r3
    simpa using this

theorem orchestrator_results_witness :
    (∀ batch : List Nat, (List.reverse batch).Perm batch) ∧
    (fetchAllTradersData sampleWatchlist sampleOutcome false [] List.reverse).results.length
        = sampleWatchlist.length :=
  ⟨fun batch => List.reverse_perm batch,
    (orchestrator_results sampleWatchlist sampleOutcome false [] List.reverse
      (fun batch => List.reverse_perm batch)).1⟩

end Api
